import Mathlib

/-!
Shallow embedding of the dom-batch repository.

The primary model follows src/lib/fastdom.js: a scheduler with a job
registry keyed by strictly increasing numeric ids, a read queue and a
write queue of ids, a mode state machine (null / reading / writing), a
pending flag, and a frame callback facility (requestAnimationFrame)
modelled as an explicit queue of host callbacks with numeric handles.

Client callbacks are deeply embedded as an inductive program type, so
that a callback running inside a frame can itself call read / write /
clear / defer, exactly as in the JavaScript.  Machine behaviour that the
claims depend on is modelled faithfully: the truthiness-based dequeue of
FastDom.prototype._run, the live (non-snapshot) queue iteration, the
per-job try/catch with optional onError handler, the immediate
synchronous invocation of the wrapped closure in defer, and the caf-only
clearing of defer jobs.

A second, small model follows the bundled variant in src/unnamed/part_000
(FastDom with Sandbox): tasks are identified by allocation tokens
standing for JavaScript object identity, and the sandbox keeps shadow
lists which clearAll iterates with a cached length while splicing.
-/

namespace DomBatch

/-- Execution phase of the scheduler: `this.mode` is `'reading'`,
`'writing'` or `null` (modelled by `Option Mode`). -/
inductive Mode where
  | reading
  | writing
deriving DecidableEq, Repr

/-- Job class stored in `job.type`: `'read'`, `'write'` or `'defer'`. -/
inductive JType where
  | read
  | write
  | defer
deriving DecidableEq, Repr

/-- A thrown value: either a user exception with a numeric payload, or
the TypeError raised when the strict-mode `wrapped` closure in `defer`
evaluates `this.onError` with `this` undefined. -/
inductive Err where
  | user (e : Nat)
  | typeError
deriving DecidableEq, Repr

/-- Deeply embedded client callback programs.  A callback may submit
further reads/writes, clear a job by id, defer a callback by a frame
count, or throw.  `seq`/`nop` give sequencing. -/
inductive Prog where
  | nop
  | seq (p q : Prog)
  | read (cb : Prog)
  | write (cb : Prog)
  | clear (id : Nat)
  | defer (frames : Int) (cb : Prog)
  | throwErr (e : Nat)
deriving DecidableEq, Repr

/-- A job record as stored in `this.jobs[id]`.  The `ctx` field of the
source only selects the `this` binding for the callback and has no
effect on scheduler state, so it is omitted.  `timer` is the raf handle
of a defer job's pending frame callback (`job.timer`). -/
structure Job where
  id : Nat
  fn : Prog
  type : JType
  timer : Option Nat := none
deriving DecidableEq, Repr

/-- A host frame callback registered with raf: either the scheduler's
`_frame`, or one step of a defer job's self-rescheduling `wrapped`
closure carrying the current (post-decrement) counter value. -/
inductive RafCb where
  | frame
  | deferStep (jobId : Nat) (frames : Int) (cb : Prog)
deriving DecidableEq, Repr

/-- Scheduler state (a FastDom instance plus its host environment).
`rafQueue` holds the host's pending frame callbacks with their handles,
in registration order; `rafNext` allocates handles.  `log` records every
callback invocation as (job class, job id), `onErrorLog` the errors
delivered to a registered `onError` handler, `uncaughtErrors` the errors
that escaped to the host.  `handlerSet` says whether `onError` is set. -/
structure St where
  lastId : Nat := 0
  jobs : Nat → Option Job := fun _ => none
  mode : Option Mode := none
  pending : Bool := false
  queueRead : List Nat := []
  queueWrite : List Nat := []
  rafQueue : List (Nat × RafCb) := []
  rafNext : Nat := 1
  log : List (JType × Nat) := []
  onErrorLog : List Err := []
  uncaughtErrors : List Err := []
  handlerSet : Bool := false

/-- The freshly constructed scheduler (`new FastDom()`), idle. -/
def initSt : St := {}

/-- `_uniqueId` + `_add`: allocate `++this.lastId` and store the job. -/
def addJob (t : JType) (fn : Prog) (s : St) : Nat × St :=
  let i := s.lastId + 1
  (i, { s with
          lastId := i,
          jobs := fun j => if j = i then some ⟨i, fn, t, none⟩ else s.jobs j })

/-- Update `job.timer` on the registry record, if the id is present. -/
def setTimer (i h : Nat) (s : St) : St :=
  { s with jobs := fun j =>
      if j = i then (s.jobs i).map (fun jb => { jb with timer := some h })
      else s.jobs j }

/-- `FastDom.prototype._request`: the four guards, then raf. -/
def requestOp (t : JType) (s : St) : St :=
  if s.mode = some Mode.writing ∧ t = JType.write then s
  else if s.mode = some Mode.reading ∧ t = JType.read then s
  else if s.mode = some Mode.reading ∧ t = JType.write then s
  else if s.pending then s
  else { s with
           rafQueue := s.rafQueue ++ [(s.rafNext, RafCb.frame)],
           rafNext := s.rafNext + 1,
           pending := true }

/-- `FastDom.prototype.read`: add job, push id on read queue, request. -/
def readOp (cb : Prog) (s : St) : St :=
  let (i, s1) := addJob JType.read cb s
  requestOp JType.read { s1 with queueRead := s1.queueRead ++ [i] }

/-- `FastDom.prototype.write`: add job, push id on write queue, request. -/
def writeOp (cb : Prog) (s : St) : St :=
  let (i, s1) := addJob JType.write cb s
  requestOp JType.write { s1 with queueWrite := s1.queueWrite ++ [i] }

/-- `FastDom.prototype.clear`: absent ids are ignored; defer jobs get
`caf(job.timer)` and nothing else (the registry record stays); read and
write jobs are spliced out of their queue and deleted from the registry. -/
def clearOp (i : Nat) (s : St) : St :=
  match s.jobs i with
  | none => s
  | some job =>
    if job.type = JType.defer then
      match job.timer with
      | none => s
      | some h => { s with rafQueue := s.rafQueue.filter (fun e => e.1 ≠ h) }
    else
      let s1 := { s with
        queueRead := if job.type = JType.read then s.queueRead.erase i
                     else s.queueRead,
        queueWrite := if job.type = JType.write then s.queueWrite.erase i
                      else s.queueWrite }
      { s1 with jobs := fun j => if j = i then none else s1.jobs j }

/-- Run a client program.  `defer` follows the source: negative counts
return immediately; otherwise the job is added and the `wrapped` closure
is invoked at once — with counter 0 the callback runs synchronously
(its invocation is recorded in the log), and a throw there makes the
strict-mode catch handler raise a TypeError that escapes the `defer`
call; with a positive counter the decremented step is scheduled with
raf and its handle stored in `job.timer`. -/
def execP : Prog → St → St × Option Err
  | Prog.nop, s => (s, none)
  | Prog.seq p q, s =>
    match execP p s with
    | (s1, none) => execP q s1
    | (s1, some e) => (s1, some e)
  | Prog.read cb, s => (readOp cb s, none)
  | Prog.write cb, s => (writeOp cb s, none)
  | Prog.clear i, s => (clearOp i s, none)
  | Prog.defer n cb, s =>
    if n < 0 then (s, none)
    else
      let (i, s1) := addJob JType.defer cb s
      if n = 0 then
        let s2 := { s1 with log := s1.log ++ [(JType.defer, i)] }
        match execP cb s2 with
        | (s3, none) => (s3, none)
        | (s3, some _) => (s3, some Err.typeError)
      else
        let h := s1.rafNext
        let s2 := { s1 with
                      rafNext := h + 1,
                      rafQueue := s1.rafQueue ++ [(h, RafCb.deferStep i (n-1) cb)] }
        (setTimer i h s2, none)
  | Prog.throwErr e, s => (s, some (Err.user e))

/-- The queue selected by `this.queue[type]` (only read and write exist). -/
def getQueue : JType → St → List Nat
  | JType.read, s => s.queueRead
  | JType.write, s => s.queueWrite
  | JType.defer, _ => []

/-- Replace the selected queue. -/
def setQueue : JType → List Nat → St → St
  | JType.read, q, s => { s with queueRead := q }
  | JType.write, q, s => { s with queueWrite := q }
  | JType.defer, _, s => s

/-- `FastDom.prototype._run`: `while (id = list.shift())` on the live
queue.  The shift happens first; a falsy (0 / undefined) value stops the
loop.  For a truthy id the job is looked up (an absent record would make
the `job.ctx` access throw outside the try, escaping `_run`), deleted
from the registry, its invocation logged, and its callback run under
try/catch: a thrown error goes to `onError` when a handler is set and is
otherwise dropped.  `fuel` bounds the iteration count of the model. -/
def runQueue (t : JType) : Nat → St → St × Option Err
  | 0, s => (s, none)
  | fuel+1, s =>
    match getQueue t s with
    | [] => (s, none)
    | i :: rest =>
      let s1 := setQueue t rest s
      if i = 0 then (s1, none)
      else
        match s1.jobs i with
        | none => (s1, some Err.typeError)
        | some job =>
          let s2 := { s1 with jobs := fun j => if j = i then none else s1.jobs j }
          let s3 := { s2 with log := s2.log ++ [(job.type, i)] }
          match execP job.fn s3 with
          | (s4, none) => runQueue t fuel s4
          | (s4, some e) =>
            let s5 := if s4.handlerSet
                      then { s4 with onErrorLog := s4.onErrorLog ++ [e] }
                      else s4
            runQueue t fuel s5

/-- Reference drain, written from the specification words: run every
dequeued id unconditionally, with no truthiness test on the id.  Used
only to compare against `runQueue` (claim C10). -/
def runQueueNoCheck (t : JType) : Nat → St → St × Option Err
  | 0, s => (s, none)
  | fuel+1, s =>
    match getQueue t s with
    | [] => (s, none)
    | i :: rest =>
      let s1 := setQueue t rest s
      match s1.jobs i with
      | none => (s1, some Err.typeError)
      | some job =>
        let s2 := { s1 with jobs := fun j => if j = i then none else s1.jobs j }
        let s3 := { s2 with log := s2.log ++ [(job.type, i)] }
        match execP job.fn s3 with
        | (s4, none) => runQueueNoCheck t fuel s4
        | (s4, some e) =>
          let s5 := if s4.handlerSet
                    then { s4 with onErrorLog := s4.onErrorLog ++ [e] }
                    else s4
          runQueueNoCheck t fuel s5

/-- `FastDom.prototype._frame`: clear pending, drain reads in mode
reading, drain writes in mode writing, reset mode.  An error escaping
`_run` (impossible in reachable states) would leave `_frame` early and
reach the host. -/
def fastFrame (fuel : Nat) (s : St) : St :=
  let s1 := { s with pending := false, mode := some Mode.reading }
  match runQueue JType.read fuel s1 with
  | (s2, some e) => { s2 with uncaughtErrors := s2.uncaughtErrors ++ [e] }
  | (s2, none) =>
    let s3 := { s2 with mode := some Mode.writing }
    match runQueue JType.write fuel s3 with
    | (s4, some e) => { s4 with uncaughtErrors := s4.uncaughtErrors ++ [e] }
    | (s4, none) => { s4 with mode := none }

/-- Dispatch one host frame callback.  A `deferStep` with counter 0 runs
the callback (a throw there becomes an uncaught TypeError at the host,
per the strict-mode `this.onError` access); with a positive counter it
re-registers itself decremented and updates `job.timer`. -/
def runRafCb (fuel : Nat) (c : RafCb) (s : St) : St :=
  match c with
  | RafCb.frame => fastFrame fuel s
  | RafCb.deferStep i v cb =>
    if v = 0 then
      let s1 := { s with log := s.log ++ [(JType.defer, i)] }
      match execP cb s1 with
      | (s2, none) => s2
      | (s2, some _) => { s2 with uncaughtErrors := s2.uncaughtErrors ++ [Err.typeError] }
    else
      let h := s.rafNext
      let s1 := { s with
                    rafNext := h + 1,
                    rafQueue := s.rafQueue ++ [(h, RafCb.deferStep i (v-1) cb)] }
      setTimer i h s1

/-- Dispatch a list of frame callbacks in order (the host runs each
callback registered before the frame; exceptions in one callback do not
stop the others). -/
def runRafList (fuel : Nat) : List (Nat × RafCb) → St → St
  | [], s => s
  | c :: cs, s => runRafList fuel cs (runRafCb fuel c.2 s)

/-- One frame boundary: the host detaches the current raf registration
list and dispatches it; callbacks registered during dispatch run at the
next boundary. -/
def frameBoundary (fuel : Nat) (s : St) : St :=
  runRafList fuel s.rafQueue { s with rafQueue := [] }

/-- Advance `k` frame boundaries. -/
def runFrames (fuel : Nat) : Nat → St → St
  | 0, s => s
  | k+1, s => runFrames fuel k (frameBoundary fuel s)

/-- One top-level submission in a synchronous turn. -/
inductive Sub where
  | sread (cb : Prog)
  | swrite (cb : Prog)
deriving DecidableEq, Repr

/-- Run one submission. -/
def runSub : Sub → St → St
  | Sub.sread cb, s => readOp cb s
  | Sub.swrite cb, s => writeOp cb s

/-- Run a synchronous turn of submissions, in order. -/
def runTurn : List Sub → St → St
  | [], s => s
  | x :: xs, s => runTurn xs (runSub x s)

/-- The callback body of a submission. -/
def Sub.cb : Sub → Prog
  | Sub.sread cb => cb
  | Sub.swrite cb => cb

/-- Programs that never call `clear` (directly or in nested callbacks). -/
def clearFree : Prog → Bool
  | Prog.nop => true
  | Prog.seq p q => clearFree p && clearFree q
  | Prog.read cb => clearFree cb
  | Prog.write cb => clearFree cb
  | Prog.clear _ => false
  | Prog.defer _ cb => clearFree cb
  | Prog.throwErr _ => true

/-- Structural size of a program, used as drain fuel potential. -/
def psize : Prog → Nat
  | Prog.nop => 1
  | Prog.seq p q => psize p + psize q + 1
  | Prog.read cb => psize cb + 2
  | Prog.write cb => psize cb + 2
  | Prog.clear _ => 1
  | Prog.defer _ cb => psize cb + 2
  | Prog.throwErr _ => 1

/-- Potential of one queued id: size of its stored callback plus one. -/
def jobSize (s : St) (i : Nat) : Nat :=
  match s.jobs i with
  | some j => psize j.fn + 1
  | none => 1

/-- Potential of a list of queued ids in a state. -/
def qPot (s : St) (q : List Nat) : Nat := (q.map (jobSize s)).sum

/-- Combined potential of both queues: an upper bound on the number of
loop iterations any single drain can take. -/
def potTotal (s : St) : Nat := qPot s s.queueRead + qPot s s.queueWrite

/-- Fuel sufficient for the frame triggered by a turn. -/
def turnFuel : List Sub → Nat
  | [] => 0
  | x :: xs => psize x.cb + 1 + turnFuel xs

/-- The ids of all invocations recorded in the log. -/
def loggedIds (s : St) : List Nat := s.log.map Prod.snd

/-- The defer-job ids of the deferStep callbacks in a raf list. -/
def stepIds (l : List (Nat × RafCb)) : List Nat :=
  l.filterMap (fun e =>
    match e.2 with
    | RafCb.deferStep x _ _ => some x
    | RafCb.frame => none)

/-- A job id that can never be invoked again: it was allocated
(`x ≤ lastId`), is positive, sits in neither queue, and has no pending
deferStep frame callback. -/
def Dead (x : Nat) (s : St) : Prop :=
  1 ≤ x ∧ x ≤ s.lastId ∧ x ∉ s.queueRead ∧ x ∉ s.queueWrite ∧
    x ∉ stepIds s.rafQueue

/-- Core structural invariant of reachable scheduler states: registry
keys are positive and bounded by the id counter; each queue holds only
ids of registered jobs of its own class, without duplicates; and every
registered read/write job is in its queue. -/
structure Inv (s : St) : Prop where
  keys : ∀ i j, s.jobs i = some j → 1 ≤ i ∧ i ≤ s.lastId
  qr : ∀ i ∈ s.queueRead, ∃ j, s.jobs i = some j ∧ j.type = JType.read
  qw : ∀ i ∈ s.queueWrite, ∃ j, s.jobs i = some j ∧ j.type = JType.write
  qrN : s.queueRead.Nodup
  qwN : s.queueWrite.Nodup
  regR : ∀ i j, s.jobs i = some j → j.type = JType.read → i ∈ s.queueRead
  regW : ∀ i j, s.jobs i = some j → j.type = JType.write → i ∈ s.queueWrite

/-- Every registered callback is clear-free. -/
def RegCF (s : St) : Prop := ∀ i j, s.jobs i = some j → clearFree j.fn = true

/-- Invariant for once-only execution, relative to an extra list `E` of
host frame callbacks currently being dispatched (the detached snapshot
of a frame boundary): logged ids are distinct and dead, and pending
deferStep ids are allocated, unqueued and pairwise distinct. -/
structure Good (E : List (Nat × RafCb)) (s : St) : Prop where
  inv : Inv s
  logN : (loggedIds s).Nodup
  logLe : ∀ x ∈ loggedIds s, 1 ≤ x ∧ x ≤ s.lastId
  logQ : ∀ x ∈ loggedIds s, x ∉ s.queueRead ∧ x ∉ s.queueWrite
  logStep : ∀ x ∈ loggedIds s, x ∉ stepIds (E ++ s.rafQueue)
  stepLe : ∀ x ∈ stepIds (E ++ s.rafQueue), 1 ≤ x ∧ x ≤ s.lastId
  stepQ : ∀ x ∈ stepIds (E ++ s.rafQueue), x ∉ s.queueRead ∧ x ∉ s.queueWrite
  stepN : (stepIds (E ++ s.rafQueue)).Nodup

/-- State of the self-rescheduling chain of the first defer job after
`m` frame boundaries, before it fires: nothing queued or logged, and
exactly one pending deferStep for job 1 carrying the post-decrement
counter. -/
def ChainInv (cb : Prog) (n m : Nat) (s : St) : Prop :=
  1 ≤ s.lastId ∧ s.queueRead = [] ∧ s.queueWrite = [] ∧ s.log = [] ∧
    ∃ h, s.rafQueue = [(h, RafCb.deferStep 1 ((n : Int) - 1 - (m : Int)) cb)]

/-!
Model of the bundled variant in src/unnamed/part_000 (FastDom with
Sandbox).  Tasks are JavaScript objects held directly in the batch
arrays; the model identifies each task by an allocation token standing
for object identity.  Claim C8 is about the state effect of
`Sandbox.prototype.clear` with no argument, so flush execution is not
modelled; the scheduling flags are kept as in the source.
-/

/-- State of a part_000 FastDom instance. -/
structure FD2 where
  reads : List Nat := []
  writes : List Nat := []
  scheduled : Bool := false
  scheduledRead : Bool := false
  nextTask : Nat := 1
deriving DecidableEq, Repr

/-- A fresh part_000 FastDom. -/
def fd2Init : FD2 := {}

/-- `scheduleFlush`: set `scheduled` if not already set. -/
def fd2ScheduleFlush (fd : FD2) : FD2 :=
  if fd.scheduled then fd else { fd with scheduled := true }

/-- `scheduleReadFlush`: set `scheduledRead` if not already set, and
also schedule the ordinary flush. -/
def fd2ScheduleReadFlush (fd : FD2) : FD2 :=
  if fd.scheduledRead then fd
  else fd2ScheduleFlush { fd with scheduledRead := true }

/-- `FastDom.prototype.measure`: allocate a task, push it on `reads`,
schedule the read flush; the task is the return value. -/
def fd2Measure (fd : FD2) : Nat × FD2 :=
  let t := fd.nextTask
  (t, fd2ScheduleReadFlush { fd with nextTask := t + 1, reads := fd.reads ++ [t] })

/-- `FastDom.prototype.mutate`: allocate a task, push it on `writes`,
schedule the flush. -/
def fd2Mutate (fd : FD2) : Nat × FD2 :=
  let t := fd.nextTask
  (t, fd2ScheduleFlush { fd with nextTask := t + 1, writes := fd.writes ++ [t] })

/-- `FastDom.prototype.clear`: splice the task out of `reads` if found
there, else out of `writes` if found there (first occurrence). -/
def fd2Clear (t : Nat) (fd : FD2) : FD2 :=
  if t ∈ fd.reads then { fd with reads := fd.reads.erase t }
  else if t ∈ fd.writes then { fd with writes := fd.writes.erase t }
  else fd

/-- Shadow lists of a Sandbox. -/
structure SBox where
  sreads : List Nat := []
  swrites : List Nat := []
deriving DecidableEq, Repr

/-- A fresh sandbox. -/
def sboxInit : SBox := {}

/-- `Sandbox.prototype.measure`: submit to the underlying FastDom and
record the task in the sandbox's own read shadow list. -/
def sboxMeasure (fd : FD2) (sb : SBox) : Nat × FD2 × SBox :=
  let (t, fd1) := fd2Measure fd
  (t, fd1, { sb with sreads := sb.sreads ++ [t] })

/-- `Sandbox.prototype.mutate`: submit and record in the write shadow
list. -/
def sboxMutate (fd : FD2) (sb : SBox) : Nat × FD2 × SBox :=
  let (t, fd1) := fd2Mutate fd
  (t, fd1, { sb with swrites := sb.swrites ++ [t] })

/-- The loop body of `clearAll`:
`for (var i = 0, l = tasks.length; i < l; i++) { fastdom.clear(tasks[i]); tasks.splice(i, 1); }`
— the length is read once, the index keeps advancing while the list
shrinks, and out-of-range accesses clear `undefined` (a no-op) and
splice nothing. -/
def clearAllGo : Nat → Nat → FD2 → List Nat → FD2 × List Nat
  | 0, _, fd, ts => (fd, ts)
  | rem+1, i, fd, ts =>
    let fd1 := match ts.get? i with
               | some t => fd2Clear t fd
               | none => fd
    clearAllGo rem (i+1) fd1 (ts.eraseIdx i)

/-- `clearAll(fastdom, tasks)` from part_000. -/
def clearAll (fd : FD2) (ts : List Nat) : FD2 × List Nat :=
  clearAllGo ts.length 0 fd ts

/-- `Sandbox.prototype.clear()` with no argument: `clearAll` on the
write shadow list, then on the read shadow list. -/
def sboxClear (fd : FD2) (sb : SBox) : FD2 × SBox :=
  let (fd1, w1) := clearAll fd sb.swrites
  let (fd2, r1) := clearAll fd1 sb.sreads
  (fd2, { sreads := r1, swrites := w1 })


/-! ### Field characterizations of the primitive operations -/

theorem requestOp_queueRead (t : JType) (s : St) :
    (requestOp t s).queueRead = s.queueRead := by
  unfold requestOp; split_ifs <;> rfl

theorem requestOp_queueWrite (t : JType) (s : St) :
    (requestOp t s).queueWrite = s.queueWrite := by
  unfold requestOp; split_ifs <;> rfl

theorem requestOp_jobs (t : JType) (s : St) :
    (requestOp t s).jobs = s.jobs := by
  unfold requestOp; split_ifs <;> rfl

theorem requestOp_lastId (t : JType) (s : St) :
    (requestOp t s).lastId = s.lastId := by
  unfold requestOp; split_ifs <;> rfl

theorem requestOp_log (t : JType) (s : St) :
    (requestOp t s).log = s.log := by
  unfold requestOp; split_ifs <;> rfl

theorem requestOp_mode (t : JType) (s : St) :
    (requestOp t s).mode = s.mode := by
  unfold requestOp; split_ifs <;> rfl

theorem requestOp_onErrorLog (t : JType) (s : St) :
    (requestOp t s).onErrorLog = s.onErrorLog := by
  unfold requestOp; split_ifs <;> rfl

theorem requestOp_uncaughtErrors (t : JType) (s : St) :
    (requestOp t s).uncaughtErrors = s.uncaughtErrors := by
  unfold requestOp; split_ifs <;> rfl

theorem requestOp_handlerSet (t : JType) (s : St) :
    (requestOp t s).handlerSet = s.handlerSet := by
  unfold requestOp; split_ifs <;> rfl

theorem stepIds_append (l1 l2 : List (Nat × RafCb)) :
    stepIds (l1 ++ l2) = stepIds l1 ++ stepIds l2 := by
  simp [stepIds]

theorem requestOp_stepIds (t : JType) (s : St) :
    stepIds (requestOp t s).rafQueue = stepIds s.rafQueue := by
  unfold requestOp; split_ifs <;> simp [stepIds_append, stepIds]

theorem requestOp_rafQueue_prefix (t : JType) (s : St) :
    ∃ l, (requestOp t s).rafQueue = s.rafQueue ++ l ∧ stepIds l = [] := by
  unfold requestOp; split_ifs
  case _ => exact ⟨[], by simp, rfl⟩
  case _ => exact ⟨[], by simp, rfl⟩
  case _ => exact ⟨[], by simp, rfl⟩
  case _ => exact ⟨[], by simp, rfl⟩
  case _ => exact ⟨[(s.rafNext, RafCb.frame)], rfl, rfl⟩

theorem readOp_queueRead (cb : Prog) (s : St) :
    (readOp cb s).queueRead = s.queueRead ++ [s.lastId + 1] := by
  simp [readOp, addJob, requestOp_queueRead]

theorem readOp_queueWrite (cb : Prog) (s : St) :
    (readOp cb s).queueWrite = s.queueWrite := by
  simp [readOp, addJob, requestOp_queueWrite]

theorem readOp_lastId (cb : Prog) (s : St) :
    (readOp cb s).lastId = s.lastId + 1 := by
  simp [readOp, addJob, requestOp_lastId]

theorem readOp_jobs (cb : Prog) (s : St) (j : Nat) :
    (readOp cb s).jobs j =
      if j = s.lastId + 1 then some ⟨s.lastId + 1, cb, JType.read, none⟩
      else s.jobs j := by
  simp [readOp, addJob, requestOp_jobs]

theorem readOp_log (cb : Prog) (s : St) : (readOp cb s).log = s.log := by
  simp [readOp, addJob, requestOp_log]

theorem readOp_mode (cb : Prog) (s : St) : (readOp cb s).mode = s.mode := by
  simp [readOp, addJob, requestOp_mode]

theorem readOp_onErrorLog (cb : Prog) (s : St) :
    (readOp cb s).onErrorLog = s.onErrorLog := by
  simp [readOp, addJob, requestOp_onErrorLog]

theorem readOp_uncaughtErrors (cb : Prog) (s : St) :
    (readOp cb s).uncaughtErrors = s.uncaughtErrors := by
  simp [readOp, addJob, requestOp_uncaughtErrors]

theorem readOp_handlerSet (cb : Prog) (s : St) :
    (readOp cb s).handlerSet = s.handlerSet := by
  simp [readOp, addJob, requestOp_handlerSet]

theorem readOp_stepIds (cb : Prog) (s : St) :
    stepIds (readOp cb s).rafQueue = stepIds s.rafQueue := by
  simp [readOp, addJob, requestOp_stepIds]

theorem readOp_rafQueue_prefix (cb : Prog) (s : St) :
    ∃ l, (readOp cb s).rafQueue = s.rafQueue ++ l ∧ stepIds l = [] := by
  simpa [readOp, addJob] using
    requestOp_rafQueue_prefix JType.read
      { (addJob JType.read cb s).2 with
          queueRead := (addJob JType.read cb s).2.queueRead ++ [s.lastId + 1] }

theorem writeOp_queueRead (cb : Prog) (s : St) :
    (writeOp cb s).queueRead = s.queueRead := by
  simp [writeOp, addJob, requestOp_queueRead]

theorem writeOp_queueWrite (cb : Prog) (s : St) :
    (writeOp cb s).queueWrite = s.queueWrite ++ [s.lastId + 1] := by
  simp [writeOp, addJob, requestOp_queueWrite]

theorem writeOp_lastId (cb : Prog) (s : St) :
    (writeOp cb s).lastId = s.lastId + 1 := by
  simp [writeOp, addJob, requestOp_lastId]

theorem writeOp_jobs (cb : Prog) (s : St) (j : Nat) :
    (writeOp cb s).jobs j =
      if j = s.lastId + 1 then some ⟨s.lastId + 1, cb, JType.write, none⟩
      else s.jobs j := by
  simp [writeOp, addJob, requestOp_jobs]

theorem writeOp_log (cb : Prog) (s : St) : (writeOp cb s).log = s.log := by
  simp [writeOp, addJob, requestOp_log]

theorem writeOp_mode (cb : Prog) (s : St) : (writeOp cb s).mode = s.mode := by
  simp [writeOp, addJob, requestOp_mode]

theorem writeOp_onErrorLog (cb : Prog) (s : St) :
    (writeOp cb s).onErrorLog = s.onErrorLog := by
  simp [writeOp, addJob, requestOp_onErrorLog]

theorem writeOp_uncaughtErrors (cb : Prog) (s : St) :
    (writeOp cb s).uncaughtErrors = s.uncaughtErrors := by
  simp [writeOp, addJob, requestOp_uncaughtErrors]

theorem writeOp_handlerSet (cb : Prog) (s : St) :
    (writeOp cb s).handlerSet = s.handlerSet := by
  simp [writeOp, addJob, requestOp_handlerSet]

theorem writeOp_stepIds (cb : Prog) (s : St) :
    stepIds (writeOp cb s).rafQueue = stepIds s.rafQueue := by
  simp [writeOp, addJob, requestOp_stepIds]

theorem writeOp_rafQueue_prefix (cb : Prog) (s : St) :
    ∃ l, (writeOp cb s).rafQueue = s.rafQueue ++ l ∧ stepIds l = [] := by
  simpa [writeOp, addJob] using
    requestOp_rafQueue_prefix JType.write
      { (addJob JType.write cb s).2 with
          queueWrite := (addJob JType.write cb s).2.queueWrite ++ [s.lastId + 1] }

theorem clearOp_of_none {i : Nat} {s : St} (h : s.jobs i = none) :
    clearOp i s = s := by
  unfold clearOp; rw [h]

theorem setTimer_queueRead (i h : Nat) (s : St) :
    (setTimer i h s).queueRead = s.queueRead := rfl

theorem setTimer_queueWrite (i h : Nat) (s : St) :
    (setTimer i h s).queueWrite = s.queueWrite := rfl

theorem setTimer_lastId (i h : Nat) (s : St) :
    (setTimer i h s).lastId = s.lastId := rfl

theorem setTimer_log (i h : Nat) (s : St) :
    (setTimer i h s).log = s.log := rfl

theorem setTimer_rafQueue (i h : Nat) (s : St) :
    (setTimer i h s).rafQueue = s.rafQueue := rfl

/-- `setTimer` preserves presence, class and callback of every record. -/
theorem setTimer_jobs (i h k : Nat) (s : St) :
    (setTimer i h s).jobs k = none ∧ s.jobs k = none ∨
    ∃ jb jb', (setTimer i h s).jobs k = some jb' ∧ s.jobs k = some jb ∧
      jb'.type = jb.type ∧ jb'.fn = jb.fn := by
  by_cases hki : k = i
  · subst hki
    cases hj : s.jobs k with
    | none =>
      refine Or.inl ⟨?_, rfl⟩
      simp [setTimer, hj]
    | some jb =>
      refine Or.inr ⟨jb, { jb with timer := some h }, ?_, rfl, rfl, rfl⟩
      simp [setTimer, hj]
  · cases hj : s.jobs k with
    | none =>
      refine Or.inl ⟨?_, rfl⟩
      simp [setTimer, hki, hj]
    | some jb =>
      refine Or.inr ⟨jb, jb, ?_, rfl, rfl, rfl⟩
      simp [setTimer, hki, hj]

/-! ### Preservation of the core invariant -/

theorem inv_initSt : Inv initSt := by
  refine ⟨?_, ?_, ?_, ?_, ?_, ?_, ?_⟩
  · intro i j h; simp [initSt] at h
  · intro i h; simp [initSt] at h
  · intro i h; simp [initSt] at h
  · exact List.nodup_nil
  · exact List.nodup_nil
  · intro i j h _; simp [initSt] at h
  · intro i j h _; simp [initSt] at h

theorem inv_readOp {s : St} (hs : Inv s) (cb : Prog) : Inv (readOp cb s) := by
  obtain ⟨keys, qr, qw, qrN, qwN, regR, regW⟩ := hs
  refine ⟨?_, ?_, ?_, ?_, ?_, ?_, ?_⟩
  · intro i j hij
    rw [readOp_jobs] at hij
    rw [readOp_lastId]
    by_cases hi : i = s.lastId + 1
    · subst hi; omega
    · rw [if_neg hi] at hij
      have := keys i j hij; omega
  · intro i hi
    rw [readOp_queueRead] at hi
    rw [List.mem_append, List.mem_singleton] at hi
    rcases hi with hi | hi
    · obtain ⟨j, hj, ht⟩ := qr i hi
      have hne : i ≠ s.lastId + 1 := by have := keys i j hj; omega
      exact ⟨j, by rw [readOp_jobs, if_neg hne]; exact hj, ht⟩
    · subst hi
      exact ⟨⟨s.lastId + 1, cb, JType.read, none⟩, by rw [readOp_jobs, if_pos rfl], rfl⟩
  · intro i hi
    rw [readOp_queueWrite] at hi
    obtain ⟨j, hj, ht⟩ := qw i hi
    have hne : i ≠ s.lastId + 1 := by have := keys i j hj; omega
    exact ⟨j, by rw [readOp_jobs, if_neg hne]; exact hj, ht⟩
  · rw [readOp_queueRead]
    refine List.Nodup.append qrN (List.nodup_singleton _) ?_
    intro a ha hb
    rw [List.mem_singleton] at hb
    obtain ⟨j, hj, _⟩ := qr a ha
    have := keys a j hj; omega
  · rw [readOp_queueWrite]; exact qwN
  · intro i j hij ht
    rw [readOp_jobs] at hij
    rw [readOp_queueRead, List.mem_append, List.mem_singleton]
    by_cases hi : i = s.lastId + 1
    · exact Or.inr hi
    · rw [if_neg hi] at hij
      exact Or.inl (regR i j hij ht)
  · intro i j hij ht
    rw [readOp_jobs] at hij
    rw [readOp_queueWrite]
    by_cases hi : i = s.lastId + 1
    · rw [if_pos hi, Option.some.injEq] at hij
      rw [← hij] at ht
      exact absurd ht (by simp)
    · rw [if_neg hi] at hij
      exact regW i j hij ht

theorem inv_writeOp {s : St} (hs : Inv s) (cb : Prog) : Inv (writeOp cb s) := by
  obtain ⟨keys, qr, qw, qrN, qwN, regR, regW⟩ := hs
  refine ⟨?_, ?_, ?_, ?_, ?_, ?_, ?_⟩
  · intro i j hij
    rw [writeOp_jobs] at hij
    rw [writeOp_lastId]
    by_cases hi : i = s.lastId + 1
    · subst hi; omega
    · rw [if_neg hi] at hij
      have := keys i j hij; omega
  · intro i hi
    rw [writeOp_queueRead] at hi
    obtain ⟨j, hj, ht⟩ := qr i hi
    have hne : i ≠ s.lastId + 1 := by have := keys i j hj; omega
    exact ⟨j, by rw [writeOp_jobs, if_neg hne]; exact hj, ht⟩
  · intro i hi
    rw [writeOp_queueWrite] at hi
    rw [List.mem_append, List.mem_singleton] at hi
    rcases hi with hi | hi
    · obtain ⟨j, hj, ht⟩ := qw i hi
      have hne : i ≠ s.lastId + 1 := by have := keys i j hj; omega
      exact ⟨j, by rw [writeOp_jobs, if_neg hne]; exact hj, ht⟩
    · subst hi
      exact ⟨⟨s.lastId + 1, cb, JType.write, none⟩, by rw [writeOp_jobs, if_pos rfl], rfl⟩
  · rw [writeOp_queueRead]; exact qrN
  · rw [writeOp_queueWrite]
    refine List.Nodup.append qwN (List.nodup_singleton _) ?_
    intro a ha hb
    rw [List.mem_singleton] at hb
    obtain ⟨j, hj, _⟩ := qw a ha
    have := keys a j hj; omega
  · intro i j hij ht
    rw [writeOp_jobs] at hij
    rw [writeOp_queueRead]
    by_cases hi : i = s.lastId + 1
    · rw [if_pos hi, Option.some.injEq] at hij
      rw [← hij] at ht
      exact absurd ht (by simp)
    · rw [if_neg hi] at hij
      exact regR i j hij ht
  · intro i j hij ht
    rw [writeOp_jobs] at hij
    rw [writeOp_queueWrite, List.mem_append, List.mem_singleton]
    by_cases hi : i = s.lastId + 1
    · exact Or.inr hi
    · rw [if_neg hi] at hij
      exact Or.inl (regW i j hij ht)

/-- `Inv` only concerns the id counter, registry and queues. -/
theorem inv_transfer {s s' : St} (hs : Inv s) (h1 : s'.lastId = s.lastId)
    (h2 : s'.jobs = s.jobs) (h3 : s'.queueRead = s.queueRead)
    (h4 : s'.queueWrite = s.queueWrite) : Inv s' := by
  obtain ⟨keys, qr, qw, qrN, qwN, regR, regW⟩ := hs
  refine ⟨?_, ?_, ?_, ?_, ?_, ?_, ?_⟩ <;> simp only [h1, h2, h3, h4] <;> assumption

theorem inv_setTimer {s : St} (hs : Inv s) (i h : Nat) : Inv (setTimer i h s) := by
  obtain ⟨keys, qr, qw, qrN, qwN, regR, regW⟩ := hs
  refine ⟨?_, ?_, ?_, ?_, ?_, ?_, ?_⟩
  · intro k j hk
    rcases setTimer_jobs i h k s with ⟨hn, hn'⟩ | ⟨jb, jb', he, he', _, _⟩
    · rw [hk] at hn; exact absurd hn (by simp)
    · rw [hk] at he
      obtain rfl : jb' = j := by injection he with hinj; exact hinj.symm
      exact keys k jb he'
  · intro k hk
    rw [setTimer_queueRead] at hk
    obtain ⟨j, hj, ht⟩ := qr k hk
    rcases setTimer_jobs i h k s with ⟨hn, hn'⟩ | ⟨jb, jb', he, he', ht', _⟩
    · rw [hj] at hn'; exact absurd hn' (by simp)
    · rw [hj] at he'
      obtain rfl : jb = j := by injection he' with hinj; exact hinj.symm
      exact ⟨jb', he, by rw [ht', ht]⟩
  · intro k hk
    rw [setTimer_queueWrite] at hk
    obtain ⟨j, hj, ht⟩ := qw k hk
    rcases setTimer_jobs i h k s with ⟨hn, hn'⟩ | ⟨jb, jb', he, he', ht', _⟩
    · rw [hj] at hn'; exact absurd hn' (by simp)
    · rw [hj] at he'
      obtain rfl : jb = j := by injection he' with hinj; exact hinj.symm
      exact ⟨jb', he, by rw [ht', ht]⟩
  · rw [setTimer_queueRead]; exact qrN
  · rw [setTimer_queueWrite]; exact qwN
  · intro k j hk ht
    rw [setTimer_queueRead]
    rcases setTimer_jobs i h k s with ⟨hn, hn'⟩ | ⟨jb, jb', he, he', ht', _⟩
    · rw [hk] at hn; exact absurd hn (by simp)
    · rw [hk] at he
      obtain rfl : jb' = j := by injection he with hinj; exact hinj.symm
      exact regR k jb he' (by rw [← ht', ht])
  · intro k j hk ht
    rw [setTimer_queueWrite]
    rcases setTimer_jobs i h k s with ⟨hn, hn'⟩ | ⟨jb, jb', he, he', ht', _⟩
    · rw [hk] at hn; exact absurd hn (by simp)
    · rw [hk] at he
      obtain rfl : jb' = j := by injection he with hinj; exact hinj.symm
      exact regW k jb he' (by rw [← ht', ht])

theorem inv_addJob_defer {s : St} (hs : Inv s) (cb : Prog) :
    Inv (addJob JType.defer cb s).2 := by
  obtain ⟨keys, qr, qw, qrN, qwN, regR, regW⟩ := hs
  refine ⟨?_, ?_, ?_, ?_, ?_, ?_, ?_⟩
  · intro i j hij
    simp only [addJob] at hij ⊢
    by_cases hi : i = s.lastId + 1
    · subst hi; omega
    · rw [if_neg hi] at hij
      have := keys i j hij; omega
  · intro i hi
    simp only [addJob] at hi ⊢
    obtain ⟨j, hj, ht⟩ := qr i hi
    have hne : i ≠ s.lastId + 1 := by have := keys i j hj; omega
    exact ⟨j, by rw [if_neg hne]; exact hj, ht⟩
  · intro i hi
    simp only [addJob] at hi ⊢
    obtain ⟨j, hj, ht⟩ := qw i hi
    have hne : i ≠ s.lastId + 1 := by have := keys i j hj; omega
    exact ⟨j, by rw [if_neg hne]; exact hj, ht⟩
  · exact qrN
  · exact qwN
  · intro i j hij ht
    simp only [addJob] at hij ⊢
    by_cases hi : i = s.lastId + 1
    · rw [if_pos hi, Option.some.injEq] at hij
      rw [← hij] at ht
      exact absurd ht (by simp)
    · rw [if_neg hi] at hij
      exact regR i j hij ht
  · intro i j hij ht
    simp only [addJob] at hij ⊢
    by_cases hi : i = s.lastId + 1
    · rw [if_pos hi, Option.some.injEq] at hij
      rw [← hij] at ht
      exact absurd ht (by simp)
    · rw [if_neg hi] at hij
      exact regW i j hij ht

theorem inv_clearOp {s : St} (hs : Inv s) (i : Nat) : Inv (clearOp i s) := by
  obtain ⟨keys, qr, qw, qrN, qwN, regR, regW⟩ := hs
  unfold clearOp
  cases hjob : s.jobs i with
  | none => exact ⟨keys, qr, qw, qrN, qwN, regR, regW⟩
  | some job =>
    dsimp only
    by_cases hd : job.type = JType.defer
    · rw [if_pos hd]
      cases job.timer with
      | none => exact ⟨keys, qr, qw, qrN, qwN, regR, regW⟩
      | some h =>
        exact inv_transfer ⟨keys, qr, qw, qrN, qwN, regR, regW⟩ rfl rfl rfl rfl
    · rw [if_neg hd]
      refine ⟨?_, ?_, ?_, ?_, ?_, ?_, ?_⟩
      · intro k j hk
        simp only at hk ⊢
        by_cases hki : k = i
        · rw [if_pos hki] at hk; exact absurd hk (by simp)
        · rw [if_neg hki] at hk; exact keys k j hk
      · intro k hk
        simp only at hk ⊢
        have hmem : k ∈ s.queueRead ∧ k ≠ i := by
          by_cases hr : job.type = JType.read
          · rw [if_pos hr] at hk
            rw [List.Nodup.mem_erase_iff qrN] at hk
            exact ⟨hk.2, hk.1⟩
          · rw [if_neg hr] at hk
            refine ⟨hk, ?_⟩
            intro hki
            obtain ⟨j, hj, ht⟩ := qr k hk
            rw [hki, hjob, Option.some.injEq] at hj
            rw [← hj] at ht
            exact hr ht
        obtain ⟨j, hj, ht⟩ := qr k hmem.1
        exact ⟨j, by rw [if_neg hmem.2]; exact hj, ht⟩
      · intro k hk
        simp only at hk ⊢
        have hmem : k ∈ s.queueWrite ∧ k ≠ i := by
          by_cases hw : job.type = JType.write
          · rw [if_pos hw] at hk
            rw [List.Nodup.mem_erase_iff qwN] at hk
            exact ⟨hk.2, hk.1⟩
          · rw [if_neg hw] at hk
            refine ⟨hk, ?_⟩
            intro hki
            obtain ⟨j, hj, ht⟩ := qw k hk
            rw [hki, hjob, Option.some.injEq] at hj
            rw [← hj] at ht
            exact hw ht
        obtain ⟨j, hj, ht⟩ := qw k hmem.1
        exact ⟨j, by rw [if_neg hmem.2]; exact hj, ht⟩
      · simp only
        split
        · exact List.Nodup.erase i qrN
        · exact qrN
      · simp only
        split
        · exact List.Nodup.erase i qwN
        · exact qwN
      · intro k j hk ht
        simp only at hk ⊢
        by_cases hki : k = i
        · rw [if_pos hki] at hk; exact absurd hk (by simp)
        · rw [if_neg hki] at hk
          have hmem := regR k j hk ht
          by_cases hr : job.type = JType.read
          · rw [if_pos hr, List.Nodup.mem_erase_iff qrN]
            exact ⟨hki, hmem⟩
          · rw [if_neg hr]; exact hmem
      · intro k j hk ht
        simp only at hk ⊢
        by_cases hki : k = i
        · rw [if_pos hki] at hk; exact absurd hk (by simp)
        · rw [if_neg hki] at hk
          have hmem := regW k j hk ht
          by_cases hw : job.type = JType.write
          · rw [if_pos hw, List.Nodup.mem_erase_iff qwN]
            exact ⟨hki, hmem⟩
          · rw [if_neg hw]; exact hmem

theorem setQueue_jobs (t : JType) (q : List Nat) (s : St) :
    (setQueue t q s).jobs = s.jobs := by cases t <;> rfl

theorem setQueue_lastId (t : JType) (q : List Nat) (s : St) :
    (setQueue t q s).lastId = s.lastId := by cases t <;> rfl

theorem setQueue_log (t : JType) (q : List Nat) (s : St) :
    (setQueue t q s).log = s.log := by cases t <;> rfl

theorem setQueue_rafQueue (t : JType) (q : List Nat) (s : St) :
    (setQueue t q s).rafQueue = s.rafQueue := by cases t <;> rfl

theorem setQueue_handlerSet (t : JType) (q : List Nat) (s : St) :
    (setQueue t q s).handlerSet = s.handlerSet := by cases t <;> rfl

theorem setQueue_onErrorLog (t : JType) (q : List Nat) (s : St) :
    (setQueue t q s).onErrorLog = s.onErrorLog := by cases t <;> rfl

theorem setQueue_uncaughtErrors (t : JType) (q : List Nat) (s : St) :
    (setQueue t q s).uncaughtErrors = s.uncaughtErrors := by cases t <;> rfl

/-- A positive id heads a queue only if it is registered; the head of
any queue of an `Inv` state is nonzero. -/
theorem inv_head_ne_zero {s : St} (hs : Inv s) {t : JType} {i : Nat}
    {rest : List Nat} (hq : getQueue t s = i :: rest) : i ≠ 0 := by
  cases t with
  | read =>
    have hi : i ∈ s.queueRead := by
      rw [show s.queueRead = getQueue JType.read s from rfl, hq]; exact List.mem_cons_self _ _
    obtain ⟨j, hj, _⟩ := hs.qr i hi
    have := hs.keys i j hj
    omega
  | write =>
    have hi : i ∈ s.queueWrite := by
      rw [show s.queueWrite = getQueue JType.write s from rfl, hq]; exact List.mem_cons_self _ _
    obtain ⟨j, hj, _⟩ := hs.qw i hi
    have := hs.keys i j hj
    omega
  | defer => exact absurd hq (by simp [getQueue])

/-- The head of an `Inv` state's queue is registered with that class. -/
theorem inv_head_job {s : St} (hs : Inv s) {t : JType} {i : Nat}
    {rest : List Nat} (hq : getQueue t s = i :: rest) :
    ∃ j, s.jobs i = some j ∧ j.type = t := by
  cases t with
  | read =>
    have hi : i ∈ s.queueRead := by
      rw [show s.queueRead = getQueue JType.read s from rfl, hq]; exact List.mem_cons_self _ _
    exact hs.qr i hi
  | write =>
    have hi : i ∈ s.queueWrite := by
      rw [show s.queueWrite = getQueue JType.write s from rfl, hq]; exact List.mem_cons_self _ _
    exact hs.qw i hi
  | defer => exact absurd hq (by simp [getQueue])

/-- Popping the head of a queue and deleting it from the registry
preserves the invariant. -/
theorem inv_pop {s : St} (hs : Inv s) {t : JType} {i : Nat}
    {rest : List Nat} (hq : getQueue t s = i :: rest) :
    Inv { setQueue t rest s with
            jobs := fun j => if j = i then none else (setQueue t rest s).jobs j } := by
  obtain ⟨keys, qr, qw, qrN, qwN, regR, regW⟩ := hs
  cases t with
  | defer => exact absurd hq (by simp [getQueue])
  | read =>
    replace hq : s.queueRead = i :: rest := hq
    have hNodup : (i :: rest).Nodup := hq ▸ qrN
    have hiNotRest : i ∉ rest := (List.nodup_cons.mp hNodup).1
    obtain ⟨ji, hji, hti⟩ := qr i (by rw [hq]; exact List.mem_cons_self _ _)
    refine ⟨?_, ?_, ?_, ?_, ?_, ?_, ?_⟩
    · intro k j hk
      simp only [setQueue, setQueue_jobs] at hk ⊢
      by_cases hki : k = i
      · rw [if_pos hki] at hk; exact absurd hk (by simp)
      · rw [if_neg hki] at hk; exact keys k j hk
    · intro k hk
      simp only [setQueue] at hk ⊢
      have hkr : k ∈ s.queueRead := by rw [hq]; exact List.mem_cons_of_mem _ hk
      obtain ⟨j, hj, ht⟩ := qr k hkr
      have hki : k ≠ i := by intro hc; rw [hc] at hk; exact hiNotRest hk
      exact ⟨j, by rw [if_neg hki]; exact hj, ht⟩
    · intro k hk
      simp only [setQueue] at hk ⊢
      obtain ⟨j, hj, ht⟩ := qw k hk
      have hki : k ≠ i := by
        intro hc
        rw [hc, hji, Option.some.injEq] at hj
        rw [← hj] at ht
        rw [hti] at ht
        exact absurd ht (by simp)
      exact ⟨j, by rw [if_neg hki]; exact hj, ht⟩
    · simp only [setQueue]
      exact (List.nodup_cons.mp hNodup).2
    · simp only [setQueue]; exact qwN
    · intro k j hk ht
      simp only [setQueue] at hk ⊢
      by_cases hki : k = i
      · rw [if_pos hki] at hk; exact absurd hk (by simp)
      · rw [if_neg hki] at hk
        have := regR k j hk ht
        rw [hq] at this
        rcases List.mem_cons.mp this with hc | hc
        · exact absurd hc hki
        · exact hc
    · intro k j hk ht
      simp only [setQueue] at hk ⊢
      by_cases hki : k = i
      · rw [if_pos hki] at hk; exact absurd hk (by simp)
      · rw [if_neg hki] at hk
        exact regW k j hk ht
  | write =>
    replace hq : s.queueWrite = i :: rest := hq
    have hNodup : (i :: rest).Nodup := hq ▸ qwN
    have hiNotRest : i ∉ rest := (List.nodup_cons.mp hNodup).1
    obtain ⟨ji, hji, hti⟩ := qw i (by rw [hq]; exact List.mem_cons_self _ _)
    refine ⟨?_, ?_, ?_, ?_, ?_, ?_, ?_⟩
    · intro k j hk
      simp only [setQueue] at hk ⊢
      by_cases hki : k = i
      · rw [if_pos hki] at hk; exact absurd hk (by simp)
      · rw [if_neg hki] at hk; exact keys k j hk
    · intro k hk
      simp only [setQueue] at hk ⊢
      obtain ⟨j, hj, ht⟩ := qr k hk
      have hki : k ≠ i := by
        intro hc
        rw [hc, hji, Option.some.injEq] at hj
        rw [← hj] at ht
        rw [hti] at ht
        exact absurd ht (by simp)
      exact ⟨j, by rw [if_neg hki]; exact hj, ht⟩
    · intro k hk
      simp only [setQueue] at hk ⊢
      have hkr : k ∈ s.queueWrite := by rw [hq]; exact List.mem_cons_of_mem _ hk
      obtain ⟨j, hj, ht⟩ := qw k hkr
      have hki : k ≠ i := by intro hc; rw [hc] at hk; exact hiNotRest hk
      exact ⟨j, by rw [if_neg hki]; exact hj, ht⟩
    · simp only [setQueue]; exact qrN
    · simp only [setQueue]
      exact (List.nodup_cons.mp hNodup).2
    · intro k j hk ht
      simp only [setQueue] at hk ⊢
      by_cases hki : k = i
      · rw [if_pos hki] at hk; exact absurd hk (by simp)
      · rw [if_neg hki] at hk
        exact regR k j hk ht
    · intro k j hk ht
      simp only [setQueue] at hk ⊢
      by_cases hki : k = i
      · rw [if_pos hki] at hk; exact absurd hk (by simp)
      · rw [if_neg hki] at hk
        have := regW k j hk ht
        rw [hq] at this
        rcases List.mem_cons.mp this with hc | hc
        · exact absurd hc hki
        · exact hc

theorem inv_execP {s : St} (hs : Inv s) (p : Prog) : Inv (execP p s).1 := by
  induction p generalizing s with
  | nop => exact hs
  | seq p q ihp ihq =>
    simp only [execP]
    rcases hre : execP p s with ⟨s1, e1⟩
    have h1 : Inv s1 := by have := ihp hs; rw [hre] at this; exact this
    cases e1 with
    | none => exact ihq h1
    | some e => exact h1
  | read cb ih => exact inv_readOp hs cb
  | write cb ih => exact inv_writeOp hs cb
  | clear i => exact inv_clearOp hs i
  | throwErr e => exact hs
  | defer n cb ih =>
    simp only [execP]
    split
    · exact hs
    · simp only [addJob]
      split
      · have h2 : Inv { (addJob JType.defer cb s).2 with
            log := (addJob JType.defer cb s).2.log ++
              [(JType.defer, (addJob JType.defer cb s).1)] } :=
          inv_transfer (inv_addJob_defer hs cb) rfl rfl rfl rfl
        rcases hcb : execP cb { (addJob JType.defer cb s).2 with
            log := (addJob JType.defer cb s).2.log ++
              [(JType.defer, (addJob JType.defer cb s).1)] } with ⟨s3, e3⟩
        have h3 : Inv s3 := by
          have := ih h2
          rw [hcb] at this
          exact this
        have hcb' : execP cb
            { lastId := s.lastId + 1,
              jobs := fun j => if j = s.lastId + 1 then
                some ⟨s.lastId + 1, cb, JType.defer, none⟩ else s.jobs j,
              mode := s.mode, pending := s.pending, queueRead := s.queueRead,
              queueWrite := s.queueWrite, rafQueue := s.rafQueue,
              rafNext := s.rafNext,
              log := s.log ++ [(JType.defer, s.lastId + 1)],
              onErrorLog := s.onErrorLog, uncaughtErrors := s.uncaughtErrors,
              handlerSet := s.handlerSet } = (s3, e3) := hcb
        rw [hcb']
        cases e3 with
        | none => exact h3
        | some e => exact h3
      · dsimp only
        refine inv_setTimer ?_ _ _
        exact inv_transfer (inv_addJob_defer hs cb) rfl rfl rfl rfl

theorem inv_runQueue {s : St} (hs : Inv s) (t : JType) (fuel : Nat) :
    Inv (runQueue t fuel s).1 := by
  induction fuel generalizing s with
  | zero => exact hs
  | succ fuel ih =>
    simp only [runQueue]
    cases hq : getQueue t s with
    | nil => exact hs
    | cons i rest =>
      dsimp only
      have hi0 : i ≠ 0 := inv_head_ne_zero hs hq
      rw [if_neg hi0]
      obtain ⟨job, hjob, htype⟩ := inv_head_job hs hq
      have hjob1 : (setQueue t rest s).jobs i = some job := by
        rw [setQueue_jobs]; exact hjob
      rw [hjob1]
      dsimp only
      have hpop : Inv { setQueue t rest s with
          jobs := fun j => if j = i then none else (setQueue t rest s).jobs j } :=
        inv_pop hs hq
      have hX : Inv { setQueue t rest s with
          jobs := fun j => if j = i then none else (setQueue t rest s).jobs j,
          log := (setQueue t rest s).log ++ [(job.type, i)] } :=
        inv_transfer hpop rfl rfl rfl rfl
      have hexec := inv_execP hX job.fn
      split
      next s4 heq =>
        have h4 : Inv s4 := by
          rw [heq] at hexec
          exact hexec
        exact ih h4
      next s4 e4 heq =>
        have h4 : Inv s4 := by
          rw [heq] at hexec
          exact hexec
        split
        · exact ih (inv_transfer h4 rfl rfl rfl rfl)
        · exact ih h4

theorem inv_fastFrame {s : St} (hs : Inv s) (fuel : Nat) :
    Inv (fastFrame fuel s) := by
  unfold fastFrame
  dsimp only
  have h1 : Inv { s with pending := false, mode := some Mode.reading } :=
    inv_transfer hs rfl rfl rfl rfl
  have hexec := inv_runQueue h1 JType.read fuel
  split
  next s2 e heq =>
    rw [heq] at hexec
    exact inv_transfer hexec rfl rfl rfl rfl
  next s2 heq =>
    rw [heq] at hexec
    have h3 : Inv { s2 with mode := some Mode.writing } :=
      inv_transfer hexec rfl rfl rfl rfl
    have hexec2 := inv_runQueue h3 JType.write fuel
    split
    next s4 e heq2 =>
      rw [heq2] at hexec2
      exact inv_transfer hexec2 rfl rfl rfl rfl
    next s4 heq2 =>
      rw [heq2] at hexec2
      exact inv_transfer hexec2 rfl rfl rfl rfl

theorem inv_runRafCb {s : St} (hs : Inv s) (fuel : Nat) (c : RafCb) :
    Inv (runRafCb fuel c s) := by
  cases c with
  | frame => exact inv_fastFrame hs fuel
  | deferStep i v cb =>
    simp only [runRafCb]
    split
    · have hlog : Inv { s with log := s.log ++ [(JType.defer, i)] } :=
        inv_transfer hs rfl rfl rfl rfl
      have hexec := inv_execP hlog cb
      split
      next s2 heq =>
        rw [heq] at hexec
        exact hexec
      next s2 e heq =>
        rw [heq] at hexec
        exact inv_transfer hexec rfl rfl rfl rfl
    · refine inv_setTimer ?_ _ _
      exact inv_transfer hs rfl rfl rfl rfl

theorem inv_runRafList {s : St} (hs : Inv s) (fuel : Nat)
    (l : List (Nat × RafCb)) : Inv (runRafList fuel l s) := by
  induction l generalizing s with
  | nil => exact hs
  | cons c cs ih => exact ih (inv_runRafCb hs fuel c.2)

theorem inv_frameBoundary {s : St} (hs : Inv s) (fuel : Nat) :
    Inv (frameBoundary fuel s) := by
  unfold frameBoundary
  have h0 : Inv { s with rafQueue := ([] : List (Nat × RafCb)) } :=
    inv_transfer hs rfl rfl rfl rfl
  exact inv_runRafList h0 fuel s.rafQueue

theorem inv_runFrames {s : St} (hs : Inv s) (fuel k : Nat) :
    Inv (runFrames fuel k s) := by
  induction k generalizing s with
  | zero => exact hs
  | succ k ih => exact ih (inv_frameBoundary hs fuel)

theorem inv_runSub {s : St} (hs : Inv s) (x : Sub) : Inv (runSub x s) := by
  cases x with
  | sread cb => exact inv_readOp hs cb
  | swrite cb => exact inv_writeOp hs cb

theorem inv_runTurn {s : St} (hs : Inv s) (subs : List Sub) :
    Inv (runTurn subs s) := by
  induction subs generalizing s with
  | nil => exact hs
  | cons x xs ih => exact ih (inv_runSub hs x)

/-! ### Log monotonicity: every operation only appends to the log -/

theorem stepIds_nil : stepIds [] = [] := rfl

theorem stepIds_frame (h : Nat) : stepIds [(h, RafCb.frame)] = [] := rfl

theorem stepIds_step (h i : Nat) (v : Int) (cb : Prog) :
    stepIds [(h, RafCb.deferStep i v cb)] = [i] := rfl

theorem clearOp_log (i : Nat) (s : St) : (clearOp i s).log = s.log := by
  unfold clearOp
  cases s.jobs i with
  | none => rfl
  | some job =>
    dsimp only
    split
    · cases job.timer <;> rfl
    · rfl

theorem clearOp_lastId (i : Nat) (s : St) : (clearOp i s).lastId = s.lastId := by
  unfold clearOp
  cases s.jobs i with
  | none => rfl
  | some job =>
    dsimp only
    split
    · cases job.timer <;> rfl
    · rfl

theorem execP_logmono (p : Prog) (s : St) :
    ∃ l, (execP p s).1.log = s.log ++ l := by
  induction p generalizing s with
  | nop => exact ⟨[], by simp [execP]⟩
  | seq p q ihp ihq =>
    simp only [execP]
    obtain ⟨l1, h1⟩ := ihp s
    rcases hre : execP p s with ⟨s1, e1⟩
    rw [hre] at h1
    cases e1 with
    | none =>
      obtain ⟨l2, h2⟩ := ihq s1
      exact ⟨l1 ++ l2, by dsimp only; rw [h2, h1, List.append_assoc]⟩
    | some e => exact ⟨l1, h1⟩
  | read cb ih => exact ⟨[], by simp [execP, readOp_log]⟩
  | write cb ih => exact ⟨[], by simp [execP, writeOp_log]⟩
  | clear i => exact ⟨[], by simp [execP, clearOp_log]⟩
  | throwErr e => exact ⟨[], by simp [execP]⟩
  | defer n cb ih =>
    simp only [execP]
    split
    · exact ⟨[], by simp⟩
    · simp only [addJob]
      split
      · obtain ⟨l1, h1⟩ := ih { (addJob JType.defer cb s).2 with
            log := (addJob JType.defer cb s).2.log ++
              [(JType.defer, (addJob JType.defer cb s).1)] }
        split
        next s3 heq =>
          have heq' : execP cb { (addJob JType.defer cb s).2 with
              log := (addJob JType.defer cb s).2.log ++
                [(JType.defer, (addJob JType.defer cb s).1)] } = (s3, none) := heq
          rw [heq'] at h1
          exact ⟨(JType.defer, s.lastId + 1) :: l1, by
            dsimp only at h1 ⊢
            rw [h1]
            simp [addJob]⟩
        next s3 e heq =>
          have heq' : execP cb { (addJob JType.defer cb s).2 with
              log := (addJob JType.defer cb s).2.log ++
                [(JType.defer, (addJob JType.defer cb s).1)] } = (s3, some e) := heq
          rw [heq'] at h1
          exact ⟨(JType.defer, s.lastId + 1) :: l1, by
            dsimp only at h1 ⊢
            rw [h1]
            simp [addJob]⟩
      · exact ⟨[], by simp [setTimer_log]⟩

theorem runQueue_logmono (t : JType) (fuel : Nat) (s : St) :
    ∃ l, (runQueue t fuel s).1.log = s.log ++ l := by
  induction fuel generalizing s with
  | zero => exact ⟨[], by simp [runQueue]⟩
  | succ fuel ih =>
    simp only [runQueue]
    cases hq : getQueue t s with
    | nil => exact ⟨[], by simp⟩
    | cons i rest =>
      dsimp only
      split
      · exact ⟨[], by rw [setQueue_log]; simp⟩
      · cases hjob : (setQueue t rest s).jobs i with
        | none => exact ⟨[], by rw [setQueue_log]; simp⟩
        | some job =>
          dsimp only
          obtain ⟨l1, h1⟩ := execP_logmono job.fn
            { setQueue t rest s with
                jobs := fun j => if j = i then none else (setQueue t rest s).jobs j,
                log := (setQueue t rest s).log ++ [(job.type, i)] }
          split
          next s4 heq =>
            rw [heq] at h1
            obtain ⟨l2, h2⟩ := ih s4
            refine ⟨[(job.type, i)] ++ l1 ++ l2, ?_⟩
            rw [h2, h1]
            dsimp only
            rw [setQueue_log]
            simp
          next s4 e heq =>
            rw [heq] at h1
            split
            · obtain ⟨l2, h2⟩ := ih { s4 with onErrorLog := s4.onErrorLog ++ [e] }
              refine ⟨[(job.type, i)] ++ l1 ++ l2, ?_⟩
              rw [h2]
              dsimp only
              rw [h1]
              dsimp only
              rw [setQueue_log]
              simp
            · obtain ⟨l2, h2⟩ := ih s4
              refine ⟨[(job.type, i)] ++ l1 ++ l2, ?_⟩
              rw [h2, h1]
              dsimp only
              rw [setQueue_log]
              simp

theorem fastFrame_logmono (fuel : Nat) (s : St) :
    ∃ l, (fastFrame fuel s).log = s.log ++ l := by
  unfold fastFrame
  dsimp only
  obtain ⟨l1, h1⟩ := runQueue_logmono JType.read fuel
    { s with pending := false, mode := some Mode.reading }
  split
  next s2 e heq =>
    rw [heq] at h1
    exact ⟨l1, h1⟩
  next s2 heq =>
    rw [heq] at h1
    obtain ⟨l2, h2⟩ := runQueue_logmono JType.write fuel
      { s2 with mode := some Mode.writing }
    split
    next s4 e heq2 =>
      rw [heq2] at h2
      exact ⟨l1 ++ l2, by dsimp only at h2 ⊢; rw [h2, h1, List.append_assoc]⟩
    next s4 heq2 =>
      rw [heq2] at h2
      exact ⟨l1 ++ l2, by dsimp only at h2 ⊢; rw [h2, h1, List.append_assoc]⟩

theorem runRafCb_logmono (fuel : Nat) (c : RafCb) (s : St) :
    ∃ l, (runRafCb fuel c s).log = s.log ++ l := by
  cases c with
  | frame => exact fastFrame_logmono fuel s
  | deferStep i v cb =>
    simp only [runRafCb]
    split
    · obtain ⟨l1, h1⟩ := execP_logmono cb { s with log := s.log ++ [(JType.defer, i)] }
      split
      next s2 heq =>
        rw [heq] at h1
        exact ⟨[(JType.defer, i)] ++ l1, by rw [h1]; simp⟩
      next s2 e heq =>
        rw [heq] at h1
        exact ⟨[(JType.defer, i)] ++ l1, by dsimp only; rw [h1]; simp⟩
    · exact ⟨[], by rw [setTimer_log]; simp⟩

theorem runRafList_logmono (fuel : Nat) (l : List (Nat × RafCb)) (s : St) :
    ∃ e, (runRafList fuel l s).log = s.log ++ e := by
  induction l generalizing s with
  | nil => exact ⟨[], by simp [runRafList]⟩
  | cons c cs ih =>
    simp only [runRafList]
    obtain ⟨e1, h1⟩ := runRafCb_logmono fuel c.2 s
    obtain ⟨e2, h2⟩ := ih (runRafCb fuel c.2 s)
    exact ⟨e1 ++ e2, by rw [h2, h1, List.append_assoc]⟩

theorem frameBoundary_logmono (fuel : Nat) (s : St) :
    ∃ l, (frameBoundary fuel s).log = s.log ++ l := by
  unfold frameBoundary
  obtain ⟨l1, h1⟩ := runRafList_logmono fuel s.rafQueue { s with rafQueue := [] }
  exact ⟨l1, h1⟩

theorem runFrames_logmono (fuel k : Nat) (s : St) :
    ∃ l, (runFrames fuel k s).log = s.log ++ l := by
  induction k generalizing s with
  | zero => exact ⟨[], by simp [runFrames]⟩
  | succ k ih =>
    simp only [runFrames]
    obtain ⟨l1, h1⟩ := frameBoundary_logmono fuel s
    obtain ⟨l2, h2⟩ := ih (frameBoundary fuel s)
    exact ⟨l1 ++ l2, by rw [h2, h1, List.append_assoc]⟩

/-! ### Dead ids: once unqueued and unscheduled, an id never runs again -/

theorem mem_stepIds {l : List (Nat × RafCb)} {x : Nat} :
    x ∈ stepIds l ↔ ∃ h v cb, (h, RafCb.deferStep x v cb) ∈ l := by
  simp only [stepIds, List.mem_filterMap]
  constructor
  · rintro ⟨⟨h, c⟩, hmem, hfc⟩
    cases c with
    | frame => simp at hfc
    | deferStep i v cb =>
      simp only at hfc
      obtain rfl : i = x := by injection hfc
      exact ⟨h, v, cb, hmem⟩
  · rintro ⟨h, v, cb, hmem⟩
    exact ⟨(h, RafCb.deferStep x v cb), hmem, rfl⟩

theorem dead_transfer {x : Nat} {s s' : St} (hd : Dead x s)
    (h1 : s'.lastId = s.lastId) (h2 : s'.queueRead = s.queueRead)
    (h3 : s'.queueWrite = s.queueWrite) (h4 : s'.rafQueue = s.rafQueue) :
    Dead x s' := by
  obtain ⟨d1, d2, d3, d4, d5⟩ := hd
  exact ⟨d1, by rw [h1]; exact d2, by rw [h2]; exact d3,
    by rw [h3]; exact d4, by rw [h4]; exact d5⟩

theorem readOp_dead {x : Nat} {s : St} (hd : Dead x s) (cb : Prog) :
    Dead x (readOp cb s) := by
  obtain ⟨d1, d2, d3, d4, d5⟩ := hd
  refine ⟨d1, ?_, ?_, ?_, ?_⟩
  · rw [readOp_lastId]; omega
  · rw [readOp_queueRead]
    intro hmem
    rcases List.mem_append.mp hmem with hm | hm
    · exact d3 hm
    · rw [List.mem_singleton] at hm; omega
  · rw [readOp_queueWrite]; exact d4
  · rw [readOp_stepIds]; exact d5

theorem writeOp_dead {x : Nat} {s : St} (hd : Dead x s) (cb : Prog) :
    Dead x (writeOp cb s) := by
  obtain ⟨d1, d2, d3, d4, d5⟩ := hd
  refine ⟨d1, ?_, ?_, ?_, ?_⟩
  · rw [writeOp_lastId]; omega
  · rw [writeOp_queueRead]; exact d3
  · rw [writeOp_queueWrite]
    intro hmem
    rcases List.mem_append.mp hmem with hm | hm
    · exact d4 hm
    · rw [List.mem_singleton] at hm; omega
  · rw [writeOp_stepIds]; exact d5

theorem clearOp_dead {x : Nat} {s : St} (hd : Dead x s) (i : Nat) :
    Dead x (clearOp i s) := by
  obtain ⟨d1, d2, d3, d4, d5⟩ := hd
  unfold clearOp
  cases s.jobs i with
  | none => exact ⟨d1, d2, d3, d4, d5⟩
  | some job =>
    dsimp only
    split
    · cases job.timer with
      | none => exact ⟨d1, d2, d3, d4, d5⟩
      | some h =>
        refine ⟨d1, d2, d3, d4, ?_⟩
        intro hmem
        rw [mem_stepIds] at hmem
        obtain ⟨h2, v, cb, hmem⟩ := hmem
        exact d5 (mem_stepIds.mpr
          ⟨h2, v, cb, (List.filter_sublist _).subset hmem⟩)
    · refine ⟨d1, d2, ?_, ?_, d5⟩
      · dsimp only
        split
        · intro hmem; exact d3 (List.mem_of_mem_erase hmem)
        · exact d3
      · dsimp only
        split
        · intro hmem; exact d4 (List.mem_of_mem_erase hmem)
        · exact d4

theorem execP_dead {x : Nat} (p : Prog) {s : St} (hd : Dead x s) :
    Dead x (execP p s).1 ∧
      ∃ l, (execP p s).1.log = s.log ++ l ∧ ∀ e ∈ l, e.2 ≠ x := by
  induction p generalizing s with
  | nop => exact ⟨hd, [], by simp [execP], by simp⟩
  | seq p q ihp ihq =>
    simp only [execP]
    obtain ⟨hd1, l1, h1, hl1⟩ := ihp hd
    rcases hre : execP p s with ⟨s1, e1⟩
    rw [hre] at hd1 h1
    cases e1 with
    | none =>
      obtain ⟨hd2, l2, h2, hl2⟩ := ihq hd1
      refine ⟨hd2, l1 ++ l2, by dsimp only; rw [h2, h1, List.append_assoc], ?_⟩
      intro e he
      rcases List.mem_append.mp he with he | he
      · exact hl1 e he
      · exact hl2 e he
    | some e => exact ⟨hd1, l1, h1, hl1⟩
  | read cb ih =>
    exact ⟨readOp_dead hd cb, [], by simp [execP, readOp_log], by simp⟩
  | write cb ih =>
    exact ⟨writeOp_dead hd cb, [], by simp [execP, writeOp_log], by simp⟩
  | clear i =>
    exact ⟨clearOp_dead hd i, [], by simp [execP, clearOp_log], by simp⟩
  | throwErr e => exact ⟨hd, [], by simp [execP], by simp⟩
  | defer n cb ih =>
    obtain ⟨d1, d2, d3, d4, d5⟩ := hd
    simp only [execP]
    split
    · exact ⟨⟨d1, d2, d3, d4, d5⟩, [], by simp, by simp⟩
    · simp only [addJob]
      split
      · have hdmid : Dead x { (addJob JType.defer cb s).2 with
            log := (addJob JType.defer cb s).2.log ++
              [(JType.defer, (addJob JType.defer cb s).1)] } := by
          refine ⟨d1, ?_, d3, d4, d5⟩
          simp only [addJob]; omega
        obtain ⟨hd1, l1, h1, hl1⟩ := ih hdmid
        split
        next s3 heq =>
          have heq' : execP cb { (addJob JType.defer cb s).2 with
              log := (addJob JType.defer cb s).2.log ++
                [(JType.defer, (addJob JType.defer cb s).1)] } = (s3, none) := heq
          rw [heq'] at hd1 h1
          refine ⟨hd1, (JType.defer, s.lastId + 1) :: l1, ?_, ?_⟩
          · dsimp only at h1 ⊢
            rw [h1]
            simp [addJob]
          · intro e he
            rcases List.mem_cons.mp he with he | he
            · rw [he]; dsimp only; omega
            · exact hl1 e he
        next s3 e heq =>
          have heq' : execP cb { (addJob JType.defer cb s).2 with
              log := (addJob JType.defer cb s).2.log ++
                [(JType.defer, (addJob JType.defer cb s).1)] } = (s3, some e) := heq
          rw [heq'] at hd1 h1
          refine ⟨hd1, (JType.defer, s.lastId + 1) :: l1, ?_, ?_⟩
          · dsimp only at h1 ⊢
            rw [h1]
            simp [addJob]
          · intro e2 he
            rcases List.mem_cons.mp he with he | he
            · rw [he]; dsimp only; omega
            · exact hl1 e2 he
      · refine ⟨?_, [], by simp [setTimer_log], by simp⟩
        refine ⟨d1, ?_, ?_, ?_, ?_⟩
        · rw [setTimer_lastId]; dsimp only; omega
        · rw [setTimer_queueRead]; exact d3
        · rw [setTimer_queueWrite]; exact d4
        · rw [setTimer_rafQueue]
          dsimp only
          intro hmem
          rw [stepIds_append] at hmem
          rcases List.mem_append.mp hmem with hm | hm
          · exact d5 hm
          · rw [stepIds_step, List.mem_singleton] at hm; omega

theorem dead_pop {x : Nat} {s : St} (hd : Dead x s) {t : JType} {i : Nat}
    {rest : List Nat} (hq : getQueue t s = i :: rest) :
    Dead x (setQueue t rest s) ∧ i ≠ x := by
  obtain ⟨d1, d2, d3, d4, d5⟩ := hd
  cases t with
  | defer => exact absurd hq (by simp [getQueue])
  | read =>
    replace hq : s.queueRead = i :: rest := hq
    rw [hq] at d3
    simp only [List.mem_cons, not_or] at d3
    exact ⟨⟨d1, d2, d3.2, d4, d5⟩, fun hix => d3.1 hix.symm⟩
  | write =>
    replace hq : s.queueWrite = i :: rest := hq
    rw [hq] at d4
    simp only [List.mem_cons, not_or] at d4
    exact ⟨⟨d1, d2, d3, d4.2, d5⟩, fun hix => d4.1 hix.symm⟩

theorem runQueue_dead {x : Nat} (t : JType) (fuel : Nat) {s : St}
    (hd : Dead x s) :
    Dead x (runQueue t fuel s).1 ∧
      ∃ l, (runQueue t fuel s).1.log = s.log ++ l ∧ ∀ e ∈ l, e.2 ≠ x := by
  induction fuel generalizing s with
  | zero => exact ⟨hd, [], by simp [runQueue], by simp⟩
  | succ fuel ih =>
    simp only [runQueue]
    cases hq : getQueue t s with
    | nil => exact ⟨hd, [], by simp, by simp⟩
    | cons i rest =>
      dsimp only
      obtain ⟨hdpop, hix⟩ := dead_pop hd hq
      split
      · exact ⟨hdpop, [], by rw [setQueue_log]; simp, by simp⟩
      · cases hjob : (setQueue t rest s).jobs i with
        | none => exact ⟨hdpop, [], by rw [setQueue_log]; simp, by simp⟩
        | some job =>
          dsimp only
          have hdmid : Dead x { setQueue t rest s with
              jobs := fun j => if j = i then none else (setQueue t rest s).jobs j,
              log := (setQueue t rest s).log ++ [(job.type, i)] } :=
            dead_transfer hdpop rfl rfl rfl rfl
          obtain ⟨hd1, l1, h1, hl1⟩ := execP_dead job.fn hdmid
          split
          next s4 heq =>
            rw [heq] at hd1 h1
            obtain ⟨hd2, l2, h2, hl2⟩ := ih hd1
            refine ⟨hd2, (job.type, i) :: (l1 ++ l2), ?_, ?_⟩
            · rw [h2, h1]
              dsimp only
              rw [setQueue_log]
              simp
            · intro e he
              rcases List.mem_cons.mp he with he | he
              · rw [he]; dsimp only; exact hix
              · rcases List.mem_append.mp he with he | he
                · exact hl1 e he
                · exact hl2 e he
          next s4 e heq =>
            rw [heq] at hd1 h1
            split
            · have hd1e : Dead x { s4 with onErrorLog := s4.onErrorLog ++ [e] } :=
                dead_transfer hd1 rfl rfl rfl rfl
              obtain ⟨hd2, l2, h2, hl2⟩ := ih hd1e
              refine ⟨hd2, (job.type, i) :: (l1 ++ l2), ?_, ?_⟩
              · rw [h2]
                dsimp only
                rw [h1]
                dsimp only
                rw [setQueue_log]
                simp
              · intro e2 he
                rcases List.mem_cons.mp he with he | he
                · rw [he]; dsimp only; exact hix
                · rcases List.mem_append.mp he with he | he
                  · exact hl1 e2 he
                  · exact hl2 e2 he
            · obtain ⟨hd2, l2, h2, hl2⟩ := ih hd1
              refine ⟨hd2, (job.type, i) :: (l1 ++ l2), ?_, ?_⟩
              · rw [h2, h1]
                dsimp only
                rw [setQueue_log]
                simp
              · intro e2 he
                rcases List.mem_cons.mp he with he | he
                · rw [he]; dsimp only; exact hix
                · rcases List.mem_append.mp he with he | he
                  · exact hl1 e2 he
                  · exact hl2 e2 he

theorem fastFrame_dead {x : Nat} (fuel : Nat) {s : St} (hd : Dead x s) :
    Dead x (fastFrame fuel s) ∧
      ∃ l, (fastFrame fuel s).log = s.log ++ l ∧ ∀ e ∈ l, e.2 ≠ x := by
  unfold fastFrame
  dsimp only
  have hd1 : Dead x { s with pending := false, mode := some Mode.reading } :=
    dead_transfer hd rfl rfl rfl rfl
  obtain ⟨hd2, l1, h1, hl1⟩ := runQueue_dead JType.read fuel hd1
  split
  next s2 e heq =>
    rw [heq] at hd2 h1
    exact ⟨dead_transfer hd2 rfl rfl rfl rfl, l1, h1, hl1⟩
  next s2 heq =>
    rw [heq] at hd2 h1
    have hd3 : Dead x { s2 with mode := some Mode.writing } :=
      dead_transfer hd2 rfl rfl rfl rfl
    obtain ⟨hd4, l2, h2, hl2⟩ := runQueue_dead JType.write fuel hd3
    split
    next s4 e heq2 =>
      rw [heq2] at hd4 h2
      refine ⟨dead_transfer hd4 rfl rfl rfl rfl, l1 ++ l2, ?_, ?_⟩
      · dsimp only at h2 ⊢; rw [h2, h1, List.append_assoc]
      · intro e2 he
        rcases List.mem_append.mp he with he | he
        · exact hl1 e2 he
        · exact hl2 e2 he
    next s4 heq2 =>
      rw [heq2] at hd4 h2
      refine ⟨dead_transfer hd4 rfl rfl rfl rfl, l1 ++ l2, ?_, ?_⟩
      · dsimp only at h2 ⊢; rw [h2, h1, List.append_assoc]
      · intro e2 he
        rcases List.mem_append.mp he with he | he
        · exact hl1 e2 he
        · exact hl2 e2 he

theorem runRafCb_dead {x : Nat} (fuel : Nat) {c : RafCb} {s : St}
    (hd : Dead x s) (hc : ∀ v cb, c ≠ RafCb.deferStep x v cb) :
    Dead x (runRafCb fuel c s) ∧
      ∃ l, (runRafCb fuel c s).log = s.log ++ l ∧ ∀ e ∈ l, e.2 ≠ x := by
  cases c with
  | frame => exact fastFrame_dead fuel hd
  | deferStep i v cb =>
    have hix : i ≠ x := by
      intro hcontra
      exact hc v cb (by rw [hcontra])
    simp only [runRafCb]
    split
    · have hdlog : Dead x { s with log := s.log ++ [(JType.defer, i)] } :=
        dead_transfer hd rfl rfl rfl rfl
      obtain ⟨hd1, l1, h1, hl1⟩ := execP_dead cb hdlog
      split
      next s2 heq =>
        rw [heq] at hd1 h1
        refine ⟨hd1, (JType.defer, i) :: l1, ?_, ?_⟩
        · rw [h1]; simp
        · intro e he
          rcases List.mem_cons.mp he with he | he
          · rw [he]; exact hix
          · exact hl1 e he
      next s2 e heq =>
        rw [heq] at hd1 h1
        refine ⟨dead_transfer hd1 rfl rfl rfl rfl, (JType.defer, i) :: l1, ?_, ?_⟩
        · dsimp only; rw [h1]; simp
        · intro e2 he
          rcases List.mem_cons.mp he with he | he
          · rw [he]; exact hix
          · exact hl1 e2 he
    · obtain ⟨d1, d2, d3, d4, d5⟩ := hd
      refine ⟨⟨d1, ?_, ?_, ?_, ?_⟩, [], by rw [setTimer_log]; simp, by simp⟩
      · rw [setTimer_lastId]; exact d2
      · rw [setTimer_queueRead]; exact d3
      · rw [setTimer_queueWrite]; exact d4
      · rw [setTimer_rafQueue]
        dsimp only
        intro hmem
        rw [stepIds_append] at hmem
        rcases List.mem_append.mp hmem with hm | hm
        · exact d5 hm
        · rw [stepIds_step, List.mem_singleton] at hm
          exact hix hm.symm

theorem runRafList_dead {x : Nat} (fuel : Nat) {l : List (Nat × RafCb)}
    {s : St} (hd : Dead x s)
    (hl : ∀ h v cb, (h, RafCb.deferStep x v cb) ∉ l) :
    Dead x (runRafList fuel l s) ∧
      ∃ e, (runRafList fuel l s).log = s.log ++ e ∧ ∀ q ∈ e, q.2 ≠ x := by
  induction l generalizing s with
  | nil => exact ⟨hd, [], by simp [runRafList], by simp⟩
  | cons c cs ih =>
    simp only [runRafList]
    have hc : ∀ v cb, c.2 ≠ RafCb.deferStep x v cb := by
      intro v cb hcontra
      exact hl c.1 v cb (by
        rw [← hcontra]
        exact List.mem_cons_self _ _)
    obtain ⟨hd1, e1, h1, hl1⟩ := runRafCb_dead fuel hd hc
    obtain ⟨hd2, e2, h2, hl2⟩ := ih hd1 (fun h v cb hmem =>
      hl h v cb (List.mem_cons_of_mem _ hmem))
    refine ⟨hd2, e1 ++ e2, by rw [h2, h1, List.append_assoc], ?_⟩
    intro q hq
    rcases List.mem_append.mp hq with hq | hq
    · exact hl1 q hq
    · exact hl2 q hq

theorem frameBoundary_dead {x : Nat} (fuel : Nat) {s : St} (hd : Dead x s) :
    Dead x (frameBoundary fuel s) ∧
      ∃ l, (frameBoundary fuel s).log = s.log ++ l ∧ ∀ e ∈ l, e.2 ≠ x := by
  unfold frameBoundary
  obtain ⟨d1, d2, d3, d4, d5⟩ := hd
  have hd0 : Dead x { s with rafQueue := ([] : List (Nat × RafCb)) } :=
    ⟨d1, d2, d3, d4, by simp [stepIds_nil, stepIds]⟩
  exact runRafList_dead fuel hd0 (fun h v cb hmem =>
    d5 (mem_stepIds.mpr ⟨h, v, cb, hmem⟩))

theorem runFrames_dead {x : Nat} (fuel k : Nat) {s : St} (hd : Dead x s) :
    Dead x (runFrames fuel k s) ∧
      ∃ l, (runFrames fuel k s).log = s.log ++ l ∧ ∀ e ∈ l, e.2 ≠ x := by
  induction k generalizing s with
  | zero => exact ⟨hd, [], by simp [runFrames], by simp⟩
  | succ k ih =>
    simp only [runFrames]
    obtain ⟨hd1, l1, h1, hl1⟩ := frameBoundary_dead fuel hd
    obtain ⟨hd2, l2, h2, hl2⟩ := ih hd1
    refine ⟨hd2, l1 ++ l2, by rw [h2, h1, List.append_assoc], ?_⟩
    intro e he
    rcases List.mem_append.mp he with he | he
    · exact hl1 e he
    · exact hl2 e he

/-! ### Frame iteration helpers and the defer chain -/

theorem runFrames_add (fuel a b : Nat) (s : St) :
    runFrames fuel (a + b) s = runFrames fuel b (runFrames fuel a s) := by
  induction a generalizing s with
  | zero => simp [runFrames]
  | succ a ih =>
    have : a + 1 + b = (a + b) + 1 := by omega
    rw [this]
    simp only [runFrames]
    rw [show a + b = a + b from rfl]
    calc runFrames fuel (a + b) (frameBoundary fuel s)
        = runFrames fuel b (runFrames fuel a (frameBoundary fuel s)) := ih _
      _ = runFrames fuel b (runFrames fuel (a + 1) s) := rfl

theorem frameBoundary_of_empty {s : St} (h : s.rafQueue = []) (fuel : Nat) :
    frameBoundary fuel s = s := by
  unfold frameBoundary
  rw [h]
  show { s with rafQueue := [] } = s
  rw [← h]

theorem runFrames_of_empty {s : St} (h : s.rafQueue = []) (fuel k : Nat) :
    runFrames fuel k s = s := by
  induction k with
  | zero => rfl
  | succ k ih =>
    simp only [runFrames]
    rw [frameBoundary_of_empty h]
    exact ih

theorem chain_start (n : Nat) (cb : Prog) (hn : 1 ≤ n) :
    ChainInv cb n 0 (execP (Prog.defer (n : Int) cb) initSt).1 := by
  have h0 : ¬ ((n : Int) < 0) := by omega
  have h1 : ¬ ((n : Int) = 0) := by omega
  simp only [execP, h0, if_false, addJob, h1]
  refine ⟨?_, rfl, rfl, rfl, 1, ?_⟩
  · exact Nat.le_refl 1
  · show ([] : List (Nat × RafCb)) ++ [(1, RafCb.deferStep 1 ((n : Int) - 1) cb)] =
      [(1, RafCb.deferStep 1 ((n : Int) - 1 - (0 : Nat)) cb)]
    norm_num

theorem chain_step {cb : Prog} {n m : Nat} {s : St} (hs : ChainInv cb n m s)
    (hm : m + 1 < n) (fuel : Nat) :
    ChainInv cb n (m + 1) (frameBoundary fuel s) := by
  obtain ⟨c1, c2, c3, c4, h, c5⟩ := hs
  unfold frameBoundary
  rw [c5]
  simp only [runRafList, runRafCb]
  have hv : ¬ ((n : Int) - 1 - (m : Nat) = 0) := by omega
  rw [if_neg hv]
  refine ⟨?_, ?_, ?_, ?_, s.rafNext, ?_⟩
  · rw [setTimer_lastId]; exact c1
  · rw [setTimer_queueRead]; exact c2
  · rw [setTimer_queueWrite]; exact c3
  · rw [setTimer_log]; exact c4
  · rw [setTimer_rafQueue]
    show ([] : List (Nat × RafCb)) ++
        [(s.rafNext, RafCb.deferStep 1 ((n : Int) - 1 - (m : Nat) - 1) cb)] =
      [(s.rafNext, RafCb.deferStep 1 ((n : Int) - 1 - ((m : Nat) + 1 : Nat)) cb)]
    have : (n : Int) - 1 - (m : Nat) - 1 = (n : Int) - 1 - ((m : Nat) + 1 : Nat) := by
      push_cast
      ring
    rw [this]
    simp

theorem chain_fire {cb : Prog} {n : Nat} {s : St}
    (hs : ChainInv cb n (n - 1) s) (hn : 1 ≤ n) (fuel : Nat) :
    Dead 1 (frameBoundary fuel s) ∧
      ∃ l, (frameBoundary fuel s).log = [(JType.defer, 1)] ++ l ∧
        ∀ e ∈ l, e.2 ≠ 1 := by
  obtain ⟨c1, c2, c3, c4, h, c5⟩ := hs
  unfold frameBoundary
  rw [c5]
  simp only [runRafList, runRafCb]
  have hv : ((n : Int) - 1 - ((n - 1 : Nat) : Int) = 0) := by omega
  rw [if_pos hv]
  have hd1 : Dead 1 { { s with rafQueue := ([] : List (Nat × RafCb)) } with
      log := { s with rafQueue := ([] : List (Nat × RafCb)) }.log ++
        [(JType.defer, 1)] } := by
    refine ⟨Nat.le_refl 1, c1, ?_, ?_, ?_⟩
    · show (1 : Nat) ∉ s.queueRead
      rw [c2]; simp
    · show (1 : Nat) ∉ s.queueWrite
      rw [c3]; simp
    · show (1 : Nat) ∉ stepIds ([] : List (Nat × RafCb))
      simp [stepIds]
  obtain ⟨hd2, l1, h1, hl1⟩ := execP_dead cb hd1
  split
  next s2 heq =>
    rw [heq] at hd2 h1
    refine ⟨hd2, l1, ?_, hl1⟩
    rw [h1]
    dsimp only
    rw [c4]
    simp
  next s2 e heq =>
    rw [heq] at hd2 h1
    refine ⟨dead_transfer hd2 rfl rfl rfl rfl, l1, ?_, hl1⟩
    dsimp only
    rw [h1]
    dsimp only
    rw [c4]
    simp

theorem chain_reach (n : Nat) (cb : Prog) (hn : 1 ≤ n) (fuel : Nat) :
    ∀ m, m < n →
      ChainInv cb n m (runFrames fuel m (execP (Prog.defer (n : Int) cb) initSt).1) := by
  intro m
  induction m with
  | zero =>
    intro _
    exact chain_start n cb hn
  | succ m ih =>
    intro hm
    have hrec := ih (by omega)
    have : runFrames fuel (m + 1) (execP (Prog.defer (n : Int) cb) initSt).1 =
        frameBoundary fuel
          (runFrames fuel m (execP (Prog.defer (n : Int) cb) initSt).1) := by
      rw [show m + 1 = m + 1 from rfl, runFrames_add fuel m 1]
      rfl
    rw [this]
    exact chain_step hrec hm fuel

theorem defer_zero_dead (cb : Prog) :
    Dead 1 (execP (Prog.defer 0 cb) initSt).1 ∧
      ∃ l, (execP (Prog.defer 0 cb) initSt).1.log = [(JType.defer, 1)] ++ l ∧
        ∀ e ∈ l, e.2 ≠ 1 := by
  have hunf : execP (Prog.defer 0 cb) initSt =
      (match execP cb { (addJob JType.defer cb initSt).2 with
          log := (addJob JType.defer cb initSt).2.log ++
            [(JType.defer, (addJob JType.defer cb initSt).1)] } with
       | (s3, none) => (s3, none)
       | (s3, some _) => (s3, some Err.typeError)) := rfl
  have hd1 : Dead 1 { (addJob JType.defer cb initSt).2 with
      log := (addJob JType.defer cb initSt).2.log ++
        [(JType.defer, (addJob JType.defer cb initSt).1)] } := by
    refine ⟨Nat.le_refl 1, Nat.le_refl 1, ?_, ?_, ?_⟩
    · show (1 : Nat) ∉ ([] : List Nat); simp
    · show (1 : Nat) ∉ ([] : List Nat); simp
    · show (1 : Nat) ∉ stepIds ([] : List (Nat × RafCb)); simp [stepIds]
  obtain ⟨hd2, l1, h1, hl1⟩ := execP_dead cb hd1
  rcases hcb : execP cb { (addJob JType.defer cb initSt).2 with
      log := (addJob JType.defer cb initSt).2.log ++
        [(JType.defer, (addJob JType.defer cb initSt).1)] } with ⟨s3, e3⟩
  rw [hcb] at hd2 h1
  rw [hunf, hcb]
  cases e3 with
  | none => exact ⟨hd2, l1, by rw [h1]; simp [addJob, initSt], hl1⟩
  | some e => exact ⟨hd2, l1, by rw [h1]; simp [addJob, initSt], hl1⟩

theorem count_head_one {l : List (JType × Nat)} (hl : ∀ e ∈ l, e.2 ≠ 1) :
    (((JType.defer, 1) :: l).count ((JType.defer, 1))) = 1 := by
  rw [List.count_cons_self]
  have : l.count ((JType.defer, 1)) = 0 := by
    rw [List.count_eq_zero]
    intro hmem
    exact hl _ hmem rfl
  rw [this]

/-- C2 (amended): `defer n cb` from an idle scheduler invokes the
callback of job 1 exactly once, after exactly `n` frame boundaries; for
`n = 0` the single invocation has already happened during the `defer`
call itself. -/
theorem defer_fires_after_n_frames (n : Nat) (cb : Prog) (fuel m : Nat) :
    ((runFrames fuel m (execP (Prog.defer (n : Int) cb) initSt).1).log).count
      ((JType.defer, 1)) = if m < n then 0 else 1 := by
  by_cases hn : n = 0
  · subst hn
    rw [if_neg (by omega : ¬ m < 0)]
    simp only [Nat.cast_zero]
    obtain ⟨hd, l, hlog, hl⟩ := defer_zero_dead cb
    obtain ⟨hd2, l2, hlog2, hl2⟩ := runFrames_dead fuel m hd
    rw [hlog2, hlog, List.append_assoc]
    refine count_head_one ?_
    intro e he
    rcases List.mem_append.mp he with he | he
    · exact absurd he (List.not_mem_nil e)
    · rcases List.mem_append.mp he with he | he
      · exact hl e he
      · exact hl2 e he
  · by_cases hm : m < n
    · rw [if_pos hm]
      obtain ⟨c1, c2, c3, c4, h, c5⟩ := chain_reach n cb (by omega) fuel m hm
      rw [c4]
      simp
    · rw [if_neg hm]
      have hn1 : 1 ≤ n := by omega
      have hmk : m = ((n - 1) + 1) + (m - n) := by omega
      rw [hmk, runFrames_add fuel ((n - 1) + 1) (m - n),
        runFrames_add fuel (n - 1) 1]
      have hchain := chain_reach n cb hn1 fuel (n - 1) (by omega)
      obtain ⟨hd, l, hlog, hl⟩ := chain_fire hchain hn1 fuel
      obtain ⟨hd2, l2, hlog2, hl2⟩ := runFrames_dead fuel (m - n) hd
      show ((runFrames fuel (m - n) (frameBoundary fuel
        (runFrames fuel (n - 1)
          (execP (Prog.defer (n : Int) cb) initSt).1))).log).count
          ((JType.defer, 1)) = 1
      rw [hlog2, hlog, List.append_assoc]
      refine count_head_one ?_
      intro e he
      rcases List.mem_append.mp he with he | he
      · exact absurd he (List.not_mem_nil e)
      · rcases List.mem_append.mp he with he | he
        · exact hl e he
        · exact hl2 e he

/-- C2 (counterexample): `defer 0` runs the callback synchronously
during the `defer` call, before any frame boundary — the invocation of
job 1 is already logged with zero frames elapsed — and `defer 3` fires
after exactly 3 boundaries (not 4): the log is still empty after 2
boundaries and contains the invocation after 3. -/
theorem defer_zero_runs_synchronously :
    (execP (Prog.defer 0 Prog.nop) initSt).1.log = [(JType.defer, 1)] ∧
    (runFrames 1 2 (execP (Prog.defer 3 Prog.nop) initSt).1).log = [] ∧
    (runFrames 1 3 (execP (Prog.defer 3 Prog.nop) initSt).1).log =
      [(JType.defer, 1)] := by
  refine ⟨rfl, rfl, rfl⟩

/-- C9: a negative frame count makes `defer` a complete no-op — the
state is untouched (no job record, no frame callback, no invocation, no
error) and nothing is thrown. -/
theorem defer_negative_noop (n : Int) (cb : Prog) (s : St) (h : n < 0) :
    execP (Prog.defer n cb) s = (s, none) := by
  simp only [execP, if_pos h]

theorem defer_negative_noop_witness :
    (-1 : Int) < 0 ∧ execP (Prog.defer (-1) Prog.nop) initSt = (initSt, none) :=
  ⟨by decide, defer_negative_noop (-1) Prog.nop initSt (by decide)⟩

/-- C3 (counterexample): with no onError handler registered, a throwing
read job's failure is silently discarded — the later job still runs but
the error reaches neither a handler nor the host. -/
theorem error_without_handler_dropped :
    (frameBoundary 4 (runTurn [Sub.sread (Prog.throwErr 7), Sub.sread Prog.nop]
        initSt)).log = [(JType.read, 1), (JType.read, 2)] ∧
    (frameBoundary 4 (runTurn [Sub.sread (Prog.throwErr 7), Sub.sread Prog.nop]
        initSt)).onErrorLog = [] ∧
    (frameBoundary 4 (runTurn [Sub.sread (Prog.throwErr 7), Sub.sread Prog.nop]
        initSt)).uncaughtErrors = [] := by
  refine ⟨rfl, rfl, rfl⟩

/-- C3 (amended): a throwing job does not stop the rest of the batch —
the remaining read and the write still run in order — and the failure is
delivered exactly once to the onError handler when one is registered,
and silently dropped otherwise. -/
theorem error_isolated_and_delivered_once (e : Nat) (b : Bool) :
    (frameBoundary 6 (runTurn
        [Sub.sread (Prog.throwErr e), Sub.sread Prog.nop, Sub.swrite Prog.nop]
        { initSt with handlerSet := b })).log =
      [(JType.read, 1), (JType.read, 2), (JType.write, 3)] ∧
    (frameBoundary 6 (runTurn
        [Sub.sread (Prog.throwErr e), Sub.sread Prog.nop, Sub.swrite Prog.nop]
        { initSt with handlerSet := b })).onErrorLog =
      (if b then [Err.user e] else []) ∧
    (frameBoundary 6 (runTurn
        [Sub.sread (Prog.throwErr e), Sub.sread Prog.nop, Sub.swrite Prog.nop]
        { initSt with handlerSet := b })).uncaughtErrors = [] := by
  cases b <;> exact ⟨rfl, rfl, rfl⟩

/-- C4 (counterexample): a read submitted from inside a read callback is
executed by the very drain that is running — job 2 appears in the first
frame's log — and the next frame has nothing left to do, so the claim
that during-drain submissions go to the next batch is false. -/
theorem during_drain_submission_runs_same_batch :
    (frameBoundary 4 (runTurn [Sub.sread (Prog.read Prog.nop)] initSt)).log =
      [(JType.read, 1), (JType.read, 2)] ∧
    (frameBoundary 4 (runTurn [Sub.sread (Prog.read Prog.nop)] initSt)).rafQueue
      = [] ∧
    (frameBoundary 4 (frameBoundary 4
        (runTurn [Sub.sread (Prog.read Prog.nop)] initSt))).log =
      [(JType.read, 1), (JType.read, 2)] := by
  refine ⟨rfl, rfl, rfl⟩

/-- C7 (counterexample): after cancelling a pending deferred job its
frame callback is gone, but the job record is still in the registry —
contradicting the claim that no entry remains. -/
theorem clear_defer_leaves_registry_entry :
    ((clearOp 1 (execP (Prog.defer 3 Prog.nop) initSt).1).jobs 1) =
      some ⟨1, Prog.nop, JType.defer, some 1⟩ ∧
    (clearOp 1 (execP (Prog.defer 3 Prog.nop) initSt).1).rafQueue = [] := by
  refine ⟨rfl, rfl⟩

/-- C8: the sandbox `clear()` with no token misses every second tracked
task because `clearAll` splices while iterating with a cached length:
with two sandboxed measure tasks, task 2 stays in the shadow list and in
the scheduler's read batch (so it will still run), while the directly
submitted task 3 is — correctly — untouched. -/
theorem sandbox_clear_skips_every_other_task :
    ((sboxClear (fd2Measure (sboxMeasure (sboxMeasure fd2Init sboxInit).2.1
        (sboxMeasure fd2Init sboxInit).2.2).2.1).2
      (sboxMeasure (sboxMeasure fd2Init sboxInit).2.1
        (sboxMeasure fd2Init sboxInit).2.2).2.2).2.sreads = [2]) ∧
    ((sboxClear (fd2Measure (sboxMeasure (sboxMeasure fd2Init sboxInit).2.1
        (sboxMeasure fd2Init sboxInit).2.2).2.1).2
      (sboxMeasure (sboxMeasure fd2Init sboxInit).2.1
        (sboxMeasure fd2Init sboxInit).2.2).2.2).1.reads = [2, 3]) ∧
    ((sboxClear (fd2Measure (sboxMeasure (sboxMeasure fd2Init sboxInit).2.1
        (sboxMeasure fd2Init sboxInit).2.2).2.1).2
      (sboxMeasure (sboxMeasure fd2Init sboxInit).2.1
        (sboxMeasure fd2Init sboxInit).2.2).2.2).2.swrites = []) := by
  decide

theorem defer_state_jobs (n : Nat) (cb : Prog) (hn : 1 ≤ n) :
    (execP (Prog.defer (n : Int) cb) initSt).1.jobs 1 =
      some ⟨1, cb, JType.defer, some 1⟩ := by
  have h0 : ¬ ((n : Int) < 0) := by omega
  have h1 : ¬ ((n : Int) = 0) := by omega
  simp [execP, h0, h1, addJob, setTimer, initSt]

theorem defer_state_raf (n : Nat) (cb : Prog) (hn : 1 ≤ n) :
    (execP (Prog.defer (n : Int) cb) initSt).1.rafQueue =
      [(1, RafCb.deferStep 1 ((n : Int) - 1) cb)] := by
  have h0 : ¬ ((n : Int) < 0) := by omega
  have h1 : ¬ ((n : Int) = 0) := by omega
  simp [execP, h0, h1, addJob, setTimer, initSt]

theorem defer_state_log (n : Nat) (cb : Prog) (hn : 1 ≤ n) :
    (execP (Prog.defer (n : Int) cb) initSt).1.log = [] := by
  have h0 : ¬ ((n : Int) < 0) := by omega
  have h1 : ¬ ((n : Int) = 0) := by omega
  simp [execP, h0, h1, addJob, setTimer, initSt]

/-- C7 (amended): cancelling a pending deferred job cancels its frame
callback — nothing ever runs afterwards, the state is inert — but the
job record remains in the registry. -/
theorem clear_deferred_cancels_callback (n : Nat) (cb : Prog) (fuel k : Nat)
    (hn : 1 ≤ n) :
    (clearOp 1 (execP (Prog.defer (n : Int) cb) initSt).1).jobs 1 =
      some ⟨1, cb, JType.defer, some 1⟩ ∧
    (clearOp 1 (execP (Prog.defer (n : Int) cb) initSt).1).rafQueue = [] ∧
    runFrames fuel k (clearOp 1 (execP (Prog.defer (n : Int) cb) initSt).1) =
      clearOp 1 (execP (Prog.defer (n : Int) cb) initSt).1 ∧
    (runFrames fuel k
      (clearOp 1 (execP (Prog.defer (n : Int) cb) initSt).1)).log = [] := by
  have hjobs := defer_state_jobs n cb hn
  have hraf := defer_state_raf n cb hn
  have hlog := defer_state_log n cb hn
  have hA : (clearOp 1 (execP (Prog.defer (n : Int) cb) initSt).1).jobs 1 =
      some ⟨1, cb, JType.defer, some 1⟩ := by
    unfold clearOp
    rw [hjobs]
    simp [hjobs]
  have hB : (clearOp 1 (execP (Prog.defer (n : Int) cb) initSt).1).rafQueue
      = [] := by
    unfold clearOp
    rw [hjobs]
    simp [hraf]
  have hC := runFrames_of_empty hB fuel k
  have hD : (clearOp 1 (execP (Prog.defer (n : Int) cb) initSt).1).log = [] := by
    rw [clearOp_log]
    exact hlog
  exact ⟨hA, hB, hC, by rw [hC]; exact hD⟩

theorem clear_deferred_cancels_callback_witness :
    1 ≤ 3 ∧
    ((clearOp 1 (execP (Prog.defer ((3 : Nat) : Int) Prog.nop) initSt).1).jobs 1 =
      some ⟨1, Prog.nop, JType.defer, some 1⟩ ∧
    (clearOp 1 (execP (Prog.defer ((3 : Nat) : Int) Prog.nop) initSt).1).rafQueue = [] ∧
    runFrames 2 2 (clearOp 1 (execP (Prog.defer ((3 : Nat) : Int) Prog.nop) initSt).1) =
      clearOp 1 (execP (Prog.defer ((3 : Nat) : Int) Prog.nop) initSt).1 ∧
    (runFrames 2 2
      (clearOp 1 (execP (Prog.defer ((3 : Nat) : Int) Prog.nop) initSt).1)).log = []) :=
  ⟨by decide, clear_deferred_cancels_callback 3 Prog.nop 2 2 (by decide)⟩

/-! ### The Good invariant: logged invocations are unique and dead -/

theorem inv_qr_bounds {s : St} (hs : Inv s) {i : Nat} (hi : i ∈ s.queueRead) :
    1 ≤ i ∧ i ≤ s.lastId := by
  obtain ⟨j, hj, _⟩ := hs.qr i hi
  exact hs.keys i j hj

theorem inv_qw_bounds {s : St} (hs : Inv s) {i : Nat} (hi : i ∈ s.queueWrite) :
    1 ≤ i ∧ i ≤ s.lastId := by
  obtain ⟨j, hj, _⟩ := hs.qw i hi
  exact hs.keys i j hj

theorem good_perm_transfer {E1 E2 : List (Nat × RafCb)} {s s' : St}
    (hg : Good E1 s) (h1 : s'.lastId = s.lastId) (h2 : s'.jobs = s.jobs)
    (h3 : s'.queueRead = s.queueRead) (h4 : s'.queueWrite = s.queueWrite)
    (h5 : s'.log = s.log)
    (hp : (stepIds (E2 ++ s'.rafQueue)).Perm (stepIds (E1 ++ s.rafQueue))) :
    Good E2 s' := by
  obtain ⟨hinv, logN, logLe, logQ, logStep, stepLe, stepQ, stepN⟩ := hg
  refine ⟨inv_transfer hinv h1 h2 h3 h4, ?_, ?_, ?_, ?_, ?_, ?_, ?_⟩
  · show ((loggedIds s').Nodup)
    unfold loggedIds
    rw [h5]
    exact logN
  · intro x hx
    unfold loggedIds at hx
    rw [h5] at hx
    rw [h1]
    exact logLe x hx
  · intro x hx
    unfold loggedIds at hx
    rw [h5] at hx
    rw [h3, h4]
    exact logQ x hx
  · intro x hx
    unfold loggedIds at hx
    rw [h5] at hx
    rw [hp.mem_iff]
    exact logStep x hx
  · intro x hx
    rw [hp.mem_iff] at hx
    rw [h1]
    exact stepLe x hx
  · intro x hx
    rw [hp.mem_iff] at hx
    rw [h3, h4]
    exact stepQ x hx
  · exact hp.nodup_iff.mpr stepN

theorem good_initSt : Good [] initSt := by
  refine ⟨inv_initSt, ?_, ?_, ?_, ?_, ?_, ?_, ?_⟩
  · exact List.nodup_nil
  · intro x hx; simp [loggedIds, initSt] at hx
  · intro x hx; simp [loggedIds, initSt] at hx
  · intro x hx; simp [loggedIds, initSt] at hx
  · intro x hx; simp [initSt, stepIds] at hx
  · intro x hx; simp [initSt, stepIds] at hx
  · exact List.nodup_nil

theorem readOp_good {E : List (Nat × RafCb)} {s : St} (hg : Good E s)
    (cb : Prog) : Good E (readOp cb s) := by
  obtain ⟨hinv, logN, logLe, logQ, logStep, stepLe, stepQ, stepN⟩ := hg
  have hsteps : stepIds (E ++ (readOp cb s).rafQueue) =
      stepIds (E ++ s.rafQueue) := by
    rw [stepIds_append, stepIds_append, readOp_stepIds]
  refine ⟨inv_readOp hinv cb, ?_, ?_, ?_, ?_, ?_, ?_, ?_⟩
  · show (loggedIds (readOp cb s)).Nodup
    unfold loggedIds
    rw [readOp_log]
    exact logN
  · intro x hx
    unfold loggedIds at hx
    rw [readOp_log] at hx
    have := logLe x hx
    rw [readOp_lastId]
    omega
  · intro x hx
    unfold loggedIds at hx
    rw [readOp_log] at hx
    have hb := logLe x hx
    have hq := logQ x hx
    rw [readOp_queueRead, readOp_queueWrite]
    refine ⟨?_, hq.2⟩
    intro hmem
    rcases List.mem_append.mp hmem with hm | hm
    · exact hq.1 hm
    · rw [List.mem_singleton] at hm; omega
  · intro x hx
    unfold loggedIds at hx
    rw [readOp_log] at hx
    rw [hsteps]
    exact logStep x hx
  · intro x hx
    rw [hsteps] at hx
    have := stepLe x hx
    rw [readOp_lastId]
    omega
  · intro x hx
    rw [hsteps] at hx
    have hb := stepLe x hx
    have hq := stepQ x hx
    rw [readOp_queueRead, readOp_queueWrite]
    refine ⟨?_, hq.2⟩
    intro hmem
    rcases List.mem_append.mp hmem with hm | hm
    · exact hq.1 hm
    · rw [List.mem_singleton] at hm; omega
  · rw [hsteps]; exact stepN

theorem writeOp_good {E : List (Nat × RafCb)} {s : St} (hg : Good E s)
    (cb : Prog) : Good E (writeOp cb s) := by
  obtain ⟨hinv, logN, logLe, logQ, logStep, stepLe, stepQ, stepN⟩ := hg
  have hsteps : stepIds (E ++ (writeOp cb s).rafQueue) =
      stepIds (E ++ s.rafQueue) := by
    rw [stepIds_append, stepIds_append, writeOp_stepIds]
  refine ⟨inv_writeOp hinv cb, ?_, ?_, ?_, ?_, ?_, ?_, ?_⟩
  · show (loggedIds (writeOp cb s)).Nodup
    unfold loggedIds
    rw [writeOp_log]
    exact logN
  · intro x hx
    unfold loggedIds at hx
    rw [writeOp_log] at hx
    have := logLe x hx
    rw [writeOp_lastId]
    omega
  · intro x hx
    unfold loggedIds at hx
    rw [writeOp_log] at hx
    have hb := logLe x hx
    have hq := logQ x hx
    rw [writeOp_queueRead, writeOp_queueWrite]
    refine ⟨hq.1, ?_⟩
    intro hmem
    rcases List.mem_append.mp hmem with hm | hm
    · exact hq.2 hm
    · rw [List.mem_singleton] at hm; omega
  · intro x hx
    unfold loggedIds at hx
    rw [writeOp_log] at hx
    rw [hsteps]
    exact logStep x hx
  · intro x hx
    rw [hsteps] at hx
    have := stepLe x hx
    rw [writeOp_lastId]
    omega
  · intro x hx
    rw [hsteps] at hx
    have hb := stepLe x hx
    have hq := stepQ x hx
    rw [writeOp_queueRead, writeOp_queueWrite]
    refine ⟨hq.1, ?_⟩
    intro hmem
    rcases List.mem_append.mp hmem with hm | hm
    · exact hq.2 hm
    · rw [List.mem_singleton] at hm; omega
  · rw [hsteps]; exact stepN

theorem clearOp_good {E : List (Nat × RafCb)} {s : St} (hg : Good E s)
    (i : Nat) : Good E (clearOp i s) := by
  obtain ⟨hinv, logN, logLe, logQ, logStep, stepLe, stepQ, stepN⟩ := hg
  have hsub : (clearOp i s).rafQueue.Sublist s.rafQueue := by
    unfold clearOp
    cases s.jobs i with
    | none => exact List.Sublist.refl _
    | some job =>
      dsimp only
      split
      · cases job.timer with
        | none => exact List.Sublist.refl _
        | some h => exact List.filter_sublist _
      · exact List.Sublist.refl _
  have hqr : ∀ x, x ∈ (clearOp i s).queueRead → x ∈ s.queueRead := by
    unfold clearOp
    cases s.jobs i with
    | none => exact fun x hx => hx
    | some job =>
      dsimp only
      split
      · cases job.timer with
        | none => exact fun x hx => hx
        | some h => exact fun x hx => hx
      · intro x hx
        dsimp only at hx
        split at hx
        · exact List.mem_of_mem_erase hx
        · exact hx
  have hqw : ∀ x, x ∈ (clearOp i s).queueWrite → x ∈ s.queueWrite := by
    unfold clearOp
    cases s.jobs i with
    | none => exact fun x hx => hx
    | some job =>
      dsimp only
      split
      · cases job.timer with
        | none => exact fun x hx => hx
        | some h => exact fun x hx => hx
      · intro x hx
        dsimp only at hx
        split at hx
        · exact List.mem_of_mem_erase hx
        · exact hx
  have hstepsub : (stepIds (E ++ (clearOp i s).rafQueue)).Sublist
      (stepIds (E ++ s.rafQueue)) := by
    rw [stepIds_append, stepIds_append]
    exact (List.Sublist.refl (stepIds E)).append (hsub.filterMap _)
  refine ⟨inv_clearOp hinv i, ?_, ?_, ?_, ?_, ?_, ?_, ?_⟩
  · show (loggedIds (clearOp i s)).Nodup
    unfold loggedIds
    rw [clearOp_log]
    exact logN
  · intro x hx
    unfold loggedIds at hx
    rw [clearOp_log] at hx
    have := logLe x hx
    rw [clearOp_lastId]
    omega
  · intro x hx
    unfold loggedIds at hx
    rw [clearOp_log] at hx
    have hq := logQ x hx
    exact ⟨fun hm => hq.1 (hqr x hm), fun hm => hq.2 (hqw x hm)⟩
  · intro x hx
    unfold loggedIds at hx
    rw [clearOp_log] at hx
    intro hm
    exact logStep x hx (hstepsub.subset hm)
  · intro x hx
    have := stepLe x (hstepsub.subset hx)
    rw [clearOp_lastId]
    omega
  · intro x hx
    have hq := stepQ x (hstepsub.subset hx)
    exact ⟨fun hm => hq.1 (hqr x hm), fun hm => hq.2 (hqw x hm)⟩
  · exact stepN.sublist hstepsub

theorem addJob_defer_lastId (cb : Prog) (s : St) :
    (addJob JType.defer cb s).2.lastId = s.lastId + 1 := rfl

theorem defer_zero_good {E : List (Nat × RafCb)} {s : St} (hg : Good E s)
    (cb : Prog) :
    Good E { (addJob JType.defer cb s).2 with
        log := (addJob JType.defer cb s).2.log ++
          [(JType.defer, (addJob JType.defer cb s).1)] } := by
  obtain ⟨hinv, logN, logLe, logQ, logStep, stepLe, stepQ, stepN⟩ := hg
  have hlogids : loggedIds { (addJob JType.defer cb s).2 with
      log := (addJob JType.defer cb s).2.log ++
        [(JType.defer, (addJob JType.defer cb s).1)] } =
      loggedIds s ++ [s.lastId + 1] := by
    unfold loggedIds
    show (s.log ++ [(JType.defer, s.lastId + 1)]).map Prod.snd = _
    rw [List.map_append]
    rfl
  have hsteps : stepIds (E ++ ({ (addJob JType.defer cb s).2 with
      log := (addJob JType.defer cb s).2.log ++
        [(JType.defer, (addJob JType.defer cb s).1)] }).rafQueue) =
      stepIds (E ++ s.rafQueue) := rfl
  refine ⟨inv_transfer (inv_addJob_defer hinv cb) rfl rfl rfl rfl,
    ?_, ?_, ?_, ?_, ?_, ?_, ?_⟩
  · rw [hlogids]
    refine List.Nodup.append logN (List.nodup_singleton _) ?_
    intro a ha hb
    rw [List.mem_singleton] at hb
    have := logLe a ha
    omega
  · intro x hx
    rw [hlogids] at hx
    show 1 ≤ x ∧ x ≤ s.lastId + 1
    rcases List.mem_append.mp hx with hm | hm
    · have := logLe x hm; omega
    · rw [List.mem_singleton] at hm; omega
  · intro x hx
    rw [hlogids] at hx
    show x ∉ s.queueRead ∧ x ∉ s.queueWrite
    rcases List.mem_append.mp hx with hm | hm
    · exact logQ x hm
    · rw [List.mem_singleton] at hm
      constructor
      · intro hqm
        have := inv_qr_bounds hinv hqm
        omega
      · intro hqm
        have := inv_qw_bounds hinv hqm
        omega
  · intro x hx
    rw [hlogids] at hx
    rw [hsteps]
    rcases List.mem_append.mp hx with hm | hm
    · exact logStep x hm
    · rw [List.mem_singleton] at hm
      intro hsm
      have := stepLe x hsm
      omega
  · intro x hx
    rw [hsteps] at hx
    have := stepLe x hx
    show 1 ≤ x ∧ x ≤ s.lastId + 1
    omega
  · intro x hx
    rw [hsteps] at hx
    exact stepQ x hx
  · rw [hsteps]; exact stepN

theorem defer_sched_good {E : List (Nat × RafCb)} {s : St} (hg : Good E s)
    (n : Int) (cb : Prog) :
    Good E (setTimer (addJob JType.defer cb s).1
      (addJob JType.defer cb s).2.rafNext
      { (addJob JType.defer cb s).2 with
          rafNext := (addJob JType.defer cb s).2.rafNext + 1,
          rafQueue := (addJob JType.defer cb s).2.rafQueue ++
            [((addJob JType.defer cb s).2.rafNext,
              RafCb.deferStep (addJob JType.defer cb s).1 (n - 1) cb)] }) := by
  obtain ⟨hinv, logN, logLe, logQ, logStep, stepLe, stepQ, stepN⟩ := hg
  have hinv2 : Inv { (addJob JType.defer cb s).2 with
      rafNext := (addJob JType.defer cb s).2.rafNext + 1,
      rafQueue := (addJob JType.defer cb s).2.rafQueue ++
        [((addJob JType.defer cb s).2.rafNext,
          RafCb.deferStep (addJob JType.defer cb s).1 (n - 1) cb)] } :=
    inv_transfer (inv_addJob_defer hinv cb) rfl rfl rfl rfl
  have hsteps : stepIds (E ++ (setTimer (addJob JType.defer cb s).1
      (addJob JType.defer cb s).2.rafNext
      { (addJob JType.defer cb s).2 with
          rafNext := (addJob JType.defer cb s).2.rafNext + 1,
          rafQueue := (addJob JType.defer cb s).2.rafQueue ++
            [((addJob JType.defer cb s).2.rafNext,
              RafCb.deferStep (addJob JType.defer cb s).1 (n - 1) cb)] }).rafQueue)
      = stepIds (E ++ s.rafQueue) ++ [s.lastId + 1] := by
    rw [setTimer_rafQueue]
    show stepIds (E ++ (s.rafQueue ++ [(s.rafNext,
      RafCb.deferStep (s.lastId + 1) (n - 1) cb)])) = _
    rw [← List.append_assoc, stepIds_append, stepIds_append, stepIds_step]
  have hlog2 : loggedIds (setTimer (addJob JType.defer cb s).1
      (addJob JType.defer cb s).2.rafNext
      { (addJob JType.defer cb s).2 with
          rafNext := (addJob JType.defer cb s).2.rafNext + 1,
          rafQueue := (addJob JType.defer cb s).2.rafQueue ++
            [((addJob JType.defer cb s).2.rafNext,
              RafCb.deferStep (addJob JType.defer cb s).1 (n - 1) cb)] }) =
      loggedIds s := rfl
  refine ⟨inv_setTimer hinv2 _ _, ?_, ?_, ?_, ?_, ?_, ?_, ?_⟩
  · rw [hlog2]; exact logN
  · intro x hx
    rw [hlog2] at hx
    have := logLe x hx
    show 1 ≤ x ∧ x ≤ s.lastId + 1
    omega
  · intro x hx
    rw [hlog2] at hx
    exact logQ x hx
  · intro x hx
    rw [hlog2] at hx
    rw [hsteps]
    intro hm
    rcases List.mem_append.mp hm with hm | hm
    · exact logStep x hx hm
    · rw [List.mem_singleton] at hm
      have := logLe x hx
      omega
  · intro x hx
    rw [hsteps] at hx
    show 1 ≤ x ∧ x ≤ s.lastId + 1
    rcases List.mem_append.mp hx with hm | hm
    · have := stepLe x hm; omega
    · rw [List.mem_singleton] at hm; omega
  · intro x hx
    rw [hsteps] at hx
    show x ∉ s.queueRead ∧ x ∉ s.queueWrite
    rcases List.mem_append.mp hx with hm | hm
    · exact stepQ x hm
    · rw [List.mem_singleton] at hm
      constructor
      · intro hqm
        have := inv_qr_bounds hinv hqm
        omega
      · intro hqm
        have := inv_qw_bounds hinv hqm
        omega
  · rw [hsteps]
    refine List.Nodup.append stepN (List.nodup_singleton _) ?_
    intro a ha hb
    rw [List.mem_singleton] at hb
    have := stepLe a ha
    omega

theorem exec_good {E : List (Nat × RafCb)} (p : Prog) {s : St}
    (hg : Good E s) : Good E (execP p s).1 := by
  induction p generalizing s with
  | nop => exact hg
  | seq p q ihp ihq =>
    simp only [execP]
    rcases hre : execP p s with ⟨s1, e1⟩
    have h1 : Good E s1 := by
      have := ihp hg
      rw [hre] at this
      exact this
    cases e1 with
    | none => exact ihq h1
    | some e => exact h1
  | read cb ih => exact readOp_good hg cb
  | write cb ih => exact writeOp_good hg cb
  | clear i => exact clearOp_good hg i
  | throwErr e => exact hg
  | defer n cb ih =>
    simp only [execP]
    split
    · exact hg
    · simp only [addJob]
      split
      · have h2 := defer_zero_good hg cb
        rcases hcb : execP cb { (addJob JType.defer cb s).2 with
            log := (addJob JType.defer cb s).2.log ++
              [(JType.defer, (addJob JType.defer cb s).1)] } with ⟨s3, e3⟩
        have h3 : Good E s3 := by
          have := ih h2
          rw [hcb] at this
          exact this
        have hcb' : execP cb
            { lastId := s.lastId + 1,
              jobs := fun j => if j = s.lastId + 1 then
                some ⟨s.lastId + 1, cb, JType.defer, none⟩ else s.jobs j,
              mode := s.mode, pending := s.pending, queueRead := s.queueRead,
              queueWrite := s.queueWrite, rafQueue := s.rafQueue,
              rafNext := s.rafNext,
              log := s.log ++ [(JType.defer, s.lastId + 1)],
              onErrorLog := s.onErrorLog, uncaughtErrors := s.uncaughtErrors,
              handlerSet := s.handlerSet } = (s3, e3) := hcb
        rw [hcb']
        cases e3 with
        | none => exact h3
        | some e => exact h3
      · exact defer_sched_good hg n cb

theorem good_pop {E : List (Nat × RafCb)} {s : St} (hg : Good E s) {t : JType}
    {i : Nat} {rest : List Nat} (hq : getQueue t s = i :: rest) {job : Job}
    (hjob : s.jobs i = some job) :
    Good E { setQueue t rest s with
        jobs := fun j => if j = i then none else (setQueue t rest s).jobs j,
        log := (setQueue t rest s).log ++ [(job.type, i)] } := by
  obtain ⟨hinv, logN, logLe, logQ, logStep, stepLe, stepQ, stepN⟩ := hg
  have hbounds : 1 ≤ i ∧ i ≤ s.lastId := hinv.keys i job hjob
  have hqmem : i ∈ s.queueRead ∨ i ∈ s.queueWrite := by
    cases t with
    | defer => exact absurd hq (by simp [getQueue])
    | read =>
      exact Or.inl (by
        rw [show s.queueRead = getQueue JType.read s from rfl, hq]
        exact List.mem_cons_self _ _)
    | write =>
      exact Or.inr (by
        rw [show s.queueWrite = getQueue JType.write s from rfl, hq]
        exact List.mem_cons_self _ _)
  have hrsub : ∀ x, x ∈ (setQueue t rest s).queueRead → x ∈ s.queueRead := by
    cases t with
    | defer => exact fun x hx => hx
    | read =>
      intro x hx
      rw [show s.queueRead = getQueue JType.read s from rfl, hq]
      exact List.mem_cons_of_mem _ hx
    | write => exact fun x hx => hx
  have hwsub : ∀ x, x ∈ (setQueue t rest s).queueWrite → x ∈ s.queueWrite := by
    cases t with
    | defer => exact fun x hx => hx
    | read => exact fun x hx => hx
    | write =>
      intro x hx
      rw [show s.queueWrite = getQueue JType.write s from rfl, hq]
      exact List.mem_cons_of_mem _ hx
  have hinotr : i ∉ (setQueue t rest s).queueRead := by
    cases t with
    | defer => exact absurd hq (by simp [getQueue])
    | read =>
      show i ∉ rest
      have : s.queueRead.Nodup := hinv.qrN
      rw [show s.queueRead = getQueue JType.read s from rfl, hq] at this
      exact (List.nodup_cons.mp this).1
    | write =>
      show i ∉ s.queueRead
      intro hmem
      obtain ⟨jr, hjr, htr⟩ := hinv.qr i hmem
      obtain ⟨jw, hjw, htw⟩ := hinv.qw i (by
        rw [show s.queueWrite = getQueue JType.write s from rfl, hq]
        exact List.mem_cons_self _ _)
      rw [hjr, Option.some.injEq] at hjw
      rw [← hjw] at htw
      rw [htr] at htw
      exact absurd htw (by simp)
  have hinotw : i ∉ (setQueue t rest s).queueWrite := by
    cases t with
    | defer => exact absurd hq (by simp [getQueue])
    | write =>
      show i ∉ rest
      have : s.queueWrite.Nodup := hinv.qwN
      rw [show s.queueWrite = getQueue JType.write s from rfl, hq] at this
      exact (List.nodup_cons.mp this).1
    | read =>
      show i ∉ s.queueWrite
      intro hmem
      obtain ⟨jw, hjw, htw⟩ := hinv.qw i hmem
      obtain ⟨jr, hjr, htr⟩ := hinv.qr i (by
        rw [show s.queueRead = getQueue JType.read s from rfl, hq]
        exact List.mem_cons_self _ _)
      rw [hjw, Option.some.injEq] at hjr
      rw [← hjr] at htr
      rw [htw] at htr
      exact absurd htr (by simp)
  have hlogids : loggedIds { setQueue t rest s with
      jobs := fun j => if j = i then none else (setQueue t rest s).jobs j,
      log := (setQueue t rest s).log ++ [(job.type, i)] } =
      loggedIds s ++ [i] := by
    unfold loggedIds
    show ((setQueue t rest s).log ++ [(job.type, i)]).map Prod.snd = _
    rw [List.map_append, setQueue_log]
    rfl
  have hsteps : stepIds (E ++ ({ setQueue t rest s with
      jobs := fun j => if j = i then none else (setQueue t rest s).jobs j,
      log := (setQueue t rest s).log ++ [(job.type, i)] }).rafQueue) =
      stepIds (E ++ s.rafQueue) := by
    show stepIds (E ++ (setQueue t rest s).rafQueue) = _
    rw [setQueue_rafQueue]
  have hpopinv : Inv { setQueue t rest s with
      jobs := fun j => if j = i then none else (setQueue t rest s).jobs j } :=
    inv_pop hinv hq
  refine ⟨inv_transfer hpopinv rfl rfl rfl rfl, ?_, ?_, ?_, ?_, ?_, ?_, ?_⟩
  · rw [hlogids]
    refine List.Nodup.append logN (List.nodup_singleton _) ?_
    intro a ha hb
    rw [List.mem_singleton] at hb
    subst hb
    have hqa := logQ a ha
    rcases hqmem with hm | hm
    · exact hqa.1 hm
    · exact hqa.2 hm
  · intro x hx
    rw [hlogids] at hx
    show 1 ≤ x ∧ x ≤ (setQueue t rest s).lastId
    rw [setQueue_lastId]
    rcases List.mem_append.mp hx with hm | hm
    · exact logLe x hm
    · rw [List.mem_singleton] at hm
      subst hm
      exact hbounds
  · intro x hx
    rw [hlogids] at hx
    show x ∉ (setQueue t rest s).queueRead ∧ x ∉ (setQueue t rest s).queueWrite
    rcases List.mem_append.mp hx with hm | hm
    · have hqa := logQ x hm
      exact ⟨fun hc => hqa.1 (hrsub x hc), fun hc => hqa.2 (hwsub x hc)⟩
    · rw [List.mem_singleton] at hm
      subst hm
      exact ⟨hinotr, hinotw⟩
  · intro x hx
    rw [hlogids] at hx
    rw [hsteps]
    rcases List.mem_append.mp hx with hm | hm
    · exact logStep x hm
    · rw [List.mem_singleton] at hm
      subst hm
      intro hsm
      have hqa := stepQ x hsm
      rcases hqmem with hm | hm
      · exact hqa.1 hm
      · exact hqa.2 hm
  · intro x hx
    rw [hsteps] at hx
    show 1 ≤ x ∧ x ≤ (setQueue t rest s).lastId
    rw [setQueue_lastId]
    exact stepLe x hx
  · intro x hx
    rw [hsteps] at hx
    have hqa := stepQ x hx
    exact ⟨fun hc => hqa.1 (hrsub x hc), fun hc => hqa.2 (hwsub x hc)⟩
  · rw [hsteps]; exact stepN

theorem runQueue_good {E : List (Nat × RafCb)} {s : St} (hg : Good E s)
    (t : JType) (fuel : Nat) : Good E (runQueue t fuel s).1 := by
  induction fuel generalizing s with
  | zero => exact hg
  | succ fuel ih =>
    simp only [runQueue]
    cases hq : getQueue t s with
    | nil => exact hg
    | cons i rest =>
      dsimp only
      have hi0 : i ≠ 0 := inv_head_ne_zero hg.inv hq
      rw [if_neg hi0]
      obtain ⟨job, hjob, htype⟩ := inv_head_job hg.inv hq
      have hjob1 : (setQueue t rest s).jobs i = some job := by
        rw [setQueue_jobs]; exact hjob
      rw [hjob1]
      dsimp only
      have hgood3 := good_pop hg hq hjob
      have hexec := exec_good job.fn hgood3
      split
      next s4 heq =>
        rw [heq] at hexec
        exact ih hexec
      next s4 e heq =>
        rw [heq] at hexec
        split
        · have hge : Good E { s4 with onErrorLog := s4.onErrorLog ++ [e] } :=
            good_perm_transfer hexec rfl rfl rfl rfl rfl (List.Perm.refl _)
          exact ih hge
        · exact ih hexec

theorem fastFrame_good {E : List (Nat × RafCb)} {s : St} (hg : Good E s)
    (fuel : Nat) : Good E (fastFrame fuel s) := by
  unfold fastFrame
  dsimp only
  have h1 : Good E { s with pending := false, mode := some Mode.reading } :=
    good_perm_transfer hg rfl rfl rfl rfl rfl (List.Perm.refl _)
  have hexec := runQueue_good h1 JType.read fuel
  split
  next s2 e heq =>
    rw [heq] at hexec
    exact good_perm_transfer hexec rfl rfl rfl rfl rfl (List.Perm.refl _)
  next s2 heq =>
    rw [heq] at hexec
    have h3 : Good E { s2 with mode := some Mode.writing } :=
      good_perm_transfer hexec rfl rfl rfl rfl rfl (List.Perm.refl _)
    have hexec2 := runQueue_good h3 JType.write fuel
    split
    next s4 e heq2 =>
      rw [heq2] at hexec2
      exact good_perm_transfer hexec2 rfl rfl rfl rfl rfl (List.Perm.refl _)
    next s4 heq2 =>
      rw [heq2] at hexec2
      exact good_perm_transfer hexec2 rfl rfl rfl rfl rfl (List.Perm.refl _)

theorem step_resched_good {E : List (Nat × RafCb)} {s : St} {i h0 : Nat}
    {v : Int} {cb : Prog}
    (hg : Good ((h0, RafCb.deferStep i v cb) :: E) s) :
    Good E (setTimer i s.rafNext
      { s with
          rafNext := s.rafNext + 1,
          rafQueue := s.rafQueue ++
            [(s.rafNext, RafCb.deferStep i (v - 1) cb)] }) := by
  obtain ⟨hinv, logN, logLe, logQ, logStep, stepLe, stepQ, stepN⟩ := hg
  have hold : stepIds (((h0, RafCb.deferStep i v cb) :: E) ++ s.rafQueue) =
      i :: stepIds (E ++ s.rafQueue) := rfl
  rw [hold] at logStep stepLe stepQ stepN
  have hnew : stepIds (E ++ (setTimer i s.rafNext
      { s with
          rafNext := s.rafNext + 1,
          rafQueue := s.rafQueue ++
            [(s.rafNext, RafCb.deferStep i (v - 1) cb)] }).rafQueue)
      = stepIds (E ++ s.rafQueue) ++ [i] := by
    rw [setTimer_rafQueue]
    show stepIds (E ++ (s.rafQueue ++ [(s.rafNext, RafCb.deferStep i (v - 1) cb)])) = _
    rw [← List.append_assoc, stepIds_append, stepIds_append, stepIds_step]
  have hperm : (stepIds (E ++ s.rafQueue) ++ [i]).Perm
      (i :: stepIds (E ++ s.rafQueue)) := List.perm_append_singleton _ _
  have hinv2 : Inv (setTimer i s.rafNext
      { s with
          rafNext := s.rafNext + 1,
          rafQueue := s.rafQueue ++
            [(s.rafNext, RafCb.deferStep i (v - 1) cb)] }) := by
    refine inv_setTimer ?_ _ _
    exact inv_transfer hinv rfl rfl rfl rfl
  refine ⟨hinv2, ?_, ?_, ?_, ?_, ?_, ?_, ?_⟩
  · show (loggedIds s).Nodup
    exact logN
  · intro x hx
    show 1 ≤ x ∧ x ≤ s.lastId
    exact logLe x hx
  · intro x hx
    show x ∉ s.queueRead ∧ x ∉ s.queueWrite
    exact logQ x hx
  · intro x hx
    rw [hnew, hperm.mem_iff]
    exact logStep x hx
  · intro x hx
    rw [hnew, hperm.mem_iff] at hx
    show 1 ≤ x ∧ x ≤ s.lastId
    exact stepLe x hx
  · intro x hx
    rw [hnew, hperm.mem_iff] at hx
    show x ∉ s.queueRead ∧ x ∉ s.queueWrite
    exact stepQ x hx
  · rw [hnew]
    exact hperm.nodup_iff.mpr stepN

theorem step_fire_good {E : List (Nat × RafCb)} {s : St} {i h0 : Nat}
    {cb : Prog} {v : Int}
    (hg : Good ((h0, RafCb.deferStep i v cb) :: E) s) :
    Good E { s with log := s.log ++ [(JType.defer, i)] } := by
  obtain ⟨hinv, logN, logLe, logQ, logStep, stepLe, stepQ, stepN⟩ := hg
  have hold : stepIds (((h0, RafCb.deferStep i v cb) :: E) ++ s.rafQueue) =
      i :: stepIds (E ++ s.rafQueue) := rfl
  rw [hold] at logStep stepLe stepQ stepN
  have hlogids : loggedIds { s with log := s.log ++ [(JType.defer, i)] } =
      loggedIds s ++ [i] := by
    unfold loggedIds
    show (s.log ++ [(JType.defer, i)]).map Prod.snd = _
    rw [List.map_append]
    rfl
  have hib := stepLe i (List.mem_cons_self _ _)
  have hiq := stepQ i (List.mem_cons_self _ _)
  have hiS : i ∉ stepIds (E ++ s.rafQueue) := (List.nodup_cons.mp stepN).1
  refine ⟨inv_transfer hinv rfl rfl rfl rfl, ?_, ?_, ?_, ?_, ?_, ?_, ?_⟩
  · rw [hlogids]
    refine List.Nodup.append logN (List.nodup_singleton _) ?_
    intro a ha hb
    rw [List.mem_singleton] at hb
    subst hb
    exact logStep a ha (List.mem_cons_self _ _)
  · intro x hx
    rw [hlogids] at hx
    show 1 ≤ x ∧ x ≤ s.lastId
    rcases List.mem_append.mp hx with hm | hm
    · exact logLe x hm
    · rw [List.mem_singleton] at hm
      subst hm
      exact hib
  · intro x hx
    rw [hlogids] at hx
    show x ∉ s.queueRead ∧ x ∉ s.queueWrite
    rcases List.mem_append.mp hx with hm | hm
    · exact logQ x hm
    · rw [List.mem_singleton] at hm
      subst hm
      exact hiq
  · intro x hx
    rw [hlogids] at hx
    show x ∉ stepIds (E ++ s.rafQueue)
    rcases List.mem_append.mp hx with hm | hm
    · intro hc
      exact logStep x hm (List.mem_cons_of_mem _ hc)
    · rw [List.mem_singleton] at hm
      subst hm
      exact hiS
  · intro x hx
    show 1 ≤ x ∧ x ≤ s.lastId
    exact stepLe x (List.mem_cons_of_mem _ hx)
  · intro x hx
    show x ∉ s.queueRead ∧ x ∉ s.queueWrite
    exact stepQ x (List.mem_cons_of_mem _ hx)
  · exact (List.nodup_cons.mp stepN).2

theorem runRafCb_good {E : List (Nat × RafCb)} {c : Nat × RafCb} {s : St}
    (hg : Good (c :: E) s) (fuel : Nat) : Good E (runRafCb fuel c.2 s) := by
  rcases c with ⟨h0, cc⟩
  cases cc with
  | frame =>
    have hE : Good E s := by
      refine good_perm_transfer hg rfl rfl rfl rfl rfl ?_
      have : stepIds (((h0, RafCb.frame) :: E) ++ s.rafQueue) =
          stepIds (E ++ s.rafQueue) := rfl
      rw [this]
    exact fastFrame_good hE fuel
  | deferStep i v cb =>
    simp only [runRafCb]
    split
    · have h1 := step_fire_good hg
      have hexec := exec_good cb h1
      split
      next s2 heq =>
        rw [heq] at hexec
        exact hexec
      next s2 e heq =>
        rw [heq] at hexec
        exact good_perm_transfer hexec rfl rfl rfl rfl rfl (List.Perm.refl _)
    · exact step_resched_good hg

theorem runRafList_good (fuel : Nat) {L : List (Nat × RafCb)} {s : St}
    (hg : Good L s) : Good [] (runRafList fuel L s) := by
  induction L generalizing s with
  | nil => exact hg
  | cons c cs ih =>
    simp only [runRafList]
    exact ih (runRafCb_good hg fuel)

theorem frameBoundary_good {s : St} (hg : Good [] s) (fuel : Nat) :
    Good [] (frameBoundary fuel s) := by
  unfold frameBoundary
  have h0 : Good s.rafQueue { s with rafQueue := ([] : List (Nat × RafCb)) } := by
    refine good_perm_transfer hg rfl rfl rfl rfl rfl ?_
    show (stepIds (s.rafQueue ++ [])).Perm (stepIds ([] ++ s.rafQueue))
    rw [List.append_nil, List.nil_append]
  exact runRafList_good fuel h0

theorem runFrames_good {s : St} (hg : Good [] s) (fuel k : Nat) :
    Good [] (runFrames fuel k s) := by
  induction k generalizing s with
  | zero => exact hg
  | succ k ih => exact ih (frameBoundary_good hg fuel)

theorem runTurn_good {s : St} (hg : Good [] s) (subs : List Sub) :
    Good [] (runTurn subs s) := by
  induction subs generalizing s with
  | nil => exact hg
  | cons x xs ih =>
    cases x with
    | sread cb => exact ih (readOp_good hg cb)
    | swrite cb => exact ih (writeOp_good hg cb)

/-! ### One-step unfolding equations for concrete executions -/

theorem runQueue_succ (t : JType) (fuel : Nat) (s : St) {i : Nat}
    {rest : List Nat} (hq : getQueue t s = i :: rest) (hi : i ≠ 0)
    {job : Job} (hjob : s.jobs i = some job) :
    runQueue t (fuel + 1) s =
      match execP job.fn { setQueue t rest s with
          jobs := fun j => if j = i then none else (setQueue t rest s).jobs j,
          log := (setQueue t rest s).log ++ [(job.type, i)] } with
      | (s4, none) => runQueue t fuel s4
      | (s4, some e) =>
        runQueue t fuel (if s4.handlerSet
          then { s4 with onErrorLog := s4.onErrorLog ++ [e] } else s4) := by
  simp only [runQueue, hq]
  rw [if_neg hi]
  have hjob1 : (setQueue t rest s).jobs i = some job := by
    rw [setQueue_jobs]; exact hjob
  rw [hjob1]

theorem fastFrame_eq (fuel : Nat) (s : St) :
    fastFrame fuel s =
      match runQueue JType.read fuel
          { s with pending := false, mode := some Mode.reading } with
      | (s2, some e) => { s2 with uncaughtErrors := s2.uncaughtErrors ++ [e] }
      | (s2, none) =>
        match runQueue JType.write fuel { s2 with mode := some Mode.writing } with
        | (s4, some e) => { s4 with uncaughtErrors := s4.uncaughtErrors ++ [e] }
        | (s4, none) => { s4 with mode := none } := rfl

theorem fastFrame_mem (fuel : Nat) (s : St) (e : JType × Nat)
    (h : e ∈ (runQueue JType.read fuel
      { s with pending := false, mode := some Mode.reading }).1.log) :
    e ∈ (fastFrame fuel s).log := by
  rw [fastFrame_eq]
  rcases hr : runQueue JType.read fuel
      { s with pending := false, mode := some Mode.reading } with ⟨s2, e2⟩
  rw [hr] at h
  cases e2 with
  | some er =>
    show e ∈ s2.log
    exact h
  | none =>
    dsimp only
    obtain ⟨l2, h2⟩ := runQueue_logmono JType.write fuel
      { s2 with mode := some Mode.writing }
    rcases hw : runQueue JType.write fuel { s2 with mode := some Mode.writing }
      with ⟨s4, e4⟩
    rw [hw] at h2
    cases e4 with
    | some er =>
      show e ∈ s4.log
      rw [h2]
      exact List.mem_append_left _ h
    | none =>
      show e ∈ s4.log
      rw [h2]
      exact List.mem_append_left _ h

theorem runQueue_mem_head (t : JType) (fuel : Nat) (s : St) {i : Nat}
    {rest : List Nat} (hq : getQueue t s = i :: rest) (hi : i ≠ 0)
    {job : Job} (hjob : s.jobs i = some job) :
    (job.type, i) ∈ (runQueue t (fuel + 1) s).1.log := by
  rw [runQueue_succ t fuel s hq hi hjob]
  split
  next s4 heq =>
    obtain ⟨l1, h1⟩ := execP_logmono job.fn _
    rw [heq] at h1
    obtain ⟨l2, h2⟩ := runQueue_logmono t fuel s4
    rw [h2, h1]
    refine List.mem_append_left _ (List.mem_append_left _ ?_)
    show (job.type, i) ∈ (setQueue t rest s).log ++ [(job.type, i)]
    exact List.mem_append_right _ (List.mem_singleton_self _)
  next s4 e heq =>
    obtain ⟨l1, h1⟩ := execP_logmono job.fn _
    rw [heq] at h1
    obtain ⟨l2, h2⟩ := runQueue_logmono t fuel
      (if s4.handlerSet then { s4 with onErrorLog := s4.onErrorLog ++ [e] }
        else s4)
    have hlogite : (if s4.handlerSet
        then { s4 with onErrorLog := s4.onErrorLog ++ [e] } else s4).log =
        s4.log := by
      split <;> rfl
    rw [h2, hlogite, h1]
    refine List.mem_append_left _ (List.mem_append_left _ ?_)
    show (job.type, i) ∈ (setQueue t rest s).log ++ [(job.type, i)]
    exact List.mem_append_right _ (List.mem_singleton_self _)

theorem read_from_read_same_batch (fuel : Nat) (s : St) (cb : Prog) {i : Nat}
    {tm : Option Nat} (hq : getQueue JType.read s = [i]) (hi : i ≠ 0)
    (hjob : s.jobs i = some ⟨i, Prog.read cb, JType.read, tm⟩) :
    (JType.read, s.lastId + 1) ∈ (runQueue JType.read (fuel + 2) s).1.log := by
  rw [show fuel + 2 = (fuel + 1) + 1 from rfl]
  rw [runQueue_succ JType.read (fuel + 1) s hq hi hjob]
  dsimp only
  simp only [execP]
  have hq2 : (readOp cb
      { setQueue JType.read [] s with
          jobs := fun j => if j = i then none else (setQueue JType.read [] s).jobs j,
          log := (setQueue JType.read [] s).log ++
            [((⟨i, Prog.read cb, JType.read, tm⟩ : Job).type, i)] }).queueRead =
      [s.lastId + 1] := by
    rw [readOp_queueRead]
    rfl
  have hjob2 : (readOp cb
      { setQueue JType.read [] s with
          jobs := fun j => if j = i then none else (setQueue JType.read [] s).jobs j,
          log := (setQueue JType.read [] s).log ++
            [((⟨i, Prog.read cb, JType.read, tm⟩ : Job).type, i)] }).jobs
        (s.lastId + 1) =
      some ⟨s.lastId + 1, cb, JType.read, none⟩ := by
    rw [readOp_jobs]
    exact if_pos rfl
  have hmem := runQueue_mem_head JType.read fuel _ hq2 (by omega) hjob2
  exact hmem

/-- C4 (amended): the drains iterate the live queue.  No job is ever
executed twice — along any execution from an idle scheduler the log of
invocations never repeats an id — and a job submitted to the class being
drained while that drain runs is executed in the same batch, not a later
one: a read submitted from inside the running read callback (job 2) is
invoked in the same frame, whatever its callback does. -/
theorem drain_live_queue_no_loss_no_dup :
    (∀ (p : Prog) (fuel k : Nat),
        (loggedIds (runFrames fuel k (execP p initSt).1)).Nodup) ∧
    (∀ (inner : Prog) (f : Nat),
        (JType.read, 2) ∈
          (frameBoundary (f + 2)
            (runTurn [Sub.sread (Prog.read inner)] initSt)).log) := by
  constructor
  · intro p fuel k
    exact (runFrames_good (exec_good p good_initSt) fuel k).logN
  · intro inner f
    have hb : frameBoundary (f + 2) (runTurn [Sub.sread (Prog.read inner)] initSt)
        = fastFrame (f + 2)
          { runTurn [Sub.sread (Prog.read inner)] initSt with rafQueue := [] } := by
      unfold frameBoundary
      rw [show (runTurn [Sub.sread (Prog.read inner)] initSt).rafQueue =
        [(1, RafCb.frame)] from rfl]
      rfl
    rw [hb]
    apply fastFrame_mem
    exact read_from_read_same_batch f _ inner rfl (by decide) rfl

theorem clearOp_rw_fields {s : St} {i : Nat} {j : Job} (hj : s.jobs i = some j)
    (hd : ¬ j.type = JType.defer) :
    (clearOp i s).jobs i = none ∧
    (clearOp i s).queueRead =
      (if j.type = JType.read then s.queueRead.erase i else s.queueRead) ∧
    (clearOp i s).queueWrite =
      (if j.type = JType.write then s.queueWrite.erase i else s.queueWrite) ∧
    (clearOp i s).rafQueue = s.rafQueue ∧
    (clearOp i s).lastId = s.lastId ∧
    (clearOp i s).log = s.log := by
  unfold clearOp
  rw [hj]
  dsimp only
  rw [if_neg hd]
  exact ⟨by simp, rfl, rfl, rfl, rfl, rfl⟩

/-- C5: cancelling a registered read or write job strictly before the
frame that would run it guarantees its callback is never invoked in any
later frame; a second cancel of the same id is a no-op, and cancelling
an id that is unknown or already run (no registry record) leaves the
state completely unchanged. -/
theorem cancel_before_frame (p : Prog) (i fuel k : Nat) (j : Job)
    (hj : (execP p initSt).1.jobs i = some j)
    (ht : j.type = JType.read ∨ j.type = JType.write) :
    (∀ t, (t, i) ∉
        (runFrames fuel k (clearOp i (execP p initSt).1)).log) ∧
    clearOp i (clearOp i (execP p initSt).1) = clearOp i (execP p initSt).1 ∧
    (∀ u : St, u.jobs i = none → clearOp i u = u) := by
  have hg : Good [] (execP p initSt).1 := exec_good p good_initSt
  have hd : ¬ j.type = JType.defer := by
    rcases ht with ht | ht <;> rw [ht] <;> simp
  obtain ⟨hjn, hqr, hqw, hraf, hlast, hlog⟩ := clearOp_rw_fields hj hd
  have hbounds := hg.inv.keys i j hj
  have hqmem : i ∈ (execP p initSt).1.queueRead ∨
      i ∈ (execP p initSt).1.queueWrite := by
    rcases ht with ht | ht
    · exact Or.inl (hg.inv.regR i j hj ht)
    · exact Or.inr (hg.inv.regW i j hj ht)
  have hnotlogged : i ∉ loggedIds (execP p initSt).1 := by
    intro hmem
    have := hg.logQ i hmem
    rcases hqmem with hm | hm
    · exact this.1 hm
    · exact this.2 hm
  have hdead : Dead i (clearOp i (execP p initSt).1) := by
    refine ⟨hbounds.1, by rw [hlast]; exact hbounds.2, ?_, ?_, ?_⟩
    · rw [hqr]
      rcases ht with ht | ht
      · rw [if_pos ht]
        intro hmem
        rw [List.Nodup.mem_erase_iff hg.inv.qrN] at hmem
        exact hmem.1 rfl
      · rw [ht]
        rw [if_neg (by simp)]
        intro hmem
        obtain ⟨jr, hjr, htr⟩ := hg.inv.qr i hmem
        rw [hj, Option.some.injEq] at hjr
        rw [← hjr] at htr
        rw [ht] at htr
        exact absurd htr (by simp)
    · rw [hqw]
      rcases ht with ht | ht
      · rw [ht]
        rw [if_neg (by simp)]
        intro hmem
        obtain ⟨jw, hjw, htw⟩ := hg.inv.qw i hmem
        rw [hj, Option.some.injEq] at hjw
        rw [← hjw] at htw
        rw [ht] at htw
        exact absurd htw (by simp)
      · rw [if_pos ht]
        intro hmem
        rw [List.Nodup.mem_erase_iff hg.inv.qwN] at hmem
        exact hmem.1 rfl
    · rw [hraf]
      intro hmem
      have hq := hg.stepQ i (by
        rw [List.nil_append]
        exact hmem)
      rcases hqmem with hm | hm
      · exact hq.1 hm
      · exact hq.2 hm
  refine ⟨?_, ?_, fun u hu => clearOp_of_none hu⟩
  · intro t hmem
    obtain ⟨hd2, l, hl, hlne⟩ := runFrames_dead fuel k hdead
    rw [hl] at hmem
    rcases List.mem_append.mp hmem with hm | hm
    · rw [hlog] at hm
      exact hnotlogged (by
        unfold loggedIds
        exact List.mem_map_of_mem Prod.snd hm)
    · exact hlne (t, i) hm rfl
  · exact clearOp_of_none hjn

theorem cancel_before_frame_witness :
    ((execP (Prog.read Prog.nop) initSt).1.jobs 1 =
      some ⟨1, Prog.nop, JType.read, none⟩) ∧
    ((⟨1, Prog.nop, JType.read, none⟩ : Job).type = JType.read ∨
      (⟨1, Prog.nop, JType.read, none⟩ : Job).type = JType.write) ∧
    ((∀ t, (t, 1) ∉
        (runFrames 3 2 (clearOp 1 (execP (Prog.read Prog.nop) initSt).1)).log) ∧
    clearOp 1 (clearOp 1 (execP (Prog.read Prog.nop) initSt).1) =
      clearOp 1 (execP (Prog.read Prog.nop) initSt).1 ∧
    (∀ u : St, u.jobs 1 = none → clearOp 1 u = u)) :=
  ⟨by decide, by decide,
    cancel_before_frame (Prog.read Prog.nop) 1 3 2
      ⟨1, Prog.nop, JType.read, none⟩ (by decide) (by decide)⟩

theorem runQueue_eq_noCheck (t : JType) (fuel : Nat) (s : St) (hs : Inv s) :
    runQueue t fuel s = runQueueNoCheck t fuel s := by
  induction fuel generalizing s with
  | zero => rfl
  | succ fuel ih =>
    simp only [runQueue, runQueueNoCheck]
    cases hq : getQueue t s with
    | nil => rfl
    | cons i rest =>
      dsimp only
      rw [if_neg (inv_head_ne_zero hs hq)]
      obtain ⟨job, hjob, htype⟩ := inv_head_job hs hq
      have hjob1 : (setQueue t rest s).jobs i = some job := by
        rw [setQueue_jobs]; exact hjob
      rw [hjob1]
      dsimp only
      have hpop : Inv { setQueue t rest s with
          jobs := fun j => if j = i then none else (setQueue t rest s).jobs j } :=
        inv_pop hs hq
      have hX : Inv { setQueue t rest s with
          jobs := fun j => if j = i then none else (setQueue t rest s).jobs j,
          log := (setQueue t rest s).log ++ [(job.type, i)] } :=
        inv_transfer hpop rfl rfl rfl rfl
      have hexec := inv_execP hX job.fn
      rcases hex : execP job.fn { setQueue t rest s with
          jobs := fun j => if j = i then none else (setQueue t rest s).jobs j,
          log := (setQueue t rest s).log ++ [(job.type, i)] } with ⟨s4, e4⟩
      rw [hex] at hexec
      cases e4 with
      | none => exact ih s4 hexec
      | some e =>
        dsimp only
        split
        · exact ih _ (inv_transfer hexec rfl rfl rfl rfl)
        · exact ih _ hexec

/-- C10: ids are allocated by pre-increment, so every id is strictly
positive, in the registry and in both queues, along any execution; and
because of that the truthiness-based dequeue of `_run` never mistakes a
queued id for exhaustion: it agrees with the reference drain that stops
only on an empty queue. -/
theorem ids_positive_and_truthy_dequeue_safe :
    (∀ (t : JType) (fn : Prog) (s : St), (addJob t fn s).1 = s.lastId + 1) ∧
    (∀ (p : Prog) (fuel k : Nat) (i : Nat) (j : Job),
        (runFrames fuel k (execP p initSt).1).jobs i = some j → 1 ≤ i) ∧
    (∀ (p : Prog) (fuel k : Nat) (i : Nat),
        i ∈ (runFrames fuel k (execP p initSt).1).queueRead ∨
          i ∈ (runFrames fuel k (execP p initSt).1).queueWrite → 1 ≤ i) ∧
    (∀ (t : JType) (fuel : Nat) (s : St), Inv s →
        runQueue t fuel s = runQueueNoCheck t fuel s) := by
  refine ⟨fun t fn s => rfl, ?_, ?_, fun t fuel s hs => runQueue_eq_noCheck t fuel s hs⟩
  · intro p fuel k i j hj
    have hinv : Inv (runFrames fuel k (execP p initSt).1) :=
      inv_runFrames (inv_execP inv_initSt p) fuel k
    exact (hinv.keys i j hj).1
  · intro p fuel k i hi
    have hinv : Inv (runFrames fuel k (execP p initSt).1) :=
      inv_runFrames (inv_execP inv_initSt p) fuel k
    rcases hi with hi | hi
    · exact (inv_qr_bounds hinv hi).1
    · exact (inv_qw_bounds hinv hi).1

theorem ids_positive_and_truthy_dequeue_safe_witness :
    Inv initSt ∧
    runQueue JType.read 2 initSt = runQueueNoCheck JType.read 2 initSt :=
  ⟨inv_initSt,
    ids_positive_and_truthy_dequeue_safe.2.2.2 JType.read 2 initSt inv_initSt⟩

/-! ### Potential: drain fuel accounting -/

theorem qPot_append (s : St) (q1 q2 : List Nat) :
    qPot s (q1 ++ q2) = qPot s q1 + qPot s q2 := by
  unfold qPot
  rw [List.map_append, List.sum_append]

theorem qPot_congr {s s' : St} {q : List Nat}
    (h : ∀ i ∈ q, s'.jobs i = s.jobs i) : qPot s' q = qPot s q := by
  unfold qPot
  congr 1
  exact List.map_congr_left (fun i hi => by unfold jobSize; rw [h i hi])

theorem qPot_erase_le (s : St) (q : List Nat) (i : Nat) :
    qPot s (q.erase i) ≤ qPot s q := by
  induction q with
  | nil => exact Nat.le_refl _
  | cons a q ih =>
    rw [List.erase_cons]
    split
    · show qPot s q ≤ qPot s (a :: q)
      unfold qPot
      simp only [List.map_cons, List.sum_cons]
      omega
    · show qPot s (a :: q.erase i) ≤ qPot s (a :: q)
      unfold qPot at ih ⊢
      simp only [List.map_cons, List.sum_cons]
      omega

theorem qPot_cons (s : St) (a : Nat) (q : List Nat) :
    qPot s (a :: q) = jobSize s a + qPot s q := by
  unfold qPot
  rw [List.map_cons, List.sum_cons]

/-- Invocation records appended by running a client program are all
defer invocations. -/
theorem exec_log_defer (p : Prog) (s : St) :
    ∃ l, (execP p s).1.log = s.log ++ l ∧ ∀ e ∈ l, e.1 = JType.defer := by
  induction p generalizing s with
  | nop => exact ⟨[], by simp [execP], by simp⟩
  | seq p q ihp ihq =>
    simp only [execP]
    obtain ⟨l1, h1, hl1⟩ := ihp s
    rcases hre : execP p s with ⟨s1, e1⟩
    rw [hre] at h1
    cases e1 with
    | none =>
      obtain ⟨l2, h2, hl2⟩ := ihq s1
      refine ⟨l1 ++ l2, by dsimp only; rw [h2, h1, List.append_assoc], ?_⟩
      intro e he
      rcases List.mem_append.mp he with he | he
      · exact hl1 e he
      · exact hl2 e he
    | some e => exact ⟨l1, h1, hl1⟩
  | read cb ih => exact ⟨[], by simp [execP, readOp_log], by simp⟩
  | write cb ih => exact ⟨[], by simp [execP, writeOp_log], by simp⟩
  | clear i => exact ⟨[], by simp [execP, clearOp_log], by simp⟩
  | throwErr e => exact ⟨[], by simp [execP], by simp⟩
  | defer n cb ih =>
    simp only [execP]
    split
    · exact ⟨[], by simp, by simp⟩
    · simp only [addJob]
      split
      · obtain ⟨l1, h1, hl1⟩ := ih { (addJob JType.defer cb s).2 with
            log := (addJob JType.defer cb s).2.log ++
              [(JType.defer, (addJob JType.defer cb s).1)] }
        split
        next s3 heq =>
          have heq' : execP cb { (addJob JType.defer cb s).2 with
              log := (addJob JType.defer cb s).2.log ++
                [(JType.defer, (addJob JType.defer cb s).1)] } = (s3, none) := heq
          rw [heq'] at h1
          refine ⟨(JType.defer, s.lastId + 1) :: l1, ?_, ?_⟩
          · dsimp only at h1 ⊢
            rw [h1]
            simp [addJob]
          · intro e he
            rcases List.mem_cons.mp he with he | he
            · rw [he]
            · exact hl1 e he
        next s3 e heq =>
          have heq' : execP cb { (addJob JType.defer cb s).2 with
              log := (addJob JType.defer cb s).2.log ++
                [(JType.defer, (addJob JType.defer cb s).1)] } = (s3, some e) := heq
          rw [heq'] at h1
          refine ⟨(JType.defer, s.lastId + 1) :: l1, ?_, ?_⟩
          · dsimp only at h1 ⊢
            rw [h1]
            simp [addJob]
          · intro e2 he
            rcases List.mem_cons.mp he with he | he
            · rw [he]
            · exact hl1 e2 he
      · exact ⟨[], by simp [setTimer_log], by simp⟩

theorem psize_pos (p : Prog) : 1 ≤ psize p := by
  cases p <;> simp [psize] <;> omega

theorem jobSize_le {s s' : St} {k : Nat}
    (h : s'.jobs k = none ∨ s'.jobs k = s.jobs k) :
    jobSize s' k ≤ jobSize s k := by
  rcases h with h | h
  · cases hk : s.jobs k with
    | none => simp [jobSize, h, hk]
    | some j =>
      have hp := psize_pos j.fn
      simp only [jobSize, h, hk]
      omega
  · simp [jobSize, h]

theorem qPot_mono {s s' : St} {q : List Nat}
    (h : ∀ k ∈ q, jobSize s' k ≤ jobSize s k) : qPot s' q ≤ qPot s q := by
  induction q with
  | nil => exact Nat.le_refl _
  | cons a q ih =>
    rw [qPot_cons, qPot_cons]
    exact Nat.add_le_add (h a (List.mem_cons_self a q))
      (ih (fun k hk => h k (List.mem_cons_of_mem a hk)))

theorem qPot_congr_size {s s' : St} {q : List Nat}
    (h : ∀ k ∈ q, jobSize s' k = jobSize s k) : qPot s' q = qPot s q := by
  unfold qPot
  congr 1
  exact List.map_congr_left h

theorem jobSize_setTimer (i h k : Nat) (s : St) :
    jobSize (setTimer i h s) k = jobSize s k := by
  rcases setTimer_jobs i h k s with ⟨h1, h2⟩ | ⟨jb, jb', h1, h2, _, hfn⟩
  · simp [jobSize, h1, h2]
  · simp [jobSize, h1, h2, hfn]

theorem potTotal_setTimer (i h : Nat) (s : St) :
    potTotal (setTimer i h s) = potTotal s := by
  unfold potTotal
  rw [setTimer_queueRead, setTimer_queueWrite,
    qPot_congr_size (fun k _ => jobSize_setTimer i h k s),
    qPot_congr_size (fun k _ => jobSize_setTimer i h k s)]

theorem potTotal_congr {s s' : St} (hR : s'.queueRead = s.queueRead)
    (hW : s'.queueWrite = s.queueWrite)
    (hj : ∀ k, k ∈ s.queueRead ∨ k ∈ s.queueWrite → s'.jobs k = s.jobs k) :
    potTotal s' = potTotal s := by
  unfold potTotal
  rw [hR, hW, qPot_congr (fun k hk => hj k (Or.inl hk)),
    qPot_congr (fun k hk => hj k (Or.inr hk))]

theorem readOp_pot {s : St} (hs : Inv s) (cb : Prog) :
    potTotal (readOp cb s) = potTotal s + (psize cb + 1) := by
  have hR : qPot (readOp cb s) s.queueRead = qPot s s.queueRead :=
    qPot_congr (fun k hk => by
      obtain ⟨j, hj, _⟩ := hs.qr k hk
      have hb := hs.keys k j hj
      rw [readOp_jobs, if_neg (by omega)])
  have hW : qPot (readOp cb s) s.queueWrite = qPot s s.queueWrite :=
    qPot_congr (fun k hk => by
      obtain ⟨j, hj, _⟩ := hs.qw k hk
      have hb := hs.keys k j hj
      rw [readOp_jobs, if_neg (by omega)])
  have hNew : jobSize (readOp cb s) (s.lastId + 1) = psize cb + 1 := by
    unfold jobSize
    rw [readOp_jobs]
    simp
  have hOne : qPot (readOp cb s) [s.lastId + 1] = psize cb + 1 := by
    simp only [qPot, List.map_cons, List.map_nil, List.sum_cons,
      List.sum_nil, Nat.add_zero]
    exact hNew
  unfold potTotal
  rw [readOp_queueRead, readOp_queueWrite, qPot_append, hR, hW, hOne]
  omega

theorem writeOp_pot {s : St} (hs : Inv s) (cb : Prog) :
    potTotal (writeOp cb s) = potTotal s + (psize cb + 1) := by
  have hR : qPot (writeOp cb s) s.queueRead = qPot s s.queueRead :=
    qPot_congr (fun k hk => by
      obtain ⟨j, hj, _⟩ := hs.qr k hk
      have hb := hs.keys k j hj
      rw [writeOp_jobs, if_neg (by omega)])
  have hW : qPot (writeOp cb s) s.queueWrite = qPot s s.queueWrite :=
    qPot_congr (fun k hk => by
      obtain ⟨j, hj, _⟩ := hs.qw k hk
      have hb := hs.keys k j hj
      rw [writeOp_jobs, if_neg (by omega)])
  have hNew : jobSize (writeOp cb s) (s.lastId + 1) = psize cb + 1 := by
    unfold jobSize
    rw [writeOp_jobs]
    simp
  have hOne : qPot (writeOp cb s) [s.lastId + 1] = psize cb + 1 := by
    simp only [qPot, List.map_cons, List.map_nil, List.sum_cons,
      List.sum_nil, Nat.add_zero]
    exact hNew
  unfold potTotal
  rw [writeOp_queueRead, writeOp_queueWrite, qPot_append, hR, hW, hOne]
  omega

theorem clearOp_pot {s : St} (hs : Inv s) (i : Nat) :
    potTotal (clearOp i s) ≤ potTotal s := by
  unfold clearOp
  cases hjob : s.jobs i with
  | none => exact Nat.le_refl _
  | some job =>
    dsimp only
    by_cases hd : job.type = JType.defer
    · rw [if_pos hd]
      cases ht : job.timer with
      | none => exact Nat.le_refl _
      | some h => exact Nat.le_of_eq rfl
    · rw [if_neg hd]
      have hdel : ∀ k,
          (if k = i then none else s.jobs k) = none ∨
          (if k = i then none else s.jobs k) = s.jobs k := by
        intro k
        by_cases hk : k = i
        · exact Or.inl (by rw [if_pos hk])
        · exact Or.inr (by rw [if_neg hk])
      have hmR : qPot { s with
            queueRead := if job.type = JType.read then s.queueRead.erase i
                         else s.queueRead,
            queueWrite := if job.type = JType.write then s.queueWrite.erase i
                          else s.queueWrite,
            jobs := fun j => if j = i then none else s.jobs j }
          (if job.type = JType.read then s.queueRead.erase i
           else s.queueRead) ≤
          qPot s (if job.type = JType.read then s.queueRead.erase i
                  else s.queueRead) :=
        qPot_mono (fun k _ => jobSize_le (hdel k))
      have hmW : qPot { s with
            queueRead := if job.type = JType.read then s.queueRead.erase i
                         else s.queueRead,
            queueWrite := if job.type = JType.write then s.queueWrite.erase i
                          else s.queueWrite,
            jobs := fun j => if j = i then none else s.jobs j }
          (if job.type = JType.write then s.queueWrite.erase i
           else s.queueWrite) ≤
          qPot s (if job.type = JType.write then s.queueWrite.erase i
                  else s.queueWrite) :=
        qPot_mono (fun k _ => jobSize_le (hdel k))
      have heR : qPot s (if job.type = JType.read then s.queueRead.erase i
                         else s.queueRead) ≤ qPot s s.queueRead := by
        split
        · exact qPot_erase_le s s.queueRead i
        · exact Nat.le_refl _
      have heW : qPot s (if job.type = JType.write then s.queueWrite.erase i
                         else s.queueWrite) ≤ qPot s s.queueWrite := by
        split
        · exact qPot_erase_le s s.queueWrite i
        · exact Nat.le_refl _
      have hfin : potTotal { s with
            queueRead := if job.type = JType.read then s.queueRead.erase i
                         else s.queueRead,
            queueWrite := if job.type = JType.write then s.queueWrite.erase i
                          else s.queueWrite,
            jobs := fun j => if j = i then none else s.jobs j } ≤
          potTotal s := by
        unfold potTotal
        dsimp only
        omega
      exact hfin

theorem addJob_pot {s : St} (hs : Inv s) (t : JType) (cb : Prog) :
    potTotal (addJob t cb s).2 = potTotal s := by
  refine potTotal_congr ?_ ?_ ?_
  · rfl
  · rfl
  intro k hk
  have hb : k ≤ s.lastId := by
    rcases hk with hk | hk
    · obtain ⟨j, hj, _⟩ := hs.qr k hk; exact (hs.keys k j hj).2
    · obtain ⟨j, hj, _⟩ := hs.qw k hk; exact (hs.keys k j hj).2
  simp only [addJob]
  rw [if_neg (by omega)]

/-- Running a client program raises the combined queue potential by at
most `psize p - 1`: submissions pay for themselves, so the drain loop's
iteration count is bounded by the starting potential. -/
theorem exec_pot (p : Prog) :
    ∀ {s : St}, Inv s → potTotal (execP p s).1 + 1 ≤ potTotal s + psize p := by
  induction p with
  | nop => intro s hs; simp [execP, psize]
  | throwErr e => intro s hs; simp [execP, psize]
  | clear i =>
    intro s hs
    have hc := clearOp_pot hs i
    simp only [execP, psize]
    omega
  | read cb ih =>
    intro s hs
    have hr := readOp_pot hs cb
    simp only [execP, psize]
    omega
  | write cb ih =>
    intro s hs
    have hw := writeOp_pot hs cb
    simp only [execP, psize]
    omega
  | seq p q ihp ihq =>
    intro s hs
    simp only [execP]
    rcases hre : execP p s with ⟨s1, e1⟩
    have h1 : potTotal s1 + 1 ≤ potTotal s + psize p := by
      have := ihp hs; rw [hre] at this; exact this
    have hInv1 : Inv s1 := by
      have := inv_execP hs p; rw [hre] at this; exact this
    cases e1 with
    | none =>
      have h2 := ihq hInv1
      simp only [psize]
      omega
    | some e =>
      simp only [psize]
      omega
  | defer n cb ih =>
    intro s hs
    simp only [execP]
    split
    · simp only [psize]; omega
    · simp only [addJob]
      have hPot1 : potTotal (addJob JType.defer cb s).2 = potTotal s :=
        addJob_pot hs JType.defer cb
      split
      · -- counter 0: the callback runs synchronously
        have hInv2 : Inv { (addJob JType.defer cb s).2 with
            log := (addJob JType.defer cb s).2.log ++
              [(JType.defer, (addJob JType.defer cb s).1)] } :=
          inv_transfer (inv_addJob_defer hs cb) rfl rfl rfl rfl
        have hPot2 : potTotal { (addJob JType.defer cb s).2 with
            log := (addJob JType.defer cb s).2.log ++
              [(JType.defer, (addJob JType.defer cb s).1)] } = potTotal s := hPot1
        have h3 := ih hInv2
        split
        next s3 heq =>
          have heq' : execP cb { (addJob JType.defer cb s).2 with
              log := (addJob JType.defer cb s).2.log ++
                [(JType.defer, (addJob JType.defer cb s).1)] } = (s3, none) := heq
          rw [heq'] at h3
          simp only [psize]
          show potTotal s3 + 1 ≤ potTotal s + (psize cb + 2)
          have h4 : potTotal s3 + 1 ≤ potTotal s + psize cb := by
            rw [← hPot2]; exact h3
          omega
        next s3 e heq =>
          have heq' : execP cb { (addJob JType.defer cb s).2 with
              log := (addJob JType.defer cb s).2.log ++
                [(JType.defer, (addJob JType.defer cb s).1)] } = (s3, some e) := heq
          rw [heq'] at h3
          simp only [psize]
          show potTotal s3 + 1 ≤ potTotal s + (psize cb + 2)
          have h4 : potTotal s3 + 1 ≤ potTotal s + psize cb := by
            rw [← hPot2]; exact h3
          omega
      · -- positive counter: raf re-registration, queues untouched
        simp only [psize]
        have hle : potTotal s + 1 ≤ potTotal s + (psize cb + 2) := by omega
        refine Nat.le_trans ?_ hle
        refine Nat.add_le_add_right (Nat.le_of_eq ?_) 1
        rw [potTotal_setTimer]
        exact addJob_pot hs JType.defer cb

/-- A clear-free program only appends to the two batch queues. -/
theorem exec_queue_prefix (p : Prog) (hp : clearFree p = true) :
    ∀ s : St, (∃ l, (execP p s).1.queueRead = s.queueRead ++ l) ∧
      (∃ l, (execP p s).1.queueWrite = s.queueWrite ++ l) := by
  induction p with
  | nop =>
    intro s
    exact ⟨⟨[], by simp [execP]⟩, ⟨[], by simp [execP]⟩⟩
  | throwErr e =>
    intro s
    exact ⟨⟨[], by simp [execP]⟩, ⟨[], by simp [execP]⟩⟩
  | clear i => exact absurd hp (by simp [clearFree])
  | read cb ih =>
    intro s
    exact ⟨⟨[s.lastId + 1], by simp [execP, readOp_queueRead]⟩,
           ⟨[], by simp [execP, readOp_queueWrite]⟩⟩
  | write cb ih =>
    intro s
    exact ⟨⟨[], by simp [execP, writeOp_queueRead]⟩,
           ⟨[s.lastId + 1], by simp [execP, writeOp_queueWrite]⟩⟩
  | seq p q ihp ihq =>
    simp only [clearFree, Bool.and_eq_true] at hp
    intro s
    rcases hre : execP p s with ⟨s1, e1⟩
    obtain ⟨⟨l1, h1⟩, ⟨m1, hm1⟩⟩ := ihp hp.1 s
    rw [hre] at h1 hm1
    cases e1 with
    | none =>
      obtain ⟨⟨l2, h2⟩, ⟨m2, hm2⟩⟩ := ihq hp.2 s1
      constructor
      · exact ⟨l1 ++ l2, by
          simp only [execP, hre]
          rw [h2, h1, List.append_assoc]⟩
      · exact ⟨m1 ++ m2, by
          simp only [execP, hre]
          rw [hm2, hm1, List.append_assoc]⟩
    | some e =>
      constructor
      · exact ⟨l1, by simp only [execP, hre]; exact h1⟩
      · exact ⟨m1, by simp only [execP, hre]; exact hm1⟩
  | defer n cb ih =>
    simp only [clearFree] at hp
    intro s
    simp only [execP]
    split
    · exact ⟨⟨[], by simp⟩, ⟨[], by simp⟩⟩
    · simp only [addJob]
      split
      · obtain ⟨⟨l1, h1⟩, ⟨m1, hm1⟩⟩ := ih hp { (addJob JType.defer cb s).2 with
          log := (addJob JType.defer cb s).2.log ++
            [(JType.defer, (addJob JType.defer cb s).1)] }
        split
        next s3 heq =>
          have heq' : execP cb { (addJob JType.defer cb s).2 with
              log := (addJob JType.defer cb s).2.log ++
                [(JType.defer, (addJob JType.defer cb s).1)] } = (s3, none) := heq
          rw [heq'] at h1 hm1
          exact ⟨⟨l1, h1⟩, ⟨m1, hm1⟩⟩
        next s3 e heq =>
          have heq' : execP cb { (addJob JType.defer cb s).2 with
              log := (addJob JType.defer cb s).2.log ++
                [(JType.defer, (addJob JType.defer cb s).1)] } = (s3, some e) := heq
          rw [heq'] at h1 hm1
          exact ⟨⟨l1, h1⟩, ⟨m1, hm1⟩⟩
      · exact ⟨⟨[], by simp [setTimer_queueRead]⟩,
               ⟨[], by simp [setTimer_queueWrite]⟩⟩

/-- Executing a clear-free program keeps every registered callback
clear-free: the registry only gains callbacks that are subterms of `p`. -/
theorem exec_regcf (p : Prog) (hp : clearFree p = true) :
    ∀ {s : St}, RegCF s → RegCF (execP p s).1 := by
  induction p with
  | nop => intro s hs; exact hs
  | throwErr e => intro s hs; exact hs
  | clear i => exact absurd hp (by simp [clearFree])
  | read cb ih =>
    simp only [clearFree] at hp
    intro s hs i j hij
    have hij' : (if i = s.lastId + 1
        then some ⟨s.lastId + 1, cb, JType.read, none⟩
        else s.jobs i) = some j := by
      rw [← readOp_jobs]; exact hij
    by_cases hi : i = s.lastId + 1
    · rw [if_pos hi, Option.some.injEq] at hij'
      rw [← hij']
      exact hp
    · rw [if_neg hi] at hij'
      exact hs i j hij'
  | write cb ih =>
    simp only [clearFree] at hp
    intro s hs i j hij
    have hij' : (if i = s.lastId + 1
        then some ⟨s.lastId + 1, cb, JType.write, none⟩
        else s.jobs i) = some j := by
      rw [← writeOp_jobs]; exact hij
    by_cases hi : i = s.lastId + 1
    · rw [if_pos hi, Option.some.injEq] at hij'
      rw [← hij']
      exact hp
    · rw [if_neg hi] at hij'
      exact hs i j hij'
  | seq p q ihp ihq =>
    simp only [clearFree, Bool.and_eq_true] at hp
    intro s hs
    rcases hre : execP p s with ⟨s1, e1⟩
    have h1 : RegCF s1 := by
      have := ihp hp.1 hs; rw [hre] at this; exact this
    cases e1 with
    | none =>
      have h2 := ihq hp.2 h1
      show RegCF (execP (Prog.seq p q) s).1
      simp only [execP, hre]
      exact h2
    | some e =>
      show RegCF (execP (Prog.seq p q) s).1
      simp only [execP, hre]
      exact h1
  | defer n cb ih =>
    simp only [clearFree] at hp
    intro s hs
    simp only [execP]
    split
    · exact hs
    · simp only [addJob]
      have hs2 : RegCF { (addJob JType.defer cb s).2 with
          log := (addJob JType.defer cb s).2.log ++
            [(JType.defer, (addJob JType.defer cb s).1)] } := by
        intro i j hij
        have hij' : (if i = s.lastId + 1
            then some ⟨s.lastId + 1, cb, JType.defer, none⟩
            else s.jobs i) = some j := hij
        by_cases hi : i = s.lastId + 1
        · rw [if_pos hi, Option.some.injEq] at hij'
          rw [← hij']
          exact hp
        · rw [if_neg hi] at hij'
          exact hs i j hij'
      split
      · have h3 := ih hp hs2
        split
        next s3 heq =>
          have heq' : execP cb { (addJob JType.defer cb s).2 with
              log := (addJob JType.defer cb s).2.log ++
                [(JType.defer, (addJob JType.defer cb s).1)] } = (s3, none) := heq
          rw [heq'] at h3
          exact h3
        next s3 e heq =>
          have heq' : execP cb { (addJob JType.defer cb s).2 with
              log := (addJob JType.defer cb s).2.log ++
                [(JType.defer, (addJob JType.defer cb s).1)] } = (s3, some e) := heq
          rw [heq'] at h3
          exact h3
      · intro i j hij
        have hij2 : (setTimer (s.lastId + 1) (addJob JType.defer cb s).2.rafNext
            { (addJob JType.defer cb s).2 with
                rafNext := (addJob JType.defer cb s).2.rafNext + 1,
                rafQueue := (addJob JType.defer cb s).2.rafQueue ++
                  [((addJob JType.defer cb s).2.rafNext,
                    RafCb.deferStep (s.lastId + 1) (n - 1) cb)] }).jobs i =
            some j := hij
        rcases setTimer_jobs (s.lastId + 1) (addJob JType.defer cb s).2.rafNext i
            { (addJob JType.defer cb s).2 with
                rafNext := (addJob JType.defer cb s).2.rafNext + 1,
                rafQueue := (addJob JType.defer cb s).2.rafQueue ++
                  [((addJob JType.defer cb s).2.rafNext,
                    RafCb.deferStep (s.lastId + 1) (n - 1) cb)] } with
          ⟨hn1, hn2⟩ | ⟨jb, jb', he1, he2, _, hfn⟩
        · rw [hij2] at hn1
          exact absurd hn1 (by simp)
        · rw [hij2] at he1
          obtain rfl : jb' = j := by injection he1 with hinj; exact hinj.symm
          rw [hfn]
          have he2' : (if i = s.lastId + 1
              then some ⟨s.lastId + 1, cb, JType.defer, none⟩
              else s.jobs i) = some jb := he2
          by_cases hi : i = s.lastId + 1
          · rw [if_pos hi, Option.some.injEq] at he2'
            rw [← he2']
            exact hp
          · rw [if_neg hi] at he2'
            exact hs i jb he2'

theorem jobSize_pos (s : St) (k : Nat) : 1 ≤ jobSize s k := by
  cases h : s.jobs k with
  | none => simp [jobSize, h]
  | some j =>
    have := psize_pos j.fn
    simp only [jobSize, h]
    omega

theorem queue_pot_le (t : JType) (s : St) :
    qPot s (getQueue t s) ≤ potTotal s := by
  cases t with
  | read =>
    show qPot s s.queueRead ≤ _
    unfold potTotal
    omega
  | write =>
    show qPot s s.queueWrite ≤ _
    unfold potTotal
    omega
  | defer => exact Nat.zero_le _

/-- Accounting for one drain iteration: popping the head id and deleting
its registry record lowers the combined potential by exactly the job's
size. -/
theorem pot_pop {s u : St} (hs : Inv s) {t : JType} (ht : t ≠ JType.defer)
    {i : Nat} {rest : List Nat} (hq : getQueue t s = i :: rest)
    {job : Job} (hjob : s.jobs i = some job)
    (hR : getQueue t u = rest)
    (hO : ∀ v, v ≠ t → getQueue v u = getQueue v s)
    (hj : ∀ k, k ≠ i → u.jobs k = s.jobs k) :
    potTotal u + (psize job.fn + 1) = potTotal s := by
  cases t with
  | defer => exact absurd rfl ht
  | read =>
    replace hq : s.queueRead = i :: rest := hq
    have hRu : u.queueRead = rest := hR
    have hWu : u.queueWrite = s.queueWrite := hO JType.write (by decide)
    obtain ⟨ji, hji, hti⟩ := hs.qr i (by rw [hq]; exact List.mem_cons_self _ _)
    have hNodup : (i :: rest).Nodup := by rw [← hq]; exact hs.qrN
    have hiRest : i ∉ rest := (List.nodup_cons.mp hNodup).1
    have hRq : qPot u rest = qPot s rest :=
      qPot_congr (fun k hk => hj k (fun hc => hiRest (hc ▸ hk)))
    have hWq : qPot u s.queueWrite = qPot s s.queueWrite :=
      qPot_congr (fun k hk => hj k (by
        intro hc
        obtain ⟨jw, hjw, htw⟩ := hs.qw k hk
        rw [hc, hji, Option.some.injEq] at hjw
        rw [← hjw] at htw
        rw [hti] at htw
        exact absurd htw (by decide)))
    have hsize : jobSize s i = psize job.fn + 1 := by simp only [jobSize, hjob]
    unfold potTotal
    rw [hRu, hWu, hq, qPot_cons, hRq, hWq, hsize]
    omega
  | write =>
    replace hq : s.queueWrite = i :: rest := hq
    have hWu : u.queueWrite = rest := hR
    have hRu : u.queueRead = s.queueRead := hO JType.read (by decide)
    obtain ⟨ji, hji, hti⟩ := hs.qw i (by rw [hq]; exact List.mem_cons_self _ _)
    have hNodup : (i :: rest).Nodup := by rw [← hq]; exact hs.qwN
    have hiRest : i ∉ rest := (List.nodup_cons.mp hNodup).1
    have hWq : qPot u rest = qPot s rest :=
      qPot_congr (fun k hk => hj k (fun hc => hiRest (hc ▸ hk)))
    have hRq : qPot u s.queueRead = qPot s s.queueRead :=
      qPot_congr (fun k hk => hj k (by
        intro hc
        obtain ⟨jw, hjw, htw⟩ := hs.qr k hk
        rw [hc, hji, Option.some.injEq] at hjw
        rw [← hjw] at htw
        rw [hti] at htw
        exact absurd htw (by decide)))
    have hsize : jobSize s i = psize job.fn + 1 := by simp only [jobSize, hjob]
    unfold potTotal
    rw [hRu, hWu, hq, qPot_cons, hRq, hWq, hsize]
    omega

/-- Full drain: with fuel at least the combined potential, `_run` on a
read or write queue dequeues until the queue is empty, never errors,
invokes every id that was queued at the start with its own class, logs
only invocations of that class (plus synchronous defer invocations), and
only appends to the other queue - provided every registered callback is
clear-free. -/
theorem runQueue_drain (t : JType) (ht : t ≠ JType.defer) :
    ∀ (fuel : Nat) (s : St), Inv s → RegCF s → potTotal s ≤ fuel →
      (runQueue t fuel s).2 = none ∧
      Inv (runQueue t fuel s).1 ∧
      RegCF (runQueue t fuel s).1 ∧
      potTotal (runQueue t fuel s).1 ≤ potTotal s ∧
      getQueue t (runQueue t fuel s).1 = [] ∧
      (∀ k ∈ getQueue t s, (t, k) ∈ (runQueue t fuel s).1.log) ∧
      (∃ l, (runQueue t fuel s).1.log = s.log ++ l ∧
        ∀ e ∈ l, e.1 = t ∨ e.1 = JType.defer) ∧
      (∀ v, v ≠ t → ∃ l, getQueue v (runQueue t fuel s).1 =
        getQueue v s ++ l) := by
  intro fuel
  induction fuel with
  | zero =>
    intro s hs hcf hfuel
    have hq0 : getQueue t s = [] := by
      cases hqq : getQueue t s with
      | nil => rfl
      | cons a l =>
        have h1 : qPot s (getQueue t s) ≤ potTotal s := queue_pot_le t s
        rw [hqq, qPot_cons] at h1
        have h2 := jobSize_pos s a
        omega
    simp only [runQueue]
    refine ⟨?_, ?_, ?_, ?_, ?_, ?_, ?_, ?_⟩
    · trivial
    · exact hs
    · exact hcf
    · exact Nat.le_refl _
    · exact hq0
    · intro k hk
      rw [hq0] at hk
      exact absurd hk (List.not_mem_nil k)
    · exact ⟨[], by simp, by simp⟩
    · exact fun v hv => ⟨[], by simp⟩
  | succ fuel ih =>
    intro s hs hcf hfuel
    simp only [runQueue]
    cases hq : getQueue t s with
    | nil =>
      refine ⟨?_, ?_, ?_, ?_, ?_, ?_, ?_, ?_⟩
      · rfl
      · exact hs
      · exact hcf
      · exact Nat.le_refl _
      · exact hq
      · intro k hk
        exact absurd hk (List.not_mem_nil k)
      · exact ⟨[], by simp, by simp⟩
      · exact fun v hv => ⟨[], by simp⟩
    | cons i rest =>
      dsimp only
      have hi0 : i ≠ 0 := inv_head_ne_zero hs hq
      rw [if_neg hi0]
      obtain ⟨job, hjob, htype⟩ := inv_head_job hs hq
      have hjob1 : (setQueue t rest s).jobs i = some job := by
        rw [setQueue_jobs]; exact hjob
      rw [hjob1]
      dsimp only
      set S3 := { setQueue t rest s with
          jobs := fun j => if j = i then none else (setQueue t rest s).jobs j,
          log := (setQueue t rest s).log ++ [(job.type, i)] } with hS3
      have hcfj : clearFree job.fn = true := hcf i job hjob
      have hX3 : Inv S3 := inv_transfer (inv_pop hs hq) rfl rfl rfl rfl
      have hcf3 : RegCF S3 := by
        intro k j hk
        have hk' : (if k = i then none else (setQueue t rest s).jobs k) =
            some j := hk
        by_cases hki : k = i
        · rw [if_pos hki] at hk'
          exact absurd hk' (by simp)
        · rw [if_neg hki, setQueue_jobs] at hk'
          exact hcf k j hk'
      have hS3sq : ∀ v, getQueue v S3 = getQueue v (setQueue t rest s) := by
        intro v; cases v <;> rfl
      have hqS3 : getQueue t S3 = rest := by
        rw [hS3sq t]
        cases t with
        | defer => exact absurd rfl ht
        | read => rfl
        | write => rfl
      have hOS3 : ∀ v, v ≠ t → getQueue v S3 = getQueue v s := by
        intro v hv
        rw [hS3sq v]
        cases v <;> cases t <;> first
          | exact absurd rfl hv
          | rfl
      have hlog3 : S3.log = s.log ++ [(t, i)] := by
        show (setQueue t rest s).log ++ [(job.type, i)] = s.log ++ [(t, i)]
        rw [setQueue_log, htype]
      have hpot3 : potTotal S3 + (psize job.fn + 1) = potTotal s :=
        pot_pop hs ht hq hjob hqS3 hOS3 (fun k hk => by
          show (if k = i then none else (setQueue t rest s).jobs k) = s.jobs k
          rw [if_neg hk, setQueue_jobs])
      have main : ∀ u : St, Inv u → RegCF u →
          potTotal u + 2 ≤ potTotal s →
          (∃ l0, u.log = s.log ++ (t, i) :: l0 ∧
            ∀ e ∈ l0, e.1 = JType.defer) →
          (∃ lr, getQueue t u = rest ++ lr) →
          (∀ v, v ≠ t → ∃ lv, getQueue v u = getQueue v s ++ lv) →
          (runQueue t fuel u).2 = none ∧
          Inv (runQueue t fuel u).1 ∧
          RegCF (runQueue t fuel u).1 ∧
          potTotal (runQueue t fuel u).1 ≤ potTotal s ∧
          getQueue t (runQueue t fuel u).1 = [] ∧
          (∀ k ∈ i :: rest, (t, k) ∈ (runQueue t fuel u).1.log) ∧
          (∃ l, (runQueue t fuel u).1.log = s.log ++ l ∧
            ∀ e ∈ l, e.1 = t ∨ e.1 = JType.defer) ∧
          (∀ v, v ≠ t → ∃ l, getQueue v (runQueue t fuel u).1 =
            getQueue v s ++ l) := by
        intro u hu1 hu2 hu3 hu4 hu5 hu6
        obtain ⟨l0, hul, hl0⟩ := hu4
        obtain ⟨lr, hur⟩ := hu5
        obtain ⟨c1, c2, c3, c4, c5, c6, c7, c8⟩ := ih u hu1 hu2 (by omega)
        refine ⟨c1, c2, c3, by omega, c5, ?_, ?_, ?_⟩
        · intro k hk
          rcases List.mem_cons.mp hk with hk | hk
          · subst hk
            obtain ⟨l, hl, _⟩ := c7
            rw [hl, hul]
            exact List.mem_append.mpr (Or.inl (List.mem_append.mpr
              (Or.inr (List.mem_cons_self _ _))))
          · exact c6 k (by rw [hur]; exact List.mem_append.mpr (Or.inl hk))
        · obtain ⟨l, hl, hlt⟩ := c7
          refine ⟨(t, i) :: (l0 ++ l), ?_, ?_⟩
          · rw [hl, hul, List.append_assoc, List.cons_append]
          · intro e he
            rcases List.mem_cons.mp he with he | he
            · rw [he]
              exact Or.inl rfl
            · rcases List.mem_append.mp he with he | he
              · exact Or.inr (hl0 e he)
              · exact hlt e he
        · intro v hv
          obtain ⟨l, hl⟩ := c8 v hv
          obtain ⟨lv, hlv⟩ := hu6 v hv
          rw [hlv] at hl
          exact ⟨lv ++ l, by rw [hl, List.append_assoc]⟩
      split
      next s4 heq =>
        have hInv4 : Inv s4 := by
          have h := inv_execP hX3 job.fn
          rw [heq] at h
          exact h
        have hRegCF4 : RegCF s4 := by
          have h := exec_regcf job.fn hcfj hcf3
          rw [heq] at h
          exact h
        have hpot4 : potTotal s4 + 1 ≤ potTotal S3 + psize job.fn := by
          have h := exec_pot job.fn hX3
          rw [heq] at h
          exact h
        obtain ⟨ldef, hld, hldt⟩ := exec_log_defer job.fn S3
        rw [heq] at hld
        have hld4 : s4.log = s.log ++ (t, i) :: ldef := by
          have hld' : s4.log = S3.log ++ ldef := hld
          rw [hld', hlog3, List.append_assoc, List.singleton_append]
        obtain ⟨⟨qlr, hqlr⟩, ⟨qlw, hqlw⟩⟩ := exec_queue_prefix job.fn hcfj S3
        rw [heq] at hqlr hqlw
        have hqpre : ∀ v, ∃ l, getQueue v s4 = getQueue v S3 ++ l := by
          intro v
          cases v with
          | read => exact ⟨qlr, hqlr⟩
          | write => exact ⟨qlw, hqlw⟩
          | defer => exact ⟨[], rfl⟩
        refine main s4 hInv4 hRegCF4 (by omega) ⟨ldef, hld4, hldt⟩ ?_ ?_
        · obtain ⟨l, hl⟩ := hqpre t
          rw [hqS3] at hl
          exact ⟨l, hl⟩
        · intro v hv
          obtain ⟨l, hl⟩ := hqpre v
          rw [hOS3 v hv] at hl
          exact ⟨l, hl⟩
      next s4 e4 heq =>
        have hInv4 : Inv s4 := by
          have h := inv_execP hX3 job.fn
          rw [heq] at h
          exact h
        have hRegCF4 : RegCF s4 := by
          have h := exec_regcf job.fn hcfj hcf3
          rw [heq] at h
          exact h
        have hpot4 : potTotal s4 + 1 ≤ potTotal S3 + psize job.fn := by
          have h := exec_pot job.fn hX3
          rw [heq] at h
          exact h
        obtain ⟨ldef, hld, hldt⟩ := exec_log_defer job.fn S3
        rw [heq] at hld
        have hld4 : s4.log = s.log ++ (t, i) :: ldef := by
          have hld' : s4.log = S3.log ++ ldef := hld
          rw [hld', hlog3, List.append_assoc, List.singleton_append]
        obtain ⟨⟨qlr, hqlr⟩, ⟨qlw, hqlw⟩⟩ := exec_queue_prefix job.fn hcfj S3
        rw [heq] at hqlr hqlw
        have hqpre : ∀ v, ∃ l, getQueue v s4 = getQueue v S3 ++ l := by
          intro v
          cases v with
          | read => exact ⟨qlr, hqlr⟩
          | write => exact ⟨qlw, hqlw⟩
          | defer => exact ⟨[], rfl⟩
        have hurs : ∃ l, getQueue t s4 = rest ++ l := by
          obtain ⟨l, hl⟩ := hqpre t
          rw [hqS3] at hl
          exact ⟨l, hl⟩
        have hvrs : ∀ v, v ≠ t → ∃ l, getQueue v s4 = getQueue v s ++ l := by
          intro v hv
          obtain ⟨l, hl⟩ := hqpre v
          rw [hOS3 v hv] at hl
          exact ⟨l, hl⟩
        split
        · have hXq : ∀ v, getQueue v { s4 with
              onErrorLog := s4.onErrorLog ++ [e4] } = getQueue v s4 := by
            intro v; cases v <;> rfl
          have hXpot : potTotal { s4 with
              onErrorLog := s4.onErrorLog ++ [e4] } = potTotal s4 := rfl
          refine main { s4 with onErrorLog := s4.onErrorLog ++ [e4] }
            (inv_transfer hInv4 rfl rfl rfl rfl)
            (fun k j hk => hRegCF4 k j hk) (by omega)
            ⟨ldef, hld4, hldt⟩ ?_ ?_
          · obtain ⟨l, hl⟩ := hurs
            exact ⟨l, by rw [hXq t]; exact hl⟩
          · intro v hv
            obtain ⟨l, hl⟩ := hvrs v hv
            exact ⟨l, by rw [hXq v]; exact hl⟩
        · exact main s4 hInv4 hRegCF4 (by omega) ⟨ldef, hld4, hldt⟩ hurs hvrs

/-- With no frame pending and the scheduler idle, `read` schedules one
frame callback. -/
theorem readOp_fire {s : St} (hm : s.mode = none) (hp : s.pending = false)
    (cb : Prog) :
    (readOp cb s).pending = true ∧
    (readOp cb s).rafQueue = s.rafQueue ++ [(s.rafNext, RafCb.frame)] ∧
    (readOp cb s).rafNext = s.rafNext + 1 := by
  unfold readOp addJob requestOp
  dsimp only
  rw [if_neg (by simp [hm]), if_neg (by simp [hm]), if_neg (by simp [hm]),
    if_neg (by simp [hp])]
  exact ⟨rfl, rfl, rfl⟩

/-- With a frame already pending, `read` schedules nothing new. -/
theorem readOp_skip {s : St} (hp : s.pending = true) (cb : Prog) :
    (readOp cb s).pending = true ∧
    (readOp cb s).rafQueue = s.rafQueue ∧
    (readOp cb s).rafNext = s.rafNext := by
  unfold readOp addJob requestOp
  dsimp only
  split_ifs <;> first
    | exact ⟨hp, rfl, rfl⟩
    | exact absurd hp (by assumption)

/-- With no frame pending and the scheduler idle, `write` schedules one
frame callback. -/
theorem writeOp_fire {s : St} (hm : s.mode = none) (hp : s.pending = false)
    (cb : Prog) :
    (writeOp cb s).pending = true ∧
    (writeOp cb s).rafQueue = s.rafQueue ++ [(s.rafNext, RafCb.frame)] ∧
    (writeOp cb s).rafNext = s.rafNext + 1 := by
  unfold writeOp addJob requestOp
  dsimp only
  rw [if_neg (by simp [hm]), if_neg (by simp [hm]), if_neg (by simp [hm]),
    if_neg (by simp [hp])]
  exact ⟨rfl, rfl, rfl⟩

/-- With a frame already pending, `write` schedules nothing new. -/
theorem writeOp_skip {s : St} (hp : s.pending = true) (cb : Prog) :
    (writeOp cb s).pending = true ∧
    (writeOp cb s).rafQueue = s.rafQueue ∧
    (writeOp cb s).rafNext = s.rafNext := by
  unfold writeOp addJob requestOp
  dsimp only
  split_ifs <;> first
    | exact ⟨hp, rfl, rfl⟩
    | exact absurd hp (by assumption)

theorem regcf_initSt : RegCF initSt := by
  intro i j h
  simp [initSt] at h

/-- State shape along a synchronous turn of clear-free submissions
started from the idle scheduler: the invariants hold, nothing has run,
the potential is bounded by the turn fuel, and either nothing was
submitted (no frame pending) or exactly one frame callback is pending
under handle 1. -/
theorem runTurn_state : ∀ (subs : List Sub),
    (∀ x ∈ subs, clearFree x.cb = true) →
    ∀ s : St, Inv s → RegCF s → s.log = [] → s.mode = none →
    ((s.pending = false ∧ s.rafQueue = [] ∧ s.queueRead = [] ∧
      s.queueWrite = [] ∧ s.rafNext = 1) ∨
     (s.pending = true ∧ s.rafQueue = [(1, RafCb.frame)] ∧ s.rafNext = 2)) →
    Inv (runTurn subs s) ∧ RegCF (runTurn subs s) ∧
    (runTurn subs s).log = [] ∧ (runTurn subs s).mode = none ∧
    potTotal (runTurn subs s) ≤ potTotal s + turnFuel subs ∧
    (((runTurn subs s).pending = false ∧ (runTurn subs s).rafQueue = [] ∧
      (runTurn subs s).queueRead = [] ∧ (runTurn subs s).queueWrite = [] ∧
      (runTurn subs s).rafNext = 1) ∨
     ((runTurn subs s).pending = true ∧
      (runTurn subs s).rafQueue = [(1, RafCb.frame)] ∧
      (runTurn subs s).rafNext = 2)) := by
  intro subs
  induction subs with
  | nil =>
    intro hcf s h1 h2 h3 h4 h5
    exact ⟨h1, h2, h3, h4, by simp [runTurn, turnFuel], h5⟩
  | cons x xs ih =>
    intro hcf s hInv hRegCF hlog hmode hPR
    have hcfx : clearFree x.cb = true := hcf x (List.mem_cons_self _ _)
    have hcfxs : ∀ y ∈ xs, clearFree y.cb = true :=
      fun y hy => hcf y (List.mem_cons_of_mem _ hy)
    cases x with
    | sread cb =>
      have hInvN : Inv (readOp cb s) := inv_readOp hInv cb
      have hRegCFN : RegCF (readOp cb s) := exec_regcf (Prog.read cb) hcfx hRegCF
      have hlogN : (readOp cb s).log = [] := by rw [readOp_log, hlog]
      have hmodeN : (readOp cb s).mode = none := by rw [readOp_mode, hmode]
      have hpotN : potTotal (readOp cb s) = potTotal s + (psize cb + 1) :=
        readOp_pot hInv cb
      have hPRN : ((readOp cb s).pending = false ∧
          (readOp cb s).rafQueue = [] ∧ (readOp cb s).queueRead = [] ∧
          (readOp cb s).queueWrite = [] ∧ (readOp cb s).rafNext = 1) ∨
          ((readOp cb s).pending = true ∧
           (readOp cb s).rafQueue = [(1, RafCb.frame)] ∧
           (readOp cb s).rafNext = 2) := by
        rcases hPR with ⟨h1, h2, h3, h4, h5⟩ | ⟨h1, h2, h3⟩
        · right
          obtain ⟨f1, f2, f3⟩ := readOp_fire hmode h1 cb
          refine ⟨f1, ?_, ?_⟩
          · rw [f2, h2, h5, List.nil_append]
          · rw [f3, h5]
        · right
          obtain ⟨f1, f2, f3⟩ := readOp_skip h1 cb
          exact ⟨f1, by rw [f2, h2], by rw [f3, h3]⟩
      obtain ⟨g1, g2, g3, g4, g5, g6⟩ :=
        ih hcfxs (readOp cb s) hInvN hRegCFN hlogN hmodeN hPRN
      refine ⟨g1, g2, g3, g4, ?_, g6⟩
      show potTotal (runTurn xs (readOp cb s)) ≤
        potTotal s + turnFuel (Sub.sread cb :: xs)
      simp only [turnFuel, Sub.cb]
      omega
    | swrite cb =>
      have hInvN : Inv (writeOp cb s) := inv_writeOp hInv cb
      have hRegCFN : RegCF (writeOp cb s) := exec_regcf (Prog.write cb) hcfx hRegCF
      have hlogN : (writeOp cb s).log = [] := by rw [writeOp_log, hlog]
      have hmodeN : (writeOp cb s).mode = none := by rw [writeOp_mode, hmode]
      have hpotN : potTotal (writeOp cb s) = potTotal s + (psize cb + 1) :=
        writeOp_pot hInv cb
      have hPRN : ((writeOp cb s).pending = false ∧
          (writeOp cb s).rafQueue = [] ∧ (writeOp cb s).queueRead = [] ∧
          (writeOp cb s).queueWrite = [] ∧ (writeOp cb s).rafNext = 1) ∨
          ((writeOp cb s).pending = true ∧
           (writeOp cb s).rafQueue = [(1, RafCb.frame)] ∧
           (writeOp cb s).rafNext = 2) := by
        rcases hPR with ⟨h1, h2, h3, h4, h5⟩ | ⟨h1, h2, h3⟩
        · right
          obtain ⟨f1, f2, f3⟩ := writeOp_fire hmode h1 cb
          refine ⟨f1, ?_, ?_⟩
          · rw [f2, h2, h5, List.nil_append]
          · rw [f3, h5]
        · right
          obtain ⟨f1, f2, f3⟩ := writeOp_skip h1 cb
          exact ⟨f1, by rw [f2, h2], by rw [f3, h3]⟩
      obtain ⟨g1, g2, g3, g4, g5, g6⟩ :=
        ih hcfxs (writeOp cb s) hInvN hRegCFN hlogN hmodeN hPRN
      refine ⟨g1, g2, g3, g4, ?_, g6⟩
      show potTotal (runTurn xs (writeOp cb s)) ≤
        potTotal s + turnFuel (Sub.swrite cb :: xs)
      simp only [turnFuel, Sub.cb]
      omega

/-- `_frame` on an error-free, clear-free state with enough fuel: the log
it produces splits into a reading-phase part (only read and synchronous
defer invocations, containing every initially queued read) followed by a
writing-phase part (only write and synchronous defer invocations,
containing every initially queued write). -/
theorem fastFrame_drain {s : St} (fuel : Nat) (hs : Inv s) (hcf : RegCF s)
    (hfuel : potTotal s ≤ fuel) (hlog : s.log = []) :
    ∃ A B,
      (fastFrame fuel s).log = A ++ B ∧
      (∀ e ∈ A, e.1 = JType.read ∨ e.1 = JType.defer) ∧
      (∀ e ∈ B, e.1 = JType.write ∨ e.1 = JType.defer) ∧
      (∀ k ∈ s.queueRead, (JType.read, k) ∈ A) ∧
      (∀ k ∈ s.queueWrite, (JType.write, k) ∈ B) := by
  unfold fastFrame
  dsimp only
  have hsP : Inv { s with pending := false, mode := some Mode.reading } :=
    inv_transfer hs rfl rfl rfl rfl
  have hcfP : RegCF { s with pending := false, mode := some Mode.reading } :=
    fun i j h => hcf i j h
  have hfuelP : potTotal { s with pending := false, mode := some Mode.reading } ≤ fuel := hfuel
  obtain ⟨d1, d2, d3, d4, d5, d6, d7, d8⟩ :=
    runQueue_drain JType.read (by decide) fuel
      { s with pending := false, mode := some Mode.reading } hsP hcfP hfuelP
  rcases hrq : runQueue JType.read fuel
      { s with pending := false, mode := some Mode.reading } with ⟨s2, e2⟩
  rw [hrq] at d1 d2 d3 d4 d6 d7 d8
  have he2 : e2 = none := d1
  subst he2
  dsimp only
  have hInv2 : Inv s2 := d2
  have hcf2 : RegCF s2 := d3
  have hpot2 : potTotal s2 ≤ potTotal s := d4
  obtain ⟨l1, hl1, hl1t⟩ := d7
  have hl1e : s2.log = l1 := by
    have hsl : ({ s with pending := false, mode := some Mode.reading } : St).log = [] := hlog
    rw [hl1, hsl, List.nil_append]
  obtain ⟨lw, hlw⟩ := d8 JType.write (by decide)
  -- phase 2
  have hsW : Inv { s2 with mode := some Mode.writing } :=
    inv_transfer hInv2 rfl rfl rfl rfl
  have hcfW : RegCF { s2 with mode := some Mode.writing } :=
    fun i j h => hcf2 i j h
  have hfuelW : potTotal { s2 with mode := some Mode.writing } ≤ fuel := by
    have h0 : potTotal { s2 with mode := some Mode.writing } =
      potTotal s2 := rfl
    omega
  obtain ⟨w1, w2, w3, w4, w5, w6, w7, w8⟩ :=
    runQueue_drain JType.write (by decide) fuel
      { s2 with mode := some Mode.writing } hsW hcfW hfuelW
  rcases hrq2 : runQueue JType.write fuel
      { s2 with mode := some Mode.writing } with ⟨s4, e4⟩
  rw [hrq2] at w1 w6 w7
  have he4 : e4 = none := w1
  subst he4
  dsimp only
  obtain ⟨l2, hl2, hl2t⟩ := w7
  have hl2e : s4.log = l1 ++ l2 := by
    have hsl2 : ({ s2 with mode := some Mode.writing } : St).log = l1 := hl1e
    rw [hl2, hsl2]
  refine ⟨l1, l2, ?_, hl1t, hl2t, ?_, ?_⟩
  · show s4.log = l1 ++ l2
    exact hl2e
  · intro k hk
    have hk' : k ∈ getQueue JType.read
        { s with pending := false, mode := some Mode.reading } := hk
    have := d6 k hk'
    rw [hl1e] at this
    exact this
  · intro k hk
    have hk2 : k ∈ getQueue JType.write { s2 with mode := some Mode.writing } := by
      show k ∈ s2.queueWrite
      have hlw' : s2.queueWrite = ({ s with pending := false, mode := some Mode.reading } : St).queueWrite ++ lw := hlw
      rw [hlw']
      exact List.mem_append.mpr (Or.inl hk)
    have hmem := w6 k hk2
    rw [hl2e] at hmem
    rcases List.mem_append.mp hmem with hm | hm
    · have h2 := hl1t (JType.write, k) hm
      rcases h2 with h | h
      · exact absurd (show JType.write = JType.read from h) (by decide)
      · exact absurd (show JType.write = JType.defer from h) (by decide)
    · exact hm

/-- C1: for every sequence of read and write submissions made within one
synchronous turn while the scheduler is idle (callbacks clear-free, fuel
at least the turn's potential), the frame execution triggered by the
turn invokes every submitted read callback before any submitted write
callback: the invocation log of the next frame boundary splits into a
write-free part containing every queued read invocation, followed by a
read-free part containing every queued write invocation. -/
theorem turn_reads_before_writes (subs : List Sub) (fuel : Nat)
    (hcf : ∀ x ∈ subs, clearFree x.cb = true)
    (hfuel : turnFuel subs ≤ fuel) :
    ∃ A B,
      (frameBoundary fuel (runTurn subs initSt)).log = A ++ B ∧
      (∀ e ∈ A, e.1 ≠ JType.write) ∧
      (∀ e ∈ B, e.1 ≠ JType.read) ∧
      (∀ k ∈ (runTurn subs initSt).queueRead, (JType.read, k) ∈ A) ∧
      (∀ k ∈ (runTurn subs initSt).queueWrite, (JType.write, k) ∈ B) := by
  obtain ⟨hInv1, hcf1, hlog1, hmode1, hpot1, hD⟩ :=
    runTurn_state subs hcf initSt inv_initSt regcf_initSt rfl rfl
      (Or.inl ⟨rfl, rfl, rfl, rfl, rfl⟩)
  have hpots : potTotal (runTurn subs initSt) ≤ fuel := by
    have h0 : potTotal initSt = 0 := rfl
    omega
  rcases hD with ⟨p1, p2, p3, p4, p5⟩ | ⟨p1, p2, p3⟩
  · have hb : frameBoundary fuel (runTurn subs initSt) =
        { runTurn subs initSt with rafQueue := [] } := by
      unfold frameBoundary
      rw [p2]
      rfl
    refine ⟨[], [], ?_, by simp, by simp, ?_, ?_⟩
    · rw [hb]
      exact hlog1
    · intro k hk
      rw [p3] at hk
      exact absurd hk (List.not_mem_nil k)
    · intro k hk
      rw [p4] at hk
      exact absurd hk (List.not_mem_nil k)
  · have hb : frameBoundary fuel (runTurn subs initSt) =
        fastFrame fuel { runTurn subs initSt with rafQueue := [] } := by
      unfold frameBoundary
      rw [p2]
      rfl
    have hInvb : Inv { runTurn subs initSt with rafQueue := [] } :=
      inv_transfer hInv1 rfl rfl rfl rfl
    have hcfb : RegCF { runTurn subs initSt with rafQueue := [] } :=
      fun i j h => hcf1 i j h
    have hpotb : potTotal { runTurn subs initSt with rafQueue := [] } ≤
        fuel := hpots
    have hlogb : ({ runTurn subs initSt with rafQueue := [] } : St).log =
        [] := hlog1
    obtain ⟨A, B, c1, c2, c3, c4, c5⟩ :=
      fastFrame_drain fuel hInvb hcfb hpotb hlogb
    refine ⟨A, B, ?_, ?_, ?_, ?_, ?_⟩
    · rw [hb]
      exact c1
    · intro e he
      rcases c2 e he with h | h <;> rw [h] <;> decide
    · intro e he
      rcases c3 e he with h | h <;> rw [h] <;> decide
    · exact c4
    · exact c5

theorem turn_reads_before_writes_witness :
    ((∀ x ∈ [Sub.sread Prog.nop, Sub.swrite Prog.nop],
        clearFree x.cb = true) ∧
      turnFuel [Sub.sread Prog.nop, Sub.swrite Prog.nop] ≤ 6) ∧
    (∃ A B,
      (frameBoundary 6 (runTurn [Sub.sread Prog.nop, Sub.swrite Prog.nop]
        initSt)).log = A ++ B ∧
      (∀ e ∈ A, e.1 ≠ JType.write) ∧
      (∀ e ∈ B, e.1 ≠ JType.read) ∧
      (∀ k ∈ (runTurn [Sub.sread Prog.nop, Sub.swrite Prog.nop]
        initSt).queueRead, (JType.read, k) ∈ A) ∧
      (∀ k ∈ (runTurn [Sub.sread Prog.nop, Sub.swrite Prog.nop]
        initSt).queueWrite, (JType.write, k) ∈ B)) :=
  ⟨⟨by decide, by decide⟩,
    turn_reads_before_writes [Sub.sread Prog.nop, Sub.swrite Prog.nop] 6
      (by decide) (by decide)⟩

/-- Membership in the writing-phase drain log survives to the end of
`_frame`, provided the reading phase finished without error. -/
theorem fastFrame_mem2 (fuel : Nat) (s : St) (e : JType × Nat)
    (herr : (runQueue JType.read fuel
      { s with pending := false, mode := some Mode.reading }).2 = none)
    (h : e ∈ (runQueue JType.write fuel
      { (runQueue JType.read fuel
          { s with pending := false, mode := some Mode.reading }).1 with
        mode := some Mode.writing }).1.log) :
    e ∈ (fastFrame fuel s).log := by
  rw [fastFrame_eq]
  rcases hr : runQueue JType.read fuel
      { s with pending := false, mode := some Mode.reading } with ⟨s2, e2⟩
  rw [hr] at herr h
  have he2 : e2 = none := herr
  subst he2
  dsimp only
  rcases hw : runQueue JType.write fuel { s2 with mode := some Mode.writing }
      with ⟨s4, e4⟩
  have h' : e ∈ (runQueue JType.write fuel
      { s2 with mode := some Mode.writing }).1.log := h
  rw [hw] at h'
  cases e4 with
  | some er =>
    show e ∈ s4.log
    exact h'
  | none =>
    show e ∈ s4.log
    exact h'

/-- C6: a write job submitted from inside a callback running during the
reading phase (job 2, scheduled by read job 1, whatever its body `wb`)
is invoked in the same frame's writing phase, and `_request` schedules
no frame callback for it (with a pure write body the frame ends with an
empty raf registry); a read job submitted from inside a callback running
during the writing phase (job 2, scheduled by write job 1, whatever its
body `rb`) is not invoked in that frame - its log is exactly the write's
invocation - but a new frame callback (handle 2) is requested for it and
it is invoked in the next frame's reading phase. -/
theorem write_same_frame_read_next_frame (wb rb : Prog) :
    ((JType.write, 2) ∈ (frameBoundary 4
      (runTurn [Sub.sread (Prog.write wb)] initSt)).log) ∧
    ((frameBoundary 4
      (runTurn [Sub.sread (Prog.write Prog.nop)] initSt)).rafQueue = []) ∧
    ((frameBoundary 4
      (runTurn [Sub.swrite (Prog.read rb)] initSt)).log =
        [(JType.write, 1)]) ∧
    ((frameBoundary 4
      (runTurn [Sub.swrite (Prog.read rb)] initSt)).rafQueue =
        [(2, RafCb.frame)]) ∧
    ((JType.read, 2) ∈ (runFrames 4 2
      (runTurn [Sub.swrite (Prog.read rb)] initSt)).log) := by
  refine ⟨?_, rfl, rfl, rfl, ?_⟩
  · show (JType.write, 2) ∈ (fastFrame 4
      { runTurn [Sub.sread (Prog.write wb)] initSt with rafQueue := [] }).log
    apply fastFrame_mem2
    · rfl
    · rw [show (4 : Nat) = 3 + 1 from rfl]
      have hjob : ({ (runQueue JType.read (3 + 1)
          { { runTurn [Sub.sread (Prog.write wb)] initSt with
              rafQueue := [] } with
            pending := false, mode := some Mode.reading }).1 with
          mode := some Mode.writing } : St).jobs 2 =
          some ⟨2, wb, JType.write, none⟩ := rfl
      have hq : getQueue JType.write { (runQueue JType.read (3 + 1)
          { { runTurn [Sub.sread (Prog.write wb)] initSt with
              rafQueue := [] } with
            pending := false, mode := some Mode.reading }).1 with
          mode := some Mode.writing } = 2 :: [] := rfl
      exact runQueue_mem_head JType.write 3 _ hq (by omega) hjob
  · show (JType.read, 2) ∈ (fastFrame 4
      { frameBoundary 4 (runTurn [Sub.swrite (Prog.read rb)] initSt) with
        rafQueue := [] }).log
    apply fastFrame_mem
    rw [show (4 : Nat) = 3 + 1 from rfl]
    have hjob : ({ frameBoundary (3 + 1)
          (runTurn [Sub.swrite (Prog.read rb)] initSt) with
        rafQueue := [], pending := false,
        mode := some Mode.reading } : St).jobs 2 =
        some ⟨2, rb, JType.read, none⟩ := rfl
    have hq : getQueue JType.read { frameBoundary (3 + 1)
          (runTurn [Sub.swrite (Prog.read rb)] initSt) with
        rafQueue := [], pending := false,
        mode := some Mode.reading } = 2 :: [] := rfl
    exact runQueue_mem_head JType.read 3 _ hq (by omega) hjob
